import Mathlib

/-!
# bencevent: a preemptible bencode decoder and an iterative bencode encoder

A shallow embedding of `bencode.h` (`bc_1step`, `bc_chunk`, `bc_write`) and of
the client function `itoa` of `tests/test.c`, followed by theorems about them.

Conventions of the embedding.

* A byte (`char`) is a `Nat` below 256.  The decoder only ever compares
  `ch | is->state` with constants below 512 and subtracts `'0'` from a digit,
  so the signedness of `char` plays no role.
* Calls made through the client (`listener->...`, `finished`, `bad_data`) are
  recorded, in call order, as a list of `Event`s returned next to the new
  stream state.
* `unsigned long long acc : 63` is a `Nat` reduced modulo `2^63` after every
  arithmetic operation, `unsigned Len` a `Nat` reduced modulo `2^32`.
* A read outside an array (the tag stack at index -1, an exhausted object
  array, a traversal stack entry never assigned) has no determined value: the
  decoder's tag is then `none`, the encoder's result is then `none`.
* The loop of `bc_write` takes a fuel argument; theorems that say it returns
  give the fuel that suffices.
-/

namespace Bencode

/-! ## Decoder: data model -/

/-- Tags of `enum bc_tag`, in declaration order (`BCT_INT` is 0). -/
inductive bc_tag where
  | BCT_INT
  | BCT_STR
  | BCT_DCT
  | BCT_LST
  | BCT_NONE
  deriving DecidableEq, Repr

/-- Error kinds of `enum bc_err`. -/
inductive bc_err where
  | BCE_UNEXPECTED
  | BCE_OVERFLOW
  | BCE_EXTRAVAL
  deriving DecidableEq, Repr

/-- One call made by the decoder through its client: the six listener
callbacks and the two client notifications.  `str_chunk bytes` stands for
`str_chunk(p, len)` where `bytes` are the `len` bytes at `p`.  The tag of
`bad_data` is `none` when `bc_1step` read it outside the tag stack. -/
inductive Event where
  | lst_enter
  | lst_leave
  | dct_enter
  | dct_leave
  | int_value (v : Int)
  | str_chunk (bytes : List Nat)
  | finished
  | bad_data (e : bc_err) (t : Option bc_tag) (ch : Nat)
  deriving DecidableEq, Repr

/-- The mutable fields of `struct bc_istream` (the client pointer is replaced
by the returned event list). -/
structure bc_istream where
  stack : List bc_tag
  depth : Nat
  state : Nat
  neg : Nat
  acc : Nat
  deriving DecidableEq, Repr

/-- Mealy state `_out`. -/
def st_out : Nat := 0
/-- Mealy state `_in`, `1 << 8`. -/
def st_in : Nat := 256
/-- Mealy state `_col`, `1 << 9`. -/
def st_col : Nat := 512

/-- Number of entries of `stack`, `sizeof(is->stack)`. -/
def STACK_SIZE : Nat := 60

/-- Modulus of the 63-bit accumulator, `2^63`. -/
def ACC_MOD : Nat := 9223372036854775808

/-- The initialiser `BC_ISTREAM_INIT(client)`: `{BCT_NONE}` zero-fills the
other 59 entries (`BCT_INT`), depth 1, state 0, neg 1, acc 0. -/
def BC_ISTREAM_INIT : bc_istream :=
  { stack := bc_tag.BCT_NONE :: List.replicate 59 bc_tag.BCT_INT
    depth := 1
    state := 0
    neg := 1
    acc := 0 }

/-! ## Decoder: `bc_1step` and `bc_chunk` -/

/-- The read `is->stack[is->depth-1]`; at depth 0 the index is -1, outside the
array, and no tag is determined. -/
def topTag (is : bc_istream) : Option bc_tag :=
  if is.depth = 0 then none else is.stack[is.depth - 1]?

/-- The label `error:`: report and leave the stream as it is. -/
def bc_error (is : bc_istream) (err : bc_err) (T : Option bc_tag) (ch : Nat) :
    bc_istream × List Event :=
  (is, [Event.bad_data err T ch])

/-- The label `pop:` reached after the calls `evs`: drop one level, return to
`_out`, and when only the sentinel is left deplete the stack and call
`finished`. -/
def bc_pop (is : bc_istream) (evs : List Event) : bc_istream × List Event :=
  let is1 := { is with depth := is.depth - 1, state := st_out }
  if is1.depth = 1 then ({ is1 with depth := is1.depth - 1 }, evs ++ [Event.finished])
  else (is1, evs)

/-- The label `str:` (also the `default:` case), with `real` the number of
real characters handed to `str_chunk`. -/
def bc_str (is : bc_istream) (T : Option bc_tag) (ch : Nat) (real : Nat) :
    bc_istream × List Event :=
  if T = some bc_tag.BCT_STR ∧ is.state = st_col then
    let is1 := { is with acc := (is.acc + ACC_MOD - real) % ACC_MOD }
    if is1.acc = 0 then bc_pop is1 [Event.str_chunk ([ch].take real)]
    else (is1, [Event.str_chunk ([ch].take real)])
  else bc_error is bc_err.BCE_UNEXPECTED T ch

/-- The statement `is->acc *= 10, is->acc += ch - '0'`. -/
def bc_accum (is : bc_istream) (ch : Nat) : bc_istream :=
  { is with acc := ((is.acc * 10) % ACC_MOD + (ch - 48)) % ACC_MOD }

/-- The statement `is->stack[is->depth++] = tag`. -/
def bc_push (is : bc_istream) (tag : bc_tag) : bc_istream :=
  { is with stack := is.stack.set is.depth tag, depth := is.depth + 1 }

/-- Advance the machine by one character: `bc_1step`.  The `switch` is on
`ch | is->state`. -/
def bc_1step (is : bc_istream) (ch : Nat) : bc_istream × List Event :=
  let T := topTag is
  if is.depth = 0 then bc_error is bc_err.BCE_EXTRAVAL T ch
  else if is.depth = STACK_SIZE then bc_error is bc_err.BCE_OVERFLOW T ch
  else
    let k := ch ||| is.state
    if 48 ≤ k ∧ k ≤ 57 then
      (bc_accum { bc_push is bc_tag.BCT_STR with state := st_in } ch, [])
    else if 48 + st_in ≤ k ∧ k ≤ 57 + st_in then
      (bc_accum is ch, [])
    else if k = 105 then
      ({ bc_push is bc_tag.BCT_INT with state := st_in, neg := 0 }, [])
    else if k = 100 then
      (bc_push is bc_tag.BCT_DCT, [Event.dct_enter])
    else if k = 108 then
      (bc_push is bc_tag.BCT_LST, [Event.lst_enter])
    else if k = 58 + st_in then
      bc_str { is with state := st_col } T ch 0
    else if k = 45 + st_in then
      if T = some bc_tag.BCT_INT then ({ is with neg := 1 }, [])
      else bc_error is bc_err.BCE_UNEXPECTED T ch
    else if k = 43 + st_in then
      if T = some bc_tag.BCT_INT then ({ is with neg := 0 }, [])
      else bc_error is bc_err.BCE_UNEXPECTED T ch
    else if k = 101 + st_in then
      if T = some bc_tag.BCT_INT then
        bc_pop { is with acc := 0 }
          [Event.int_value (if is.neg ≠ 0 then -(is.acc : Int) else (is.acc : Int))]
      else bc_error is bc_err.BCE_UNEXPECTED T ch
    else if k = 101 then
      if T = some bc_tag.BCT_LST then bc_pop is [Event.lst_leave]
      else if T = some bc_tag.BCT_DCT then bc_pop is [Event.dct_leave]
      else bc_error is bc_err.BCE_UNEXPECTED T ch
    else bc_str is T ch 1

/-- Feed a run of bytes: `bc_chunk`, one `bc_1step` per byte, in order. -/
def bc_chunk (is : bc_istream) : List Nat → bc_istream × List Event
  | [] => (is, [])
  | ch :: s =>
    let r := bc_1step is ch
    let r2 := bc_chunk r.1 s
    (r2.1, r.2 ++ r2.2)

/-! ## Object model and the client function `itoa` -/

/-- The object model `struct bc_object` as built by `bcInt`, `bcStr`, `bcLst`
and `bcDct`: the `Len` field of a string, list or dictionary is the length of
the list held here (reduced to `unsigned` where `bc_write` reads it). -/
inductive bc_object where
  | Int (n : Int)
  | Str (Buf : List Nat)
  | Lst (Arr : List bc_object)
  | Dct (Arr : List (bc_object × bc_object))
  deriving Repr

/-- Decimal digits of `n`, most significant first, as ASCII bytes; `fuel`
bounds the number of digits. -/
def natDigits : Nat → Nat → List Nat
  | 0, _ => []
  | fuel + 1, n => if n < 10 then [48 + n] else natDigits fuel (n / 10) ++ [48 + n % 10]

/-- Decimal text of a natural number. -/
def decimalNat (n : Nat) : List Nat := natDigits (n + 1) n

/-- The client function `itoa` of `tests/test.c`, `sprintf(out, "%ld", in)`:
the bytes it writes (its return value is their number). -/
def itoa (n : Int) : List Nat :=
  if n < 0 then 45 :: decimalNat n.natAbs else decimalNat n.natAbs

/-- Modulus of `unsigned`, `2^32`. -/
def UINT_MOD : Nat := 4294967296

/-! ## Encoder: `bc_write` -/

/-- A `struct bc_list_b` as seen through a pointer held on the traversal
stack: the current `Len`, the objects from `Arr` to the end of the array it
points into, and whether `Arr` is the address `&obj` of the parameter of
`bc_write` (true only for the local `first` before its `Arr` is advanced). -/
structure bc_list_b where
  Len : Nat
  Arr : List bc_object
  atObj : Bool
  deriving Repr

/-- An array of `struct bc_kvpair` read through `struct bc_object*`, as
`bc_write` does after storing `&o->as.Lst` for a dictionary: key, value, key,
value, ... -/
def kvSlots : List (bc_object × bc_object) → List bc_object
  | [] => []
  | p :: ps => p.1 :: p.2 :: kvSlots ps

/-- The locals of `bc_write` that change in its loop: `s` as the offset
`s - fst`, the bytes stored in `fst[0 .. s)`, the stack `S.N`, `S.B` (an entry
never assigned is `none`) and the flag `f`. -/
structure bc_wstate where
  s : Nat
  buf : List Nat
  N : Nat
  B : List (Option bc_list_b)
  f : Nat
  deriving Repr

/-- Capacity of `S.B`. -/
def WSTACK_SIZE : Nat := 32

/-- The statement `if (f & (v != &obj)) *s++ = 'e';` closing an iteration. -/
def bc_write_close (st : bc_wstate) (isObj : Bool) : bc_wstate :=
  if st.f = 1 ∧ isObj = false then { st with s := st.s + 1, buf := st.buf ++ [101] } else st

/-- The statement `S.B[S.N++-f] = &o->as.Lst` with the list header `fr`
found at that address; `none` when the index is outside `S.B`. -/
def bc_write_push (st : bc_wstate) (fr : bc_list_b) : Option bc_wstate :=
  if st.N - st.f < WSTACK_SIZE then
    some { st with B := st.B.set (st.N - st.f) (some fr), N := st.N + 1 }
  else none

/-- The `switch (o->Tag)` of the loop body, for the object `o` at `v`. -/
def bc_write_switch (st : bc_wstate) (o : bc_object) : Option bc_wstate :=
  match o with
  | bc_object.Str Buf =>
    let l := Buf.length % UINT_MOD
    some { st with s := st.s + (itoa l).length + 1 + l,
                   buf := st.buf ++ itoa l ++ [58] ++ Buf.take l }
  | bc_object.Int n =>
    some { st with s := st.s + 1 + (itoa n).length + 1,
                   buf := st.buf ++ [105] ++ itoa n ++ [101] }
  | bc_object.Lst Arr =>
    bc_write_push { st with s := st.s + 1, buf := st.buf ++ [108] }
      { Len := Arr.length % UINT_MOD, Arr := Arr, atObj := false }
  | bc_object.Dct Arr =>
    bc_write_push { st with s := st.s + 1, buf := st.buf ++ [100] }
      { Len := ((Arr.length % UINT_MOD) * 2) % UINT_MOD, Arr := kvSlots Arr, atObj := false }

/-- One evaluation of the loop condition
`(S.N-=f) && ((l=--S.B[S.N-1]->Len), (f=!l), (v=S.B[S.N-1]->Arr++))`
followed, when it holds, by the loop body.  The result is `none` when the
code reads a stack entry or an array element that does not exist, otherwise
the new locals and whether the loop goes on. -/
def bc_write_iter (st : bc_wstate) : Option (bc_wstate × Bool) :=
  let N := (st.N + UINT_MOD - st.f) % UINT_MOD
  if N = 0 then some ({ st with N := N }, false)
  else
    match st.B[N - 1]? with
    | some (some fr) =>
      let l := (fr.Len + UINT_MOD - 1) % UINT_MOD
      let f := if l = 0 then 1 else 0
      match fr.Arr with
      | [] => none
      | o :: rest =>
        let st1 := { st with N := N, f := f,
                             B := st.B.set (N - 1) (some { Len := l, Arr := rest, atObj := false }) }
        match bc_write_switch st1 o with
        | some st2 => some (bc_write_close st2 fr.atObj, true)
        | none => none
    | _ => none

/-- The `while` loop of `bc_write`, at most `fuel` evaluations of its
condition: `some` locals when the loop is left within the fuel, `none` when
the fuel runs out or an iteration reads what does not exist. -/
def bc_write_loop : Nat → bc_wstate → Option bc_wstate
  | 0, _ => none
  | fuel + 1, st =>
    match bc_write_iter st with
    | some (st1, true) => bc_write_loop fuel st1
    | some (st1, false) => some st1
    | none => none

/-- The locals of `bc_write` on entry: `first = {1, &obj}`, `S = {1, {&first}}`,
`f = 0`, `s = fst`. -/
def bc_write_init (obj : bc_object) : bc_wstate :=
  { s := 0
    buf := []
    N := 1
    B := some { Len := 1, Arr := [obj], atObj := true } :: List.replicate 31 none
    f := 0 }

/-- Serialise `obj`: `bc_write`.  The result is the bytes stored in the
buffer and the returned count `s - fst`. -/
def bc_write (fuel : Nat) (obj : bc_object) : Option (List Nat × Nat) :=
  match bc_write_loop fuel (bc_write_init obj) with
  | some st => some (st.buf, st.s)
  | none => none

/-! ## Reference encoding and expected events -/

mutual
/-- Canonical bencode text of a value. -/
def enc : bc_object → List Nat
  | bc_object.Int n => 105 :: (itoa n ++ [101])
  | bc_object.Str Buf => itoa Buf.length ++ 58 :: Buf
  | bc_object.Lst Arr => 108 :: (encList Arr ++ [101])
  | bc_object.Dct Arr => 100 :: (encPairs Arr ++ [101])
/-- Concatenated canonical text of the items of a list. -/
def encList : List bc_object → List Nat
  | [] => []
  | x :: xs => enc x ++ encList xs
/-- Concatenated canonical text of the pairs of a dictionary. -/
def encPairs : List (bc_object × bc_object) → List Nat
  | [] => []
  | (k, v) :: ps => enc k ++ (enc v ++ encPairs ps)
end

/-- The accumulator after the digit bytes `ds`, starting from `a`: the
statement `is->acc *= 10, is->acc += ch - '0'` once per byte. -/
def accDigits (a : Nat) (ds : List Nat) : Nat :=
  ds.foldl (fun acc ch => ((acc * 10) % ACC_MOD + (ch - 48)) % ACC_MOD) a

mutual
/-- The calls `bc_1step` makes for the canonical text of a value: a string is
delivered as one empty chunk (at the `':'`) followed by one chunk per byte. -/
def treeEvents : bc_object → List Event
  | bc_object.Int n => [Event.int_value n]
  | bc_object.Str Buf => Event.str_chunk [] :: Buf.map (fun b => Event.str_chunk [b])
  | bc_object.Lst Arr => Event.lst_enter :: (treeEventsList Arr ++ [Event.lst_leave])
  | bc_object.Dct Arr => Event.dct_enter :: (treeEventsPairs Arr ++ [Event.dct_leave])
/-- The calls for the items of a list, in order. -/
def treeEventsList : List bc_object → List Event
  | [] => []
  | x :: xs => treeEvents x ++ treeEventsList xs
/-- The calls for the pairs of a dictionary, in order. -/
def treeEventsPairs : List (bc_object × bc_object) → List Event
  | [] => []
  | (k, v) :: ps => treeEvents k ++ (treeEvents v ++ treeEventsPairs ps)
end

mutual
/-- Pre-order event sequence of a value, each string delivered whole. -/
def preorder : bc_object → List Event
  | bc_object.Int n => [Event.int_value n]
  | bc_object.Str Buf => [Event.str_chunk Buf]
  | bc_object.Lst Arr => Event.lst_enter :: (preorderList Arr ++ [Event.lst_leave])
  | bc_object.Dct Arr => Event.dct_enter :: (preorderPairs Arr ++ [Event.dct_leave])
/-- Pre-order events of the items of a list. -/
def preorderList : List bc_object → List Event
  | [] => []
  | x :: xs => preorder x ++ preorderList xs
/-- Pre-order events of the pairs of a dictionary. -/
def preorderPairs : List (bc_object × bc_object) → List Event
  | [] => []
  | (k, v) :: ps => preorder k ++ (preorder v ++ preorderPairs ps)
end

/-- An event other than `str_chunk`. -/
def Event.notChunk : Event → Bool
  | Event.str_chunk _ => false
  | _ => true

/-- The relation `Chunked evs ideal`: `evs` is `ideal` with every whole-string event
replaced by a run of `str_chunk` calls whose contents, concatenated in call
order, are that string; all other events are the same and in the same
order. -/
inductive Chunked : List Event → List Event → Prop where
  | nil : Chunked [] []
  | str (cs : List (List Nat)) {evs ideal : List Event} :
      Chunked evs ideal →
      Chunked (cs.map Event.str_chunk ++ evs) (Event.str_chunk cs.flatten :: ideal)
  | other (e : Event) {evs ideal : List Event} :
      e.notChunk = true → Chunked evs ideal → Chunked (e :: evs) (e :: ideal)

mutual
/-- A value the decoder can take when it sits inside `k` enclosing
containers: `k` is at most 57 for the value and everything below it, integers
lie strictly between `-2^63` and `2^63`, strings are shorter than `2^63`. -/
def decodable : Nat → bc_object → Bool
  | k, bc_object.Int n => decide (k ≤ 57) && decide (-(2 ^ 63 : Int) < n) && decide (n < (2 ^ 63 : Int))
  | k, bc_object.Str Buf => decide (k ≤ 57) && decide (Buf.length < 2 ^ 63)
  | k, bc_object.Lst Arr => decide (k ≤ 57) && decodableList (k + 1) Arr
  | k, bc_object.Dct Arr => decide (k ≤ 57) && decodablePairs (k + 1) Arr
/-- All items of a list are decodable inside `k` containers. -/
def decodableList : Nat → List bc_object → Bool
  | _, [] => true
  | k, x :: xs => decodable k x && decodableList k xs
/-- All keys and values of a dictionary are decodable inside `k` containers. -/
def decodablePairs : Nat → List (bc_object × bc_object) → Bool
  | _, [] => true
  | k, (key, v) :: ps => decodable k key && (decodable k v && decodablePairs k ps)
end

/-- An event a listener callback receives (not `finished`, not `bad_data`). -/
def Event.isListener : Event → Bool
  | Event.finished => false
  | Event.bad_data _ _ _ => false
  | _ => true

/-- Successive calls of `bc_chunk` on one stream, one call per element of
`chunks`, collecting the events in call order. -/
def bc_chunks (is : bc_istream) : List (List Nat) → bc_istream × List Event
  | [] => (is, [])
  | c :: cs =>
    let r := bc_chunk is c
    let r2 := bc_chunks r.1 cs
    (r2.1, r.2 ++ r2.2)

/-- What one call of `bc_1step` on `is` and `ch` can do, as a property of its
result `r`: either it reports exactly one error, with the top tag read on
entry and the byte, the kind being `Overflow` exactly at depth 60 and
`ExtraValue` exactly at depth 0, and the depth unchanged; or the depth is
neither 0 nor 60 and it makes at most one listener call, possibly followed by
`finished`, in which case the depth becomes 0. -/
def StepShape (is : bc_istream) (ch : Nat) (r : bc_istream × List Event) : Prop :=
  (∃ e, r.2 = [Event.bad_data e (topTag is) ch] ∧ (e = bc_err.BCE_OVERFLOW ↔ is.depth = 60)
      ∧ (e = bc_err.BCE_EXTRAVAL ↔ is.depth = 0) ∧ r.1.depth = is.depth)
  ∨ (is.depth ≠ 0 ∧ is.depth ≠ 60 ∧ ∃ evs : List Event,
      (∀ e ∈ evs, e.isListener = true) ∧ evs.length ≤ 1
      ∧ (r.2 = evs ∨ (r.2 = evs ++ [Event.finished] ∧ r.1.depth = 0)))

/-- The bytes handed to `str_chunk`, concatenated in call order. -/
def chunkBytes : List Event → List Nat
  | [] => []
  | Event.str_chunk bytes :: es => bytes ++ chunkBytes es
  | _ :: es => chunkBytes es

/-- The enter event of a container opener: `'l'` (108) gives `lst_enter`,
`'d'` (100) gives `dct_enter`. -/
def openerEvent (c : Nat) : Event :=
  if c = 108 then Event.lst_enter else Event.dct_enter

/-! ## Encoder: what the claims speak of -/

mutual
/-- Exact encoded length of a value: `len(decimal(n)) + 2` for an integer,
`len(decimal(L)) + 1 + L` for a string of length `L`, and 2 plus the lengths of
the children for a list or dictionary. -/
def encLen : bc_object → Nat
  | bc_object.Int n => (itoa n).length + 2
  | bc_object.Str Buf => (itoa Buf.length).length + 1 + Buf.length
  | bc_object.Lst Arr => 2 + encLenList Arr
  | bc_object.Dct Arr => 2 + encLenPairs Arr
/-- Sum of the encoded lengths of the items of a list. -/
def encLenList : List bc_object → Nat
  | [] => 0
  | x :: xs => encLen x + encLenList xs
/-- Sum of the encoded lengths of the keys and values of a dictionary. -/
def encLenPairs : List (bc_object × bc_object) → Nat
  | [] => 0
  | (k, v) :: ps => encLen k + (encLen v + encLenPairs ps)
end

mutual
/-- Container nesting of a value: 0 for a scalar, one more than the deepest
child for a list or dictionary. -/
def nesting : bc_object → Nat
  | bc_object.Int _ => 0
  | bc_object.Str _ => 0
  | bc_object.Lst Arr => nestingList Arr + 1
  | bc_object.Dct Arr => nestingPairs Arr + 1
/-- Deepest nesting among the items of a list. -/
def nestingList : List bc_object → Nat
  | [] => 0
  | x :: xs => max (nesting x) (nestingList xs)
/-- Deepest nesting among the keys and values of a dictionary. -/
def nestingPairs : List (bc_object × bc_object) → Nat
  | [] => 0
  | (k, v) :: ps => max (nesting k) (max (nesting v) (nestingPairs ps))
end

mutual
/-- Every list and dictionary of the tree has at least one child. -/
def nonEmpty : bc_object → Bool
  | bc_object.Int _ => true
  | bc_object.Str _ => true
  | bc_object.Lst Arr => !Arr.isEmpty && nonEmptyList Arr
  | bc_object.Dct Arr => !Arr.isEmpty && nonEmptyPairs Arr
/-- All items of a list satisfy `nonEmpty`. -/
def nonEmptyList : List bc_object → Bool
  | [] => true
  | x :: xs => nonEmpty x && nonEmptyList xs
/-- All keys and values of a dictionary satisfy `nonEmpty`. -/
def nonEmptyPairs : List (bc_object × bc_object) → Bool
  | [] => true
  | (k, v) :: ps => nonEmpty k && (nonEmpty v && nonEmptyPairs ps)
end

mutual
/-- The counts of the tree fit the `unsigned Len` fields that hold them: a
string or list has fewer than `2^32` elements, and a dictionary has fewer than
`2^31` pairs, so that the doubled count `Len *= 2` is still below `2^32`. -/
def lensFit : bc_object → Bool
  | bc_object.Int _ => true
  | bc_object.Str Buf => decide (Buf.length < UINT_MOD)
  | bc_object.Lst Arr => decide (Arr.length < UINT_MOD) && lensFitList Arr
  | bc_object.Dct Arr => decide (2 * Arr.length < UINT_MOD) && lensFitPairs Arr
/-- All items of a list satisfy `lensFit`. -/
def lensFitList : List bc_object → Bool
  | [] => true
  | x :: xs => lensFit x && lensFitList xs
/-- All keys and values of a dictionary satisfy `lensFit`. -/
def lensFitPairs : List (bc_object × bc_object) → Bool
  | [] => true
  | (k, v) :: ps => lensFit k && (lensFit v && lensFitPairs ps)
end

/-! ## Encoder: the bytes `bc_write` really stores -/

/-- The `'e'` stored by `if (f & (v != &obj)) *s++ = 'e';` when `last`. -/
def closer (last : Bool) : List Nat := if last then [101] else []

mutual
/-- The bytes the loop of `bc_write` stores from the iteration that pulls `o`
until the items below `o` are exhausted, where `last` says that `o` is the
last item of its array and is not the parameter `obj`: the closing `'e'` of
the enclosing container is stored in the iteration of its last item, thus
before the children of that item when the item is a list or dictionary. -/
def wenc : Bool → bc_object → List Nat
  | last, bc_object.Int n => 105 :: (itoa n ++ 101 :: closer last)
  | last, bc_object.Str Buf => itoa Buf.length ++ 58 :: (Buf ++ closer last)
  | last, bc_object.Lst Arr => 108 :: (closer last ++ wencList Arr)
  | last, bc_object.Dct Arr => 100 :: (closer last ++ wencPairs Arr)
/-- The bytes stored for the items of a list array. -/
def wencList : List bc_object → List Nat
  | [] => []
  | x :: xs => wenc xs.isEmpty x ++ wencList xs
/-- The bytes stored for the slots of a dictionary array. -/
def wencPairs : List (bc_object × bc_object) → List Nat
  | [] => []
  | (k, v) :: ps => wenc false k ++ (wenc ps.isEmpty v ++ wencPairs ps)
end

/-- The bytes stored for the objects still to be pulled through one stack
entry; `close` is false for the local `first`, whose only item is `obj`. -/
def wencItems (close : Bool) : List bc_object → List Nat
  | [] => []
  | x :: xs => wenc (close && xs.isEmpty) x ++ wencItems close xs

/-- The bytes stored for a whole traversal stack, listed top first: the top
entry is served first. -/
def wencStack : List bc_list_b → List Nat
  | [] => []
  | fr :: frs => wencItems (!fr.atObj) fr.Arr ++ wencStack frs

mutual
/-- Number of values in a tree. -/
def nodes : bc_object → Nat
  | bc_object.Int _ => 1
  | bc_object.Str _ => 1
  | bc_object.Lst Arr => 1 + nodesList Arr
  | bc_object.Dct Arr => 1 + nodesPairs Arr
/-- Number of values in the items of a list. -/
def nodesList : List bc_object → Nat
  | [] => 0
  | x :: xs => nodes x + nodesList xs
/-- Number of values in the keys and values of a dictionary. -/
def nodesPairs : List (bc_object × bc_object) → Nat
  | [] => 0
  | (k, v) :: ps => nodes k + (nodes v + nodesPairs ps)
end

/-- Number of values still to be pulled through a traversal stack. -/
def nodesStack : List bc_list_b → Nat
  | [] => 0
  | fr :: frs => nodesStack frs + nodesList fr.Arr

mutual
/-- A tree `bc_write` can traverse with `cap` free stack entries: containers
are non-empty, counts fit `unsigned`, nesting is at most `cap`. -/
def writable : Nat → bc_object → Bool
  | _, bc_object.Int _ => true
  | _, bc_object.Str Buf => decide (Buf.length < UINT_MOD)
  | cap, bc_object.Lst Arr =>
    decide (1 ≤ cap) && !Arr.isEmpty && decide (Arr.length < UINT_MOD)
      && writableList (cap - 1) Arr
  | cap, bc_object.Dct Arr =>
    decide (1 ≤ cap) && !Arr.isEmpty && decide (2 * Arr.length < UINT_MOD)
      && writablePairs (cap - 1) Arr
/-- All items of a list are `writable`. -/
def writableList : Nat → List bc_object → Bool
  | _, [] => true
  | cap, x :: xs => writable cap x && writableList cap xs
/-- All keys and values of a dictionary are `writable`. -/
def writablePairs : Nat → List (bc_object × bc_object) → Bool
  | _, [] => true
  | cap, (k, v) :: ps => writable cap k && (writable cap v && writablePairs cap ps)
end

/-- A stack entry at index `i` that the loop can serve: `Len` counts the
objects left, there is at least one, the entry with `Arr == &obj` is the
bottom one and holds one object, and every object left is `writable` with the
entries above index `i` (all 32 for `obj` itself, which is served in place). -/
def GoodFrame (i : Nat) (fr : bc_list_b) : Prop :=
  fr.Len = fr.Arr.length ∧ fr.Arr ≠ [] ∧ fr.Arr.length < UINT_MOD
    ∧ (fr.atObj = true → fr.Arr.length = 1 ∧ i = 0)
    ∧ writableList (if fr.atObj then 32 else 31 - i) fr.Arr = true

/-- Every entry of a stack listed top first, the top one at index
`frs.length - 1`, is a `GoodFrame`. -/
def GoodStack : List bc_list_b → Prop
  | [] => True
  | fr :: frs => GoodFrame frs.length fr ∧ GoodStack frs

/-- The locals `st` at the loop head hold the traversal stack `frs` (listed
top first) once `S.N -= f` is done. -/
def Rep (st : bc_wstate) (frs : List bc_list_b) : Prop :=
  st.B.length = 32 ∧ st.f ≤ 1 ∧ st.f ≤ st.N ∧ st.N - st.f = frs.length
    ∧ st.B.take frs.length = frs.reverse.map some

/-- Decimal value of the digit bytes `ds` read in order, continuing from `a`. -/
def digitsValue (a : Nat) (ds : List Nat) : Nat :=
  ds.foldl (fun v c => v * 10 + (c - 48)) a

/-- The decimal digits among the bytes of `body`, in order. -/
def bodyDigits (body : List Nat) : List Nat :=
  body.filter (fun c => decide (48 ≤ c ∧ c ≤ 57))

/-- Whether the last sign character met so far is `'-'` (45), reading `body`
from the left with `b` the answer before it; `'+'` is 43. -/
def lastSignIsMinus (b : Bool) (body : List Nat) : Bool :=
  body.foldl (fun s c => if c = 45 then true else if c = 43 then false else s) b

/-- Effect of one call on the list of containers that are open (innermost
first): an enter opens one, a leave must be of the kind of the innermost open
container and closes it, `finished` needs every container closed; `none`
when the call breaks this discipline. -/
def nestStep (opn : List bc_tag) : Event → Option (List bc_tag)
  | Event.lst_enter => some (bc_tag.BCT_LST :: opn)
  | Event.dct_enter => some (bc_tag.BCT_DCT :: opn)
  | Event.lst_leave =>
    match opn with
    | bc_tag.BCT_LST :: r => some r
    | _ => none
  | Event.dct_leave =>
    match opn with
    | bc_tag.BCT_DCT :: r => some r
    | _ => none
  | Event.finished =>
    match opn with
    | [] => some []
    | _ => none
  | _ => some opn

/-- Run `nestStep` over a sequence of calls, starting with `opn` open. -/
def nestRun (opn : List bc_tag) : List Event → Option (List bc_tag)
  | [] => some opn
  | e :: es =>
    match nestStep opn e with
    | some o => nestRun o es
    | none => none

/-- The stream `is` has exactly the containers `opn` open (innermost first):
either it is depleted, or it waits for a value with the tags of `opn` above
the sentinel, or it is inside a scalar whose tag `t` lies above them. -/
inductive Track : bc_istream → List bc_tag → Prop where
  | done (stk : List bc_tag) (ng a : Nat) : stk.length = 60 → Track ⟨stk, 0, 0, ng, a⟩ []
  | out (stk : List bc_tag) (ng a : Nat) (opn : List bc_tag) :
      stk.length = 60 → (∀ t ∈ opn, t = bc_tag.BCT_LST ∨ t = bc_tag.BCT_DCT) →
      opn.length + 1 ≤ 60 →
      stk.take (opn.length + 1) = bc_tag.BCT_NONE :: opn.reverse →
      Track ⟨stk, opn.length + 1, 0, ng, a⟩ opn
  | scalar (stk : List bc_tag) (st ng a : Nat) (opn : List bc_tag) (t : bc_tag) :
      stk.length = 60 → (∀ t ∈ opn, t = bc_tag.BCT_LST ∨ t = bc_tag.BCT_DCT) →
      opn.length + 2 ≤ 60 → (st = 256 ∨ st = 512) →
      (t = bc_tag.BCT_INT ∨ t = bc_tag.BCT_STR) →
      stk.take (opn.length + 2) = bc_tag.BCT_NONE :: (opn.reverse ++ [t]) →
      Track ⟨stk, opn.length + 2, st, ng, a⟩ opn

/-- The calls of a run whose outermost container was opened by `'l'`, rewritten
for the same run opened by `'d'`; `n` is the number of containers open before
the calls.  The `lst_enter` met with none open and the `lst_leave` met with
one open (those of the outermost container) become `dct_enter` and
`dct_leave`, and an error reported with tag List while exactly one container
is open carries tag Dictionary; every other call is kept. -/
def outerSwap : Nat → List Event → List Event
  | _, [] => []
  | n, Event.lst_enter :: es =>
    (if n = 0 then Event.dct_enter else Event.lst_enter) :: outerSwap (n + 1) es
  | n, Event.dct_enter :: es => Event.dct_enter :: outerSwap (n + 1) es
  | n, Event.lst_leave :: es =>
    (if n = 1 then Event.dct_leave else Event.lst_leave) :: outerSwap (n - 1) es
  | n, Event.dct_leave :: es => Event.dct_leave :: outerSwap (n - 1) es
  | n, Event.bad_data k t c :: es =>
    Event.bad_data k (if n = 1 ∧ t = some bc_tag.BCT_LST then some bc_tag.BCT_DCT else t) c
      :: outerSwap n es
  | n, Event.int_value v :: es => Event.int_value v :: outerSwap n es
  | n, Event.str_chunk b :: es => Event.str_chunk b :: outerSwap n es
  | n, Event.finished :: es => Event.finished :: outerSwap n es

/-- The stream `is` with its tag stack replaced by `stk`. -/
def withStack (is : bc_istream) (stk : List bc_tag) : bc_istream :=
  { is with stack := stk }

/-- A scalar value: an integer or a string. -/
def isScalar : bc_object → Bool
  | bc_object.Int _ => true
  | bc_object.Str _ => true
  | _ => false

/-! ## Encoder: the course of the loop -/

mutual
/-- The values of a tree in the order of a depth-first walk, left to right:
the value itself, then the values of its children. -/
def values : bc_object → List bc_object
  | bc_object.Int n => [bc_object.Int n]
  | bc_object.Str Buf => [bc_object.Str Buf]
  | bc_object.Lst Arr => bc_object.Lst Arr :: valuesList Arr
  | bc_object.Dct Arr => bc_object.Dct Arr :: valuesPairs Arr
/-- The values of the items of a list, item after item. -/
def valuesList : List bc_object → List bc_object
  | [] => []
  | x :: xs => values x ++ valuesList xs
/-- The values of the keys and values of a dictionary, pair after pair. -/
def valuesPairs : List (bc_object × bc_object) → List bc_object
  | [] => []
  | (k, v) :: ps => values k ++ (values v ++ valuesPairs ps)
end

/-- The values still to be pulled through a traversal stack listed top first. -/
def valuesStack : List bc_list_b → List bc_object
  | [] => []
  | fr :: frs => valuesList fr.Arr ++ valuesStack frs

/-- The index written by `S.B[S.N++-f] = &o->as.Lst` when the object pulled is
a list or a dictionary; a scalar writes no entry. -/
def pushIndex (N f : Nat) : bc_object → List Nat
  | bc_object.Lst _ => [N - f]
  | bc_object.Dct _ => [N - f]
  | _ => []

/-- The object at `v` in the iteration that starts from the locals `st`:
`*S.B[S.N-1]->Arr` once `S.N -= f` is done; `none` when the loop ends there
or the object does not exist. -/
def bc_write_pulled (st : bc_wstate) : Option bc_object :=
  let N := (st.N + UINT_MOD - st.f) % UINT_MOD
  if N = 0 then none
  else
    match st.B[N - 1]? with
    | some (some fr) => fr.Arr.head?
    | _ => none

/-- The indices of `S.B` used by the iteration that starts from the locals
`st`: `S.N-1` read in the loop condition, then `S.N - f` written by the body
when the object pulled is a list or a dictionary. -/
def bc_write_indices (st : bc_wstate) : List Nat :=
  let N := (st.N + UINT_MOD - st.f) % UINT_MOD
  if N = 0 then []
  else
    (N - 1) ::
      match st.B[N - 1]? with
      | some (some fr) =>
        match fr.Arr with
        | o :: _ => pushIndex N (if (fr.Len + UINT_MOD - 1) % UINT_MOD = 0 then 1 else 0) o
        | [] => []
      | _ => []

/-- The locals at each evaluation of the loop condition of `bc_write`, in
order, for at most `fuel` evaluations starting from `st`. -/
def bc_write_trace : Nat → bc_wstate → List bc_wstate
  | 0, _ => []
  | fuel + 1, st =>
    st :: (match bc_write_iter st with
      | some (st1, true) => bc_write_trace fuel st1
      | _ => [])

/-! ## Decoder: basic facts -/

open bc_tag bc_err

theorem bc_chunk_nil (is : bc_istream) : bc_chunk is [] = (is, []) := rfl

theorem bc_chunk_cons (is : bc_istream) (ch : Nat) (s : List Nat) :
    bc_chunk is (ch :: s) =
      ((bc_chunk (bc_1step is ch).1 s).1, (bc_1step is ch).2 ++ (bc_chunk (bc_1step is ch).1 s).2) :=
  rfl

theorem bc_chunk_append (is : bc_istream) (a b : List Nat) :
    bc_chunk is (a ++ b) =
      ((bc_chunk (bc_chunk is a).1 b).1, (bc_chunk is a).2 ++ (bc_chunk (bc_chunk is a).1 b).2) := by
  induction a generalizing is with
  | nil => simp [bc_chunk_nil]
  | cons ch a ih => simp [bc_chunk_cons, ih, List.append_assoc]

theorem bc_chunk_eq_of_step {is is1 : bc_istream} {ch : Nat} {e1 : List Event} {s : List Nat}
    (h : bc_1step is ch = (is1, e1)) :
    bc_chunk is (ch :: s) = ((bc_chunk is1 s).1, e1 ++ (bc_chunk is1 s).2) := by
  rw [bc_chunk_cons, h]

theorem bc_chunk_eq_of_append {is is1 : bc_istream} {a b : List Nat} {e1 : List Event}
    (h : bc_chunk is a = (is1, e1)) :
    bc_chunk is (a ++ b) = ((bc_chunk is1 b).1, e1 ++ (bc_chunk is1 b).2) := by
  rw [bc_chunk_append, h]

theorem lor_col_ge (ch : Nat) : 512 ≤ ch ||| 512 := by
  by_contra h
  have h1 : (ch ||| 512).testBit 9 = false :=
    Nat.testBit_lt_two_pow (by norm_num at h ⊢; omega)
  rw [Nat.testBit_or] at h1
  have h2 : (512 : Nat).testBit 9 = true := by decide
  simp [h2] at h1

theorem step_col (stk : List bc_tag) (d ng a ch : Nat) (hd0 : d ≠ 0) (hd : d ≠ 60) :
    bc_1step ⟨stk, d, 512, ng, a⟩ ch
      = bc_str ⟨stk, d, 512, ng, a⟩ (topTag ⟨stk, d, 512, ng, a⟩) ch 1 := by
  have hk := lor_col_ge ch
  unfold bc_1step
  simp only [hd0, hd, STACK_SIZE, st_in, if_false]
  generalize ch ||| 512 = k at hk
  repeat rw [if_neg (by omega)]

theorem step_digit_in (stk : List bc_tag) (d ng a ch : Nat) (hd0 : d ≠ 0) (hd : d ≠ 60)
    (h1 : 48 ≤ ch) (h2 : ch ≤ 57) :
    bc_1step ⟨stk, d, 256, ng, a⟩ ch = (bc_accum ⟨stk, d, 256, ng, a⟩ ch, []) := by
  unfold bc_1step
  simp only [hd0, hd, STACK_SIZE, if_false]
  interval_cases ch <;> rfl

theorem step_digit_out (stk : List bc_tag) (d ng a ch : Nat) (hd0 : d ≠ 0) (hd : d ≠ 60)
    (h1 : 48 ≤ ch) (h2 : ch ≤ 57) :
    bc_1step ⟨stk, d, 0, ng, a⟩ ch
      = (bc_accum ⟨stk.set d BCT_STR, d + 1, 256, ng, a⟩ ch, []) := by
  unfold bc_1step
  simp only [hd0, hd, STACK_SIZE, if_false]
  interval_cases ch <;> rfl

theorem step_i (stk : List bc_tag) (d ng a : Nat) (hd0 : d ≠ 0) (hd : d ≠ 60) :
    bc_1step ⟨stk, d, 0, ng, a⟩ 105 = (⟨stk.set d BCT_INT, d + 1, 256, 0, a⟩, []) := by
  unfold bc_1step
  simp only [hd0, hd, STACK_SIZE, if_false]
  rfl

theorem step_l (stk : List bc_tag) (d ng a : Nat) (hd0 : d ≠ 0) (hd : d ≠ 60) :
    bc_1step ⟨stk, d, 0, ng, a⟩ 108
      = (⟨stk.set d BCT_LST, d + 1, 0, ng, a⟩, [Event.lst_enter]) := by
  unfold bc_1step
  simp only [hd0, hd, STACK_SIZE, if_false]
  rfl

theorem step_d (stk : List bc_tag) (d ng a : Nat) (hd0 : d ≠ 0) (hd : d ≠ 60) :
    bc_1step ⟨stk, d, 0, ng, a⟩ 100
      = (⟨stk.set d BCT_DCT, d + 1, 0, ng, a⟩, [Event.dct_enter]) := by
  unfold bc_1step
  simp only [hd0, hd, STACK_SIZE, if_false]
  rfl

theorem topTag_eq (stk : List bc_tag) (d st ng a : Nat) (hd0 : d ≠ 0) :
    topTag ⟨stk, d, st, ng, a⟩ = stk[d - 1]? := by
  simp [topTag, hd0]

theorem step_minus (stk : List bc_tag) (d ng a : Nat) (hd0 : d ≠ 0) (hd : d ≠ 60)
    (hT : stk[d - 1]? = some BCT_INT) :
    bc_1step ⟨stk, d, 256, ng, a⟩ 45 = (⟨stk, d, 256, 1, a⟩, []) := by
  unfold bc_1step
  simp only [hd0, hd, STACK_SIZE, if_false, topTag_eq _ _ _ _ _ hd0, hT]
  rfl

theorem step_plus (stk : List bc_tag) (d ng a : Nat) (hd0 : d ≠ 0) (hd : d ≠ 60)
    (hT : stk[d - 1]? = some BCT_INT) :
    bc_1step ⟨stk, d, 256, ng, a⟩ 43 = (⟨stk, d, 256, 0, a⟩, []) := by
  unfold bc_1step
  simp only [hd0, hd, STACK_SIZE, if_false, topTag_eq _ _ _ _ _ hd0, hT]
  rfl

theorem step_e_int (stk : List bc_tag) (d ng a : Nat) (hd0 : d ≠ 0) (hd : d ≠ 60)
    (hT : stk[d - 1]? = some BCT_INT) :
    bc_1step ⟨stk, d, 256, ng, a⟩ 101
      = bc_pop ⟨stk, d, 256, ng, 0⟩ [Event.int_value (if ng ≠ 0 then -(a : Int) else (a : Int))] := by
  unfold bc_1step
  simp only [hd0, hd, STACK_SIZE, if_false, topTag_eq _ _ _ _ _ hd0, hT]
  rfl

theorem step_e_lst (stk : List bc_tag) (d ng a : Nat) (hd0 : d ≠ 0) (hd : d ≠ 60)
    (hT : stk[d - 1]? = some BCT_LST) :
    bc_1step ⟨stk, d, 0, ng, a⟩ 101 = bc_pop ⟨stk, d, 0, ng, a⟩ [Event.lst_leave] := by
  unfold bc_1step
  simp only [hd0, hd, STACK_SIZE, if_false, topTag_eq _ _ _ _ _ hd0, hT]
  rfl

theorem step_e_dct (stk : List bc_tag) (d ng a : Nat) (hd0 : d ≠ 0) (hd : d ≠ 60)
    (hT : stk[d - 1]? = some BCT_DCT) :
    bc_1step ⟨stk, d, 0, ng, a⟩ 101 = bc_pop ⟨stk, d, 0, ng, a⟩ [Event.dct_leave] := by
  unfold bc_1step
  simp only [hd0, hd, STACK_SIZE, if_false, topTag_eq _ _ _ _ _ hd0, hT]
  rfl

theorem step_colon (stk : List bc_tag) (d ng a : Nat) (hd0 : d ≠ 0) (hd : d ≠ 60) :
    bc_1step ⟨stk, d, 256, ng, a⟩ 58
      = bc_str ⟨stk, d, 512, ng, a⟩ (topTag ⟨stk, d, 256, ng, a⟩) 58 0 := by
  unfold bc_1step
  simp only [hd0, hd, STACK_SIZE, if_false]
  rfl

/-! ## Decoder: digits, integers and strings -/

theorem natDigits_digit (fuel n c : Nat) (h : c ∈ natDigits fuel n) : 48 ≤ c ∧ c ≤ 57 := by
  induction fuel generalizing n with
  | zero => simp [natDigits] at h
  | succ fuel ih =>
    unfold natDigits at h
    split_ifs at h with h10
    · simp at h; omega
    · rcases List.mem_append.1 h with h | h
      · exact ih _ h
      · simp at h; omega

theorem natDigits_ne_nil (fuel n : Nat) (h : n < fuel) : natDigits fuel n ≠ [] := by
  cases fuel with
  | zero => omega
  | succ fuel =>
    unfold natDigits
    split_ifs <;> simp

theorem accDigits_append (a : Nat) (xs ys : List Nat) :
    accDigits a (xs ++ ys) = accDigits (accDigits a xs) ys := by
  simp [accDigits, List.foldl_append]

theorem accDigits_natDigits (fuel n : Nat) (h : n < fuel) (hn : n < ACC_MOD) :
    accDigits 0 (natDigits fuel n) = n := by
  induction fuel generalizing n with
  | zero => omega
  | succ fuel ih =>
    unfold natDigits
    split_ifs with h10
    · simp only [accDigits, List.foldl_cons, List.foldl_nil, ACC_MOD] at hn ⊢
      omega
    · rw [accDigits_append, ih (n / 10) (by omega) (by omega)]
      simp only [accDigits, List.foldl_cons, List.foldl_nil, ACC_MOD] at hn ⊢
      omega

theorem chunk_digits_in (ds : List Nat) (hds : ∀ c ∈ ds, 48 ≤ c ∧ c ≤ 57)
    (stk : List bc_tag) (d ng a : Nat) (hd0 : d ≠ 0) (hd : d ≠ 60) :
    bc_chunk ⟨stk, d, 256, ng, a⟩ ds = (⟨stk, d, 256, ng, accDigits a ds⟩, []) := by
  induction ds generalizing a with
  | nil => rfl
  | cons c ds ih =>
    have hc := hds c (List.mem_cons_self _ _)
    rw [bc_chunk_eq_of_step (step_digit_in stk d ng a c hd0 hd hc.1 hc.2)]
    simp only [bc_accum]
    rw [ih (fun c hc => hds c (List.mem_cons_of_mem _ hc))]
    rfl

theorem chunk_digits_out (ds : List Nat) (hds : ∀ c ∈ ds, 48 ≤ c ∧ c ≤ 57) (hne : ds ≠ [])
    (stk : List bc_tag) (d ng a : Nat) (hd0 : d ≠ 0) (hd : d + 1 < 60) :
    bc_chunk ⟨stk, d, 0, ng, a⟩ ds
      = (⟨stk.set d BCT_STR, d + 1, 256, ng, accDigits a ds⟩, []) := by
  cases ds with
  | nil => exact absurd rfl hne
  | cons c ds =>
    have hc := hds c (List.mem_cons_self _ _)
    rw [bc_chunk_eq_of_step (step_digit_out stk d ng a c hd0 (by omega) hc.1 hc.2)]
    simp only [bc_accum]
    rw [chunk_digits_in ds (fun c hc => hds c (List.mem_cons_of_mem _ hc)) _ _ _ _
      (by omega) (by omega)]
    rfl

theorem bc_pop_eq (stk : List bc_tag) (d st ng a : Nat) (evs : List Event) :
    bc_pop ⟨stk, d + 1, st, ng, a⟩ evs
      = (⟨stk, if d = 1 then 0 else d, 0, ng, a⟩, evs ++ if d = 1 then [Event.finished] else []) := by
  unfold bc_pop
  by_cases h : d = 1
  · subst h; rfl
  · simp [h, st_out]

theorem chunk_str_body (bs : List Nat) (hne : bs ≠ []) (hlen : bs.length < ACC_MOD)
    (stk : List bc_tag) (d ng : Nat) (hd : d + 1 ≠ 60)
    (hT : stk[d]? = some BCT_STR) :
    bc_chunk ⟨stk, d + 1, 512, ng, bs.length⟩ bs
      = (⟨stk, if d = 1 then 0 else d, 0, ng, 0⟩,
         bs.map (fun b => Event.str_chunk [b]) ++ if d = 1 then [Event.finished] else []) := by
  induction bs with
  | nil => exact absurd rfl hne
  | cons b bs ih =>
    rw [bc_chunk_cons, step_col stk (d + 1) ng _ b (by omega) hd]
    have hT2 : topTag ⟨stk, d + 1, 512, ng, (b :: bs).length⟩ = some BCT_STR := by
      simp [topTag, hT]
    simp only [bc_str, hT2, st_col, true_and, if_true]
    by_cases hbs : bs = []
    · subst hbs
      have e0 : ([b].length + ACC_MOD - 1) % ACC_MOD = 0 := by
        simp only [ACC_MOD, List.length_singleton]
      simp only [e0, if_true, bc_pop_eq, bc_chunk_nil]
      simp
    · have hl : bs.length ≠ 0 := by simpa using hbs
      simp only [List.length_cons] at hlen ⊢
      have e1 : (bs.length + 1 + ACC_MOD - 1) % ACC_MOD = bs.length := by
        simp only [ACC_MOD] at hlen ⊢; omega
      simp only [e1, hl, if_false]
      rw [ih hbs (by omega)]
      simp

theorem itoa_natCast (n : Nat) : itoa (n : Int) = decimalNat n := by
  simp [itoa]

theorem decimalNat_digit (n c : Nat) (h : c ∈ decimalNat n) : 48 ≤ c ∧ c ≤ 57 :=
  natDigits_digit _ _ _ h

theorem step_e_int_pop (stk : List bc_tag) (d ng a : Nat) (hd : d + 1 ≠ 60)
    (hT : stk[d]? = some BCT_INT) :
    bc_1step ⟨stk, d + 1, 256, ng, a⟩ 101
      = (⟨stk, if d = 1 then 0 else d, 0, ng, 0⟩,
         [Event.int_value (if ng ≠ 0 then -(a : Int) else (a : Int))]
           ++ if d = 1 then [Event.finished] else []) := by
  rw [step_e_int stk (d + 1) ng a (by omega) hd (by simpa using hT), bc_pop_eq]

theorem step_e_lst_pop (stk : List bc_tag) (d ng a : Nat) (hd : d + 1 ≠ 60)
    (hT : stk[d]? = some BCT_LST) :
    bc_1step ⟨stk, d + 1, 0, ng, a⟩ 101
      = (⟨stk, if d = 1 then 0 else d, 0, ng, a⟩,
         [Event.lst_leave] ++ if d = 1 then [Event.finished] else []) := by
  rw [step_e_lst stk (d + 1) ng a (by omega) hd (by simpa using hT), bc_pop_eq]

theorem step_e_dct_pop (stk : List bc_tag) (d ng a : Nat) (hd : d + 1 ≠ 60)
    (hT : stk[d]? = some BCT_DCT) :
    bc_1step ⟨stk, d + 1, 0, ng, a⟩ 101
      = (⟨stk, if d = 1 then 0 else d, 0, ng, a⟩,
         [Event.dct_leave] ++ if d = 1 then [Event.finished] else []) := by
  rw [step_e_dct stk (d + 1) ng a (by omega) hd (by simpa using hT), bc_pop_eq]

theorem chunk_int_value (n : Int) (h1 : -(2 ^ 63 : Int) < n) (h2 : n < (2 ^ 63 : Int))
    (stk : List bc_tag) (d ng : Nat) (hlen : stk.length = 60) (hd0 : d ≠ 0) (hd : d + 1 < 60) :
    bc_chunk ⟨stk, d, 0, ng, 0⟩ (105 :: (itoa n ++ [101]))
      = (⟨stk.set d BCT_INT, if d = 1 then 0 else d, 0, if n < 0 then 1 else 0, 0⟩,
         [Event.int_value n] ++ if d = 1 then [Event.finished] else []) := by
  have hT : (stk.set d BCT_INT)[d]? = some BCT_INT := by
    simp [List.getElem?_set]; omega
  have hT1 : (stk.set d BCT_INT)[d + 1 - 1]? = some BCT_INT := by simpa using hT
  have hm : n.natAbs < ACC_MOD := by simp only [ACC_MOD]; omega
  have hdig := chunk_digits_in (decimalNat n.natAbs) (decimalNat_digit _)
  have hacc : accDigits 0 (decimalNat n.natAbs) = n.natAbs :=
    accDigits_natDigits _ _ (by omega) hm
  rw [bc_chunk_eq_of_step (step_i stk d ng 0 hd0 (by omega))]
  by_cases hneg : n < 0
  · have hi : itoa n = 45 :: decimalNat n.natAbs := by simp [itoa, hneg]
    rw [hi, List.cons_append,
      bc_chunk_eq_of_step (step_minus _ (d + 1) 0 0 (by omega) (by omega) hT1),
      bc_chunk_eq_of_append (hdig _ (d + 1) 1 0 (by omega) (by omega)),
      bc_chunk_eq_of_step (step_e_int_pop _ d 1 _ (by omega) hT),
      bc_chunk_nil, hacc]
    have e : (n.natAbs : Int) = -n := by omega
    rw [e]
    simp [hneg]
  · have hi : itoa n = decimalNat n.natAbs := by simp [itoa, hneg]
    rw [hi,
      bc_chunk_eq_of_append (hdig _ (d + 1) 0 0 (by omega) (by omega)),
      bc_chunk_eq_of_step (step_e_int_pop _ d 0 _ (by omega) hT),
      bc_chunk_nil, hacc]
    have e : (n.natAbs : Int) = n := by omega
    rw [e]
    simp [hneg]

theorem chunk_str_value (Buf : List Nat) (hB : Buf.length < 2 ^ 63)
    (stk : List bc_tag) (d ng : Nat) (hlen : stk.length = 60) (hd0 : d ≠ 0) (hd : d + 1 < 60) :
    bc_chunk ⟨stk, d, 0, ng, 0⟩ (itoa Buf.length ++ 58 :: Buf)
      = (⟨stk.set d BCT_STR, if d = 1 then 0 else d, 0, ng, 0⟩,
         (Event.str_chunk [] :: Buf.map (fun b => Event.str_chunk [b]))
           ++ if d = 1 then [Event.finished] else []) := by
  have hT : (stk.set d BCT_STR)[d]? = some BCT_STR := by
    simp [List.getElem?_set]; omega
  have hm : Buf.length < ACC_MOD := by simp only [ACC_MOD]; omega
  have hacc : accDigits 0 (decimalNat Buf.length) = Buf.length :=
    accDigits_natDigits _ _ (by omega) hm
  rw [itoa_natCast,
    bc_chunk_eq_of_append (chunk_digits_out (decimalNat Buf.length) (decimalNat_digit _)
      (natDigits_ne_nil _ _ (by omega)) stk d ng 0 hd0 hd),
    bc_chunk_cons, step_colon _ (d + 1) ng _ (by omega) (by omega), hacc]
  have hT2 : topTag ⟨stk.set d BCT_STR, d + 1, 256, ng, Buf.length⟩ = some BCT_STR := by
    simp [topTag, hT]
  have e0 : (Buf.length + ACC_MOD - 0) % ACC_MOD = Buf.length := by
    simp only [ACC_MOD] at hm ⊢; omega
  simp only [bc_str, hT2, st_col, true_and, if_true, e0, List.take_zero]
  by_cases hb : Buf = []
  · subst hb
    simp [bc_pop_eq, bc_chunk_nil]
  · have hl : Buf.length ≠ 0 := by simpa using hb
    simp only [hl, if_false]
    rw [chunk_str_body Buf hb hm _ d ng (by omega) hT]
    simp

/-! ## Decoder: whole values -/

mutual
theorem chunk_value : ∀ (t : bc_object) (k : Nat) (stk : List bc_tag) (ng : Nat),
    decodable k t = true → stk.length = 60 →
    ∃ stk' ng', bc_chunk ⟨stk, k + 1, 0, ng, 0⟩ (enc t)
        = (⟨stk', if k = 0 then 0 else k + 1, 0, ng', 0⟩,
           treeEvents t ++ if k = 0 then [Event.finished] else [])
      ∧ stk'.length = 60 ∧ ∀ i, i ≤ k → stk'[i]? = stk[i]?
  | bc_object.Int n, k, stk, ng, h, hl => by
    simp only [decodable, Bool.and_eq_true, decide_eq_true_eq] at h
    refine ⟨stk.set (k + 1) BCT_INT, if n < 0 then 1 else 0, ?_, by simp [hl], ?_⟩
    · rw [enc, chunk_int_value n h.1.2 h.2 stk (k + 1) ng hl (by omega) (by omega)]
      simp [treeEvents]
    · intro i hi
      rw [List.getElem?_set_ne (by omega)]
  | bc_object.Str Buf, k, stk, ng, h, hl => by
    simp only [decodable, Bool.and_eq_true, decide_eq_true_eq] at h
    refine ⟨stk.set (k + 1) BCT_STR, ng, ?_, by simp [hl], ?_⟩
    · rw [enc, chunk_str_value Buf h.2 stk (k + 1) ng hl (by omega) (by omega)]
      simp [treeEvents]
    · intro i hi
      rw [List.getElem?_set_ne (by omega)]
  | bc_object.Lst Arr, k, stk, ng, h, hl => by
    simp only [decodable, Bool.and_eq_true, decide_eq_true_eq] at h
    obtain ⟨stk', ng', hrun, hl', hpres⟩ :=
      chunk_list Arr k (stk.set (k + 1) BCT_LST) ng h.2 (by simp [hl])
    have hT : stk'[k + 1]? = some BCT_LST := by
      rw [hpres (k + 1) (le_refl _)]
      simp [List.getElem?_set]; omega
    refine ⟨stk', ng', ?_, hl', ?_⟩
    · rw [enc, bc_chunk_eq_of_step (step_l stk (k + 1) ng 0 (by omega) (by omega)),
        bc_chunk_eq_of_append hrun,
        bc_chunk_eq_of_step (step_e_lst_pop stk' (k + 1) ng' 0 (by omega) hT), bc_chunk_nil]
      simp [treeEvents]
    · intro i hi
      rw [hpres i (by omega), List.getElem?_set_ne (by omega)]
  | bc_object.Dct Arr, k, stk, ng, h, hl => by
    simp only [decodable, Bool.and_eq_true, decide_eq_true_eq] at h
    obtain ⟨stk', ng', hrun, hl', hpres⟩ :=
      chunk_pairs Arr k (stk.set (k + 1) BCT_DCT) ng h.2 (by simp [hl])
    have hT : stk'[k + 1]? = some BCT_DCT := by
      rw [hpres (k + 1) (le_refl _)]
      simp [List.getElem?_set]; omega
    refine ⟨stk', ng', ?_, hl', ?_⟩
    · rw [enc, bc_chunk_eq_of_step (step_d stk (k + 1) ng 0 (by omega) (by omega)),
        bc_chunk_eq_of_append hrun,
        bc_chunk_eq_of_step (step_e_dct_pop stk' (k + 1) ng' 0 (by omega) hT), bc_chunk_nil]
      simp [treeEvents]
    · intro i hi
      rw [hpres i (by omega), List.getElem?_set_ne (by omega)]
theorem chunk_list : ∀ (ts : List bc_object) (k : Nat) (stk : List bc_tag) (ng : Nat),
    decodableList (k + 1) ts = true → stk.length = 60 →
    ∃ stk' ng', bc_chunk ⟨stk, k + 2, 0, ng, 0⟩ (encList ts)
        = (⟨stk', k + 2, 0, ng', 0⟩, treeEventsList ts)
      ∧ stk'.length = 60 ∧ ∀ i, i ≤ k + 1 → stk'[i]? = stk[i]?
  | [], k, stk, ng, _, hl => ⟨stk, ng, rfl, hl, fun _ _ => rfl⟩
  | x :: xs, k, stk, ng, h, hl => by
    simp only [decodableList, Bool.and_eq_true] at h
    obtain ⟨stk1, ng1, hrun1, hl1, hp1⟩ := chunk_value x (k + 1) stk ng h.1 hl
    obtain ⟨stk2, ng2, hrun2, hl2, hp2⟩ := chunk_list xs k stk1 ng1 h.2 hl1
    simp only [Nat.add_eq_zero, one_ne_zero, and_false, if_false, List.append_nil] at hrun1
    refine ⟨stk2, ng2, ?_, hl2, fun i hi => (hp2 i hi).trans (hp1 i hi)⟩
    rw [encList, bc_chunk_eq_of_append hrun1, hrun2]
    simp [treeEventsList]
theorem chunk_pairs : ∀ (ps : List (bc_object × bc_object)) (k : Nat) (stk : List bc_tag)
    (ng : Nat), decodablePairs (k + 1) ps = true → stk.length = 60 →
    ∃ stk' ng', bc_chunk ⟨stk, k + 2, 0, ng, 0⟩ (encPairs ps)
        = (⟨stk', k + 2, 0, ng', 0⟩, treeEventsPairs ps)
      ∧ stk'.length = 60 ∧ ∀ i, i ≤ k + 1 → stk'[i]? = stk[i]?
  | [], k, stk, ng, _, hl => ⟨stk, ng, rfl, hl, fun _ _ => rfl⟩
  | (key, v) :: ps, k, stk, ng, h, hl => by
    simp only [decodablePairs, Bool.and_eq_true] at h
    obtain ⟨stk1, ng1, hrun1, hl1, hp1⟩ := chunk_value key (k + 1) stk ng h.1 hl
    obtain ⟨stk2, ng2, hrun2, hl2, hp2⟩ := chunk_value v (k + 1) stk1 ng1 h.2.1 hl1
    obtain ⟨stk3, ng3, hrun3, hl3, hp3⟩ := chunk_pairs ps k stk2 ng2 h.2.2 hl2
    simp only [Nat.add_eq_zero, one_ne_zero, and_false, if_false, List.append_nil] at hrun1 hrun2
    refine ⟨stk3, ng3, ?_, hl3, fun i hi => ((hp3 i hi).trans (hp2 i hi)).trans (hp1 i hi)⟩
    rw [encPairs, bc_chunk_eq_of_append hrun1, bc_chunk_eq_of_append hrun2, hrun3]
    simp [treeEventsPairs]
end

theorem Chunked.append {a a' b b' : List Event} (h1 : Chunked a a') (h2 : Chunked b b') :
    Chunked (a ++ b) (a' ++ b') := by
  induction h1 with
  | nil => simpa using h2
  | str cs _ ih =>
    rw [List.append_assoc, List.cons_append]
    exact Chunked.str cs ih
  | other e he _ ih =>
    rw [List.cons_append, List.cons_append]
    exact Chunked.other e he ih

theorem flatten_singletons (Buf : List Nat) : (Buf.map (fun b => [b])).flatten = Buf := by
  induction Buf with
  | nil => rfl
  | cons b Buf ih => simp [ih]

mutual
theorem chunked_treeEvents : ∀ t : bc_object, Chunked (treeEvents t) (preorder t)
  | bc_object.Int n => by
    rw [treeEvents, preorder]
    exact Chunked.other _ rfl Chunked.nil
  | bc_object.Str Buf => by
    rw [treeEvents, preorder]
    have h := Chunked.str ([] :: Buf.map (fun b => [b])) Chunked.nil
    simpa [flatten_singletons, Function.comp_def] using h
  | bc_object.Lst Arr => by
    rw [treeEvents, preorder]
    exact Chunked.other _ rfl
      (Chunked.append (chunked_treeEventsList Arr) (Chunked.other _ rfl Chunked.nil))
  | bc_object.Dct Arr => by
    rw [treeEvents, preorder]
    exact Chunked.other _ rfl
      (Chunked.append (chunked_treeEventsPairs Arr) (Chunked.other _ rfl Chunked.nil))
theorem chunked_treeEventsList : ∀ ts : List bc_object,
    Chunked (treeEventsList ts) (preorderList ts)
  | [] => by rw [treeEventsList, preorderList]; exact Chunked.nil
  | x :: xs => by
    rw [treeEventsList, preorderList]
    exact Chunked.append (chunked_treeEvents x) (chunked_treeEventsList xs)
theorem chunked_treeEventsPairs : ∀ ps : List (bc_object × bc_object),
    Chunked (treeEventsPairs ps) (preorderPairs ps)
  | [] => by rw [treeEventsPairs, preorderPairs]; exact Chunked.nil
  | (k, v) :: ps => by
    rw [treeEventsPairs, preorderPairs]
    exact Chunked.append (chunked_treeEvents k)
      (Chunked.append (chunked_treeEvents v) (chunked_treeEventsPairs ps))
end

mutual
theorem treeEvents_listener : ∀ (t : bc_object) (e : Event), e ∈ treeEvents t →
    e.isListener = true
  | bc_object.Int n, e, h => by
    simp only [treeEvents, List.mem_singleton] at h
    subst h; rfl
  | bc_object.Str Buf, e, h => by
    simp only [treeEvents, List.mem_cons, List.mem_map] at h
    rcases h with h | ⟨b, _, h⟩ <;> subst h <;> rfl
  | bc_object.Lst Arr, e, h => by
    simp only [treeEvents, List.mem_cons, List.mem_append, List.mem_singleton,
      List.not_mem_nil, or_false] at h
    rcases h with h | h | h
    · subst h; rfl
    · exact treeEventsList_listener Arr e h
    · subst h; rfl
  | bc_object.Dct Arr, e, h => by
    simp only [treeEvents, List.mem_cons, List.mem_append, List.mem_singleton,
      List.not_mem_nil, or_false] at h
    rcases h with h | h | h
    · subst h; rfl
    · exact treeEventsPairs_listener Arr e h
    · subst h; rfl
theorem treeEventsList_listener : ∀ (ts : List bc_object) (e : Event),
    e ∈ treeEventsList ts → e.isListener = true
  | [], e, h => by simp [treeEventsList] at h
  | x :: xs, e, h => by
    simp only [treeEventsList, List.mem_append] at h
    rcases h with h | h
    · exact treeEvents_listener x e h
    · exact treeEventsList_listener xs e h
theorem treeEventsPairs_listener : ∀ (ps : List (bc_object × bc_object)) (e : Event),
    e ∈ treeEventsPairs ps → e.isListener = true
  | [], e, h => by simp [treeEventsPairs] at h
  | (k, v) :: ps, e, h => by
    simp only [treeEventsPairs, List.mem_append] at h
    rcases h with h | h | h
    · exact treeEvents_listener k e h
    · exact treeEvents_listener v e h
    · exact treeEventsPairs_listener ps e h
end

/-! ## Decoder: behaviour at depth 0 and the `finished` notification -/

theorem step_depth0 (is : bc_istream) (ch : Nat) (h : is.depth = 0) :
    bc_1step is ch = (is, [Event.bad_data BCE_EXTRAVAL none ch]) := by
  unfold bc_1step
  simp [h, topTag, bc_error]

theorem chunk_depth0 (is : bc_istream) (bs : List Nat) (h : is.depth = 0) :
    bc_chunk is bs = (is, bs.map (fun b => Event.bad_data BCE_EXTRAVAL none b)) := by
  induction bs with
  | nil => rfl
  | cons b bs ih => rw [bc_chunk_cons, step_depth0 is b h, ih]; rfl

theorem step_depth60 (is : bc_istream) (ch : Nat) (h : is.depth = 60) :
    bc_1step is ch = (is, [Event.bad_data BCE_OVERFLOW (topTag is) ch]) := by
  unfold bc_1step
  simp [h, STACK_SIZE, bc_error]

theorem bc_pop_events (is : bc_istream) (evs : List Event) :
    ((bc_pop is evs).2 = evs ∧ (bc_pop is evs).1.depth = is.depth - 1 ∧ is.depth - 1 ≠ 1)
    ∨ ((bc_pop is evs).2 = evs ++ [Event.finished] ∧ (bc_pop is evs).1.depth = 0) := by
  unfold bc_pop
  by_cases h : is.depth - 1 = 1
  · right; simp [h]
  · left; simp [h]

theorem bc_str_events (is : bc_istream) (T : Option bc_tag) (ch real : Nat) :
    ((bc_str is T ch real).2 = [Event.bad_data BCE_UNEXPECTED T ch]
        ∧ (bc_str is T ch real).1 = is)
    ∨ ((bc_str is T ch real).2 = [Event.str_chunk ([ch].take real)]
        ∧ (bc_str is T ch real).1.depth = is.depth)
    ∨ ((bc_str is T ch real).2 = [Event.str_chunk ([ch].take real)]
        ∧ (bc_str is T ch real).1.depth = is.depth - 1 ∧ is.depth - 1 ≠ 1)
    ∨ ((bc_str is T ch real).2 = [Event.str_chunk ([ch].take real), Event.finished]
        ∧ (bc_str is T ch real).1.depth = 0) := by
  unfold bc_str
  by_cases h : T = some BCT_STR ∧ is.state = st_col
  · rw [if_pos h]
    by_cases h2 : (is.acc + ACC_MOD - real) % ACC_MOD = 0
    · simp only [h2, if_true]
      rcases bc_pop_events { is with acc := 0 } [Event.str_chunk ([ch].take real)] with h3 | h3
      · right; right; left; simpa using h3
      · right; right; right; simpa using h3
    · simp only [h2, if_false]
      right; left; simp
  · rw [if_neg h]
    left; simp [bc_error]

/-! ## Decoder: the shape of one step -/

theorem shape_plain (is : bc_istream) (ch : Nat) (is1 : bc_istream) (evs : List Event)
    (h0 : is.depth ≠ 0) (h60 : is.depth ≠ 60) (hev : ∀ e ∈ evs, e.isListener = true)
    (hlen : evs.length ≤ 1) : StepShape is ch (is1, evs) :=
  Or.inr ⟨h0, h60, evs, hev, hlen, Or.inl rfl⟩

theorem shape_error (is : bc_istream) (ch : Nat) (is1 : bc_istream)
    (h0 : is.depth ≠ 0) (h60 : is.depth ≠ 60) (hd : is1.depth = is.depth) :
    StepShape is ch (bc_error is1 BCE_UNEXPECTED (topTag is) ch) :=
  Or.inl ⟨BCE_UNEXPECTED, rfl, by simp [h60], by simp [h0], hd⟩

theorem shape_pop (is : bc_istream) (ch : Nat) (is1 : bc_istream) (evs : List Event)
    (h0 : is.depth ≠ 0) (h60 : is.depth ≠ 60) (hev : ∀ e ∈ evs, e.isListener = true)
    (hlen : evs.length ≤ 1) : StepShape is ch (bc_pop is1 evs) := by
  rcases bc_pop_events is1 evs with h | h
  · exact Or.inr ⟨h0, h60, evs, hev, hlen, Or.inl h.1⟩
  · exact Or.inr ⟨h0, h60, evs, hev, hlen, Or.inr h⟩

theorem shape_str (is : bc_istream) (ch : Nat) (is1 : bc_istream) (real : Nat)
    (h0 : is.depth ≠ 0) (h60 : is.depth ≠ 60) (hd : is1.depth = is.depth) :
    StepShape is ch (bc_str is1 (topTag is) ch real) := by
  have hl : ∀ e ∈ [Event.str_chunk ([ch].take real)], e.isListener = true := by
    intro e he
    rw [List.mem_singleton] at he
    subst he; rfl
  rcases bc_str_events is1 (topTag is) ch real with h | h | h | h
  · exact Or.inl ⟨BCE_UNEXPECTED, h.1, by simp [h60], by simp [h0], by rw [h.2, hd]⟩
  · exact Or.inr ⟨h0, h60, _, hl, by simp, Or.inl h.1⟩
  · exact Or.inr ⟨h0, h60, _, hl, by simp, Or.inl h.1⟩
  · exact Or.inr ⟨h0, h60, _, hl, by simp, Or.inr ⟨by simpa using h.1, h.2⟩⟩

theorem step_shape (is : bc_istream) (ch : Nat) : StepShape is ch (bc_1step is ch) := by
  by_cases h0 : is.depth = 0
  · rw [step_depth0 is ch h0]
    exact Or.inl ⟨BCE_EXTRAVAL, by simp [topTag, h0], by simp [h0], by simp [h0], rfl⟩
  by_cases h60 : is.depth = 60
  · rw [step_depth60 is ch h60]
    exact Or.inl ⟨BCE_OVERFLOW, rfl, by simp [h60], by simp [h60], rfl⟩
  have hnil : ∀ e ∈ ([] : List Event), e.isListener = true := fun e he => by simp at he
  have hone : ∀ x : Event, x.isListener = true → ∀ e ∈ [x], e.isListener = true := by
    intro x hx e he
    rw [List.mem_singleton] at he
    subst he; exact hx
  unfold bc_1step
  simp only [h0, h60, STACK_SIZE, if_false]
  by_cases c1 : 48 ≤ ch ||| is.state ∧ ch ||| is.state ≤ 57
  · rw [if_pos c1]; exact shape_plain _ _ _ _ h0 h60 hnil (by simp)
  rw [if_neg c1]
  by_cases c2 : 48 + st_in ≤ ch ||| is.state ∧ ch ||| is.state ≤ 57 + st_in
  · rw [if_pos c2]; exact shape_plain _ _ _ _ h0 h60 hnil (by simp)
  rw [if_neg c2]
  by_cases c3 : ch ||| is.state = 105
  · rw [if_pos c3]; exact shape_plain _ _ _ _ h0 h60 hnil (by simp)
  rw [if_neg c3]
  by_cases c4 : ch ||| is.state = 100
  · rw [if_pos c4]; exact shape_plain _ _ _ _ h0 h60 (hone _ rfl) (by simp)
  rw [if_neg c4]
  by_cases c5 : ch ||| is.state = 108
  · rw [if_pos c5]; exact shape_plain _ _ _ _ h0 h60 (hone _ rfl) (by simp)
  rw [if_neg c5]
  by_cases c6 : ch ||| is.state = 58 + st_in
  · rw [if_pos c6]; exact shape_str _ _ _ _ h0 h60 rfl
  rw [if_neg c6]
  by_cases c7 : ch ||| is.state = 45 + st_in
  · rw [if_pos c7]
    by_cases hT : topTag is = some BCT_INT
    · rw [if_pos hT]; exact shape_plain _ _ _ _ h0 h60 hnil (by simp)
    · rw [if_neg hT]; exact shape_error _ _ _ h0 h60 rfl
  rw [if_neg c7]
  by_cases c8 : ch ||| is.state = 43 + st_in
  · rw [if_pos c8]
    by_cases hT : topTag is = some BCT_INT
    · rw [if_pos hT]; exact shape_plain _ _ _ _ h0 h60 hnil (by simp)
    · rw [if_neg hT]; exact shape_error _ _ _ h0 h60 rfl
  rw [if_neg c8]
  by_cases c9 : ch ||| is.state = 101 + st_in
  · rw [if_pos c9]
    by_cases hT : topTag is = some BCT_INT
    · rw [if_pos hT]; exact shape_pop _ _ _ _ h0 h60 (hone _ rfl) (by simp)
    · rw [if_neg hT]; exact shape_error _ _ _ h0 h60 rfl
  rw [if_neg c9]
  by_cases c10 : ch ||| is.state = 101
  · rw [if_pos c10]
    by_cases hT : topTag is = some BCT_LST
    · rw [if_pos hT]; exact shape_pop _ _ _ _ h0 h60 (hone _ rfl) (by simp)
    · rw [if_neg hT]
      by_cases hT2 : topTag is = some BCT_DCT
      · rw [if_pos hT2]; exact shape_pop _ _ _ _ h0 h60 (hone _ rfl) (by simp)
      · rw [if_neg hT2]; exact shape_error _ _ _ h0 h60 rfl
  rw [if_neg c10]
  exact shape_str _ _ _ _ h0 h60 rfl

theorem step_finished_depth (is : bc_istream) (ch : Nat)
    (h : Event.finished ∈ (bc_1step is ch).2) :
    (bc_1step is ch).1.depth = 0 ∧ is.depth ≠ 0
      ∧ (bc_1step is ch).2.count Event.finished = 1 := by
  rcases step_shape is ch with ⟨e, he, _⟩ | ⟨h0, _, evs, hev, _, hr | ⟨hr, hd⟩⟩
  · rw [he] at h; simp at h
  · rw [hr] at h
    have := hev _ h
    simp [Event.isListener] at this
  · refine ⟨hd, h0, ?_⟩
    rw [hr, List.count_append]
    have : evs.count Event.finished = 0 := by
      rw [List.count_eq_zero]
      intro hm
      have := hev _ hm
      simp [Event.isListener] at this
    simp [this]

theorem chunk_finished_depth (is : bc_istream) (bs : List Nat)
    (h : Event.finished ∈ (bc_chunk is bs).2) : (bc_chunk is bs).1.depth = 0 := by
  induction bs generalizing is with
  | nil => simp [bc_chunk_nil] at h
  | cons b bs ih =>
    rw [bc_chunk_cons] at h ⊢
    rcases List.mem_append.1 h with h1 | h1
    · have hd := (step_finished_depth is b h1).1
      rw [chunk_depth0 _ bs hd]
      exact hd
    · exact ih _ h1

theorem chunk_finished_count (is : bc_istream) (bs : List Nat) :
    (bc_chunk is bs).2.count Event.finished ≤ 1
      ∧ (is.depth = 0 → (bc_chunk is bs).2.count Event.finished = 0) := by
  induction bs generalizing is with
  | nil => simp [bc_chunk_nil]
  | cons b bs ih =>
    constructor
    · rw [bc_chunk_cons, List.count_append]
      by_cases h1 : Event.finished ∈ (bc_1step is b).2
      · obtain ⟨hd, _, hc⟩ := step_finished_depth is b h1
        rw [hc, (ih _).2 hd]
      · rw [List.count_eq_zero.2 h1]
        have := (ih (bc_1step is b).1).1
        omega
    · intro h0
      rw [chunk_depth0 is _ h0, List.count_eq_zero]
      simp

/-! ## Decoder: claims -/

theorem chunkBytes_single (S : List Nat) :
    chunkBytes (S.map (fun b => Event.str_chunk [b])) = S := by
  induction S with
  | nil => rfl
  | cons b S ih => simp [chunkBytes, ih]

theorem finished_on_last_byte (is : bc_istream) (text : List Nat)
    (hno : ∀ e ∈ (bc_chunk is text).2, ∀ k t c, e ≠ Event.bad_data k t c)
    (a b : List Nat) (hab : text = a ++ b) (hb : b ≠ []) :
    Event.finished ∉ (bc_chunk is a).2 := by
  intro hfin
  have hd := chunk_finished_depth is a hfin
  subst hab
  rw [bc_chunk_append, chunk_depth0 _ b hd] at hno
  cases b with
  | nil => exact hb rfl
  | cons x b =>
    exact hno (Event.bad_data BCE_EXTRAVAL none x) (by simp) _ _ _ rfl

theorem init_length : BC_ISTREAM_INIT.stack.length = 60 := by decide

/-- C3. Decoder correctness on canonical text: for a value tree whose values
sit inside at most 57 containers, with integers strictly between -2^63 and 2^63
and strings shorter than 2^63 bytes, feeding the canonical text to a fresh
stream makes exactly the calls `treeEvents t` followed by one `finished`;
these calls are the pre-order events of the tree with each string delivered
in chunks; no `bad_data` and no earlier `finished` occur, `finished` comes on
the last byte; `le` and `de` give enter, leave, finished. -/
theorem decode_canonical (t : bc_object) (h : decodable 0 t = true) :
    (bc_chunk BC_ISTREAM_INIT (enc t)).2 = treeEvents t ++ [Event.finished]
      ∧ Chunked (treeEvents t) (preorder t)
      ∧ (∀ e ∈ treeEvents t, e.isListener = true)
      ∧ (bc_chunk BC_ISTREAM_INIT (enc t)).2.count Event.finished = 1
      ∧ (∀ a b, enc t = a ++ b → b ≠ [] → Event.finished ∉ (bc_chunk BC_ISTREAM_INIT a).2)
      ∧ (bc_chunk BC_ISTREAM_INIT [108, 101]).2
          = [Event.lst_enter, Event.lst_leave, Event.finished]
      ∧ (bc_chunk BC_ISTREAM_INIT [100, 101]).2
          = [Event.dct_enter, Event.dct_leave, Event.finished] := by
  obtain ⟨stk', ng', hrun, _, _⟩ :=
    chunk_value t 0 BC_ISTREAM_INIT.stack 1 h init_length
  have hrun' : bc_chunk BC_ISTREAM_INIT (enc t)
      = (⟨stk', 0, 0, ng', 0⟩, treeEvents t ++ [Event.finished]) := by
    simpa [BC_ISTREAM_INIT] using hrun
  have hl := treeEvents_listener t
  have hnf : Event.finished ∉ treeEvents t := by
    intro hm
    have := hl _ hm
    simp [Event.isListener] at this
  refine ⟨by rw [hrun'], chunked_treeEvents t, hl, ?_, ?_, by decide, by decide⟩
  · rw [hrun', List.count_append, List.count_eq_zero.2 hnf]
    simp
  · apply finished_on_last_byte
    intro e he k t' c hk
    rw [hrun'] at he
    rcases List.mem_append.1 he with he | he
    · have := hl _ he
      rw [hk] at this
      simp [Event.isListener] at this
    · rw [List.mem_singleton] at he
      rw [hk] at he
      cases he

theorem decode_canonical_witness :
    decodable 0 (bc_object.Lst [bc_object.Str [104, 105], bc_object.Int (-10),
          bc_object.Dct [(bc_object.Str [97], bc_object.Lst [])]]) = true
    ∧ (bc_chunk BC_ISTREAM_INIT
        (enc (bc_object.Lst [bc_object.Str [104, 105], bc_object.Int (-10),
          bc_object.Dct [(bc_object.Str [97], bc_object.Lst [])]]))).2
      = treeEvents (bc_object.Lst [bc_object.Str [104, 105], bc_object.Int (-10),
          bc_object.Dct [(bc_object.Str [97], bc_object.Lst [])]]) ++ [Event.finished] :=
  ⟨by decide, (decode_canonical (bc_object.Lst [bc_object.Str [104, 105], bc_object.Int (-10),
          bc_object.Dct [(bc_object.Str [97], bc_object.Lst [])]]) (by decide)).1⟩

/-- C4 (as stated, refuted). For `N = -2^63`, a signed 64-bit integer, the text
`i-9223372036854775808e` is reported as `int_value(0)`, not `int_value(N)`:
the 63-bit accumulator cannot hold `2^63`. -/
theorem decode_int_min_wraps :
    (bc_chunk BC_ISTREAM_INIT (105 :: (itoa (-9223372036854775808) ++ [101]))).2
        = [Event.int_value 0, Event.finished]
      ∧ (bc_chunk BC_ISTREAM_INIT (105 :: (itoa (-9223372036854775808) ++ [101]))).2
        ≠ [Event.int_value (-9223372036854775808), Event.finished] := by
  decide

/-- C4 (amended). For every integer `N` strictly between -2^63 and 2^63,
feeding `'i' ++ decimal(N) ++ 'e'` to a fresh stream produces exactly
`int_value(N)` followed by `finished`; feeding `ie` produces `int_value(0)`
followed by `finished`. -/
theorem decode_int (N : Int) (h1 : -(2 ^ 63 : Int) < N) (h2 : N < (2 ^ 63 : Int)) :
    (bc_chunk BC_ISTREAM_INIT (105 :: (itoa N ++ [101]))).2
        = [Event.int_value N, Event.finished]
      ∧ (bc_chunk BC_ISTREAM_INIT [105, 101]).2 = [Event.int_value 0, Event.finished] := by
  constructor
  · have h := chunk_int_value N h1 h2 BC_ISTREAM_INIT.stack 1 1 init_length (by decide)
      (by decide)
    have h' : bc_chunk BC_ISTREAM_INIT (105 :: (itoa N ++ [101]))
        = (⟨BC_ISTREAM_INIT.stack.set 1 BCT_INT, 0, 0, if N < 0 then 1 else 0, 0⟩,
           [Event.int_value N, Event.finished]) := by
      simpa [BC_ISTREAM_INIT] using h
    rw [h']
  · decide

theorem decode_int_witness :
    -(2 ^ 63 : Int) < -9223372036854775807 ∧ (-9223372036854775807 : Int) < 2 ^ 63
    ∧ (bc_chunk BC_ISTREAM_INIT (105 :: (itoa (-9223372036854775807) ++ [101]))).2
      = [Event.int_value (-9223372036854775807), Event.finished] :=
  ⟨by decide, by decide, (decode_int (-9223372036854775807) (by decide) (by decide)).1⟩

/-- C5. For every length `L < 2^63` and every byte string `S` of length `L`,
feeding `decimal(L) ++ ':' ++ S` to a fresh stream produces only `str_chunk`
calls (an empty one at the `':'`, then one per content byte), whose contents
concatenated in call order are `S`, followed by exactly one `finished`, which
comes on the last byte, and no `bad_data`. -/
theorem decode_string (L : Nat) (S : List Nat) (hS : S.length = L) (hL : L < 2 ^ 63) :
    (bc_chunk BC_ISTREAM_INIT (decimalNat L ++ 58 :: S)).2
        = (Event.str_chunk [] :: S.map (fun b => Event.str_chunk [b])) ++ [Event.finished]
      ∧ (∀ e ∈ Event.str_chunk [] :: S.map (fun b => Event.str_chunk [b]),
          ∃ bytes, e = Event.str_chunk bytes)
      ∧ chunkBytes (Event.str_chunk [] :: S.map (fun b => Event.str_chunk [b])) = S
      ∧ (bc_chunk BC_ISTREAM_INIT (decimalNat L ++ 58 :: S)).2.count Event.finished = 1
      ∧ (∀ a b, decimalNat L ++ 58 :: S = a ++ b → b ≠ [] →
          Event.finished ∉ (bc_chunk BC_ISTREAM_INIT a).2) := by
  subst hS
  have h := chunk_str_value S hL BC_ISTREAM_INIT.stack 1 1 init_length (by decide) (by decide)
  rw [itoa_natCast] at h
  have h' : bc_chunk BC_ISTREAM_INIT (decimalNat S.length ++ 58 :: S)
      = (⟨BC_ISTREAM_INIT.stack.set 1 BCT_STR, 0, 0, 1, 0⟩,
         (Event.str_chunk [] :: S.map (fun b => Event.str_chunk [b])) ++ [Event.finished]) := by
    simpa [BC_ISTREAM_INIT] using h
  have hall : ∀ e ∈ Event.str_chunk [] :: S.map (fun b => Event.str_chunk [b]),
      ∃ bytes, e = Event.str_chunk bytes := by
    intro e he
    simp only [List.mem_cons, List.mem_map] at he
    rcases he with he | ⟨b, _, he⟩
    · exact ⟨[], he⟩
    · exact ⟨[b], he.symm⟩
  have hnf : Event.finished ∉ Event.str_chunk [] :: S.map (fun b => Event.str_chunk [b]) := by
    intro hm
    obtain ⟨bytes, hb⟩ := hall _ hm
    cases hb
  refine ⟨by rw [h'], hall, ?_, ?_, ?_⟩
  · simp [chunkBytes, chunkBytes_single]
  · rw [h', List.count_append, List.count_eq_zero.2 hnf]
    simp
  · apply finished_on_last_byte
    intro e he k t' c hk
    rw [h'] at he
    rcases List.mem_append.1 he with he | he
    · obtain ⟨bytes, hb⟩ := hall _ he
      rw [hk] at hb
      cases hb
    · rw [List.mem_singleton] at he
      rw [hk] at he
      cases he

theorem decode_string_witness :
    [50, 58, 101].length = 3 ∧ 3 < 2 ^ 63
    ∧ (bc_chunk BC_ISTREAM_INIT (decimalNat 3 ++ 58 :: [50, 58, 101])).2
        = (Event.str_chunk [] :: [50, 58, 101].map (fun b => Event.str_chunk [b]))
            ++ [Event.finished] :=
  ⟨by decide, by decide, (decode_string 3 [50, 58, 101] (by decide) (by decide)).1⟩

theorem bc_chunks_flatten (is : bc_istream) (chunks : List (List Nat)) :
    bc_chunks is chunks = bc_chunk is chunks.flatten := by
  induction chunks generalizing is with
  | nil => rfl
  | cons c cs ih =>
    rw [List.flatten_cons, bc_chunk_append, bc_chunks, ih]

/-- C6. Preemptibility: for every stream state and byte sequences `a`, `b`,
`bc_chunk` on `a ++ b` yields the same final state and the same calls as
`bc_chunk` on `a` followed by `bc_chunk` on `b`; feeding an input split into
any list of chunks, or byte by byte with one `bc_1step` each, gives the same
state and calls as feeding it whole. -/
theorem bc_chunk_preemptible (is : bc_istream) (a b : List Nat) (chunks : List (List Nat)) :
    bc_chunk is (a ++ b)
        = ((bc_chunk (bc_chunk is a).1 b).1, (bc_chunk is a).2 ++ (bc_chunk (bc_chunk is a).1 b).2)
      ∧ bc_chunks is chunks = bc_chunk is chunks.flatten
      ∧ bc_chunks is (a.map (fun ch => [ch])) = bc_chunk is a
      ∧ (∀ ch, bc_chunk is [ch] = bc_1step is ch) := by
  refine ⟨bc_chunk_append is a b, bc_chunks_flatten is chunks, ?_, ?_⟩
  · rw [bc_chunks_flatten, flatten_singletons]
  · intro ch
    simp [bc_chunk_cons, bc_chunk_nil]

/-- C7. A stream at depth 0 answers every further byte `b` with exactly one
`bad_data(BCE_EXTRAVAL, _, b)` and nothing else, and stays as it is; a stream
that has called `finished` is at depth 0; `finished` is called at most once
whatever is fed to a fresh stream; for `i1ei2e`, `finished` follows `i1e`
and `ExtraValue` is raised on the following `i` (and on each later byte). -/
theorem extra_value_after_finished (is : bc_istream) (h0 : is.depth = 0) (b : Nat)
    (rest input : List Nat) :
    bc_1step is b = (is, [Event.bad_data BCE_EXTRAVAL none b])
      ∧ bc_chunk is rest = (is, rest.map (fun c => Event.bad_data BCE_EXTRAVAL none c))
      ∧ (Event.finished ∈ (bc_chunk BC_ISTREAM_INIT input).2 →
          (bc_chunk BC_ISTREAM_INIT input).1.depth = 0
          ∧ (bc_chunk (bc_chunk BC_ISTREAM_INIT input).1 rest).2
              = rest.map (fun c => Event.bad_data BCE_EXTRAVAL none c))
      ∧ (bc_chunk BC_ISTREAM_INIT input).2.count Event.finished ≤ 1
      ∧ (bc_chunk BC_ISTREAM_INIT [105, 49, 101]).2 = [Event.int_value 1, Event.finished]
      ∧ (bc_chunk BC_ISTREAM_INIT [105, 49, 101, 105, 50, 101]).2
          = [Event.int_value 1, Event.finished, Event.bad_data BCE_EXTRAVAL none 105,
             Event.bad_data BCE_EXTRAVAL none 50, Event.bad_data BCE_EXTRAVAL none 101] := by
  refine ⟨step_depth0 is b h0, chunk_depth0 is rest h0, ?_,
    (chunk_finished_count _ input).1, by decide, by decide⟩
  intro hfin
  have hd := chunk_finished_depth _ input hfin
  exact ⟨hd, by rw [chunk_depth0 _ rest hd]⟩

theorem extra_value_after_finished_witness :
    (bc_chunk BC_ISTREAM_INIT [105, 49, 101]).1.depth = 0
    ∧ bc_1step (bc_chunk BC_ISTREAM_INIT [105, 49, 101]).1 105
        = ((bc_chunk BC_ISTREAM_INIT [105, 49, 101]).1,
           [Event.bad_data BCE_EXTRAVAL none 105]) :=
  ⟨by decide, (extra_value_after_finished (bc_chunk BC_ISTREAM_INIT [105, 49, 101]).1
    (by decide) 105 [] []).1⟩

theorem step_opener (stk : List bc_tag) (d ng a c : Nat) (hd0 : d ≠ 0) (hd : d ≠ 60)
    (hc : c = 108 ∨ c = 100) :
    ∃ stk', bc_1step ⟨stk, d, 0, ng, a⟩ c = (⟨stk', d + 1, 0, ng, a⟩, [openerEvent c]) := by
  rcases hc with hc | hc
  · subst hc
    exact ⟨_, step_l stk d ng a hd0 hd⟩
  · subst hc
    exact ⟨_, step_d stk d ng a hd0 hd⟩

theorem chunk_openers (ops : List Nat) (hops : ∀ x ∈ ops, x = 108 ∨ x = 100)
    (stk : List bc_tag) (d ng a : Nat) (hd0 : d ≠ 0) (hd : d + ops.length ≤ 60) :
    ∃ stk', bc_chunk ⟨stk, d, 0, ng, a⟩ ops
      = (⟨stk', d + ops.length, 0, ng, a⟩, ops.map openerEvent) := by
  induction ops generalizing stk d with
  | nil => exact ⟨stk, rfl⟩
  | cons c ops ih =>
    simp only [List.length_cons] at hd
    obtain ⟨stk1, h1⟩ := step_opener stk d ng a c hd0 (by omega)
      (hops c (List.mem_cons_self _ _))
    obtain ⟨stk2, h2⟩ := ih (fun x hx => hops x (List.mem_cons_of_mem _ hx)) stk1 (d + 1)
      (by omega) (by omega)
    refine ⟨stk2, ?_⟩
    rw [bc_chunk_eq_of_step h1, h2]
    simp only [List.length_cons, List.map_cons, List.singleton_append]
    congr 2
    omega

/-- C8. Overflow fires at the exact depth: feeding container openers (`'l'` or
`'d'`, in any mix) to a fresh stream, any run of at most 59 openers produces
exactly its enter events, one per opener, and no `bad_data`; after 59 openers
a 60th opener `c` (indeed any 60th byte) produces no enter event and one
`bad_data` of kind `BCE_OVERFLOW` carrying that byte. -/
theorem overflow_at_sixtieth_opener (ops : List Nat) (c : Nat)
    (hops : ∀ x ∈ ops, x = 108 ∨ x = 100) (hlen : ops.length = 59) :
    (∀ n, (bc_chunk BC_ISTREAM_INIT (ops.take n)).2 = (ops.take n).map openerEvent)
      ∧ ∃ t, (bc_chunk BC_ISTREAM_INIT (ops ++ [c])).2
          = ops.map openerEvent ++ [Event.bad_data BCE_OVERFLOW t c] := by
  constructor
  · intro n
    obtain ⟨stk', h⟩ := chunk_openers (ops.take n)
      (fun x hx => hops x (List.mem_of_mem_take hx)) BC_ISTREAM_INIT.stack 1 1 0 (by decide)
      (by simp only [List.length_take]; omega)
    have h' : bc_chunk BC_ISTREAM_INIT (ops.take n)
        = (⟨stk', 1 + (ops.take n).length, 0, 1, 0⟩, (ops.take n).map openerEvent) := h
    rw [h']
  · obtain ⟨stk', h⟩ := chunk_openers ops hops BC_ISTREAM_INIT.stack 1 1 0 (by decide)
      (by omega)
    have h' : bc_chunk BC_ISTREAM_INIT ops
        = (⟨stk', 1 + ops.length, 0, 1, 0⟩, ops.map openerEvent) := h
    refine ⟨topTag ⟨stk', 1 + ops.length, 0, 1, 0⟩, ?_⟩
    rw [bc_chunk_eq_of_append h', bc_chunk_cons, step_depth60 _ c (by simp [hlen])]
    simp [bc_chunk_nil]

theorem overflow_at_sixtieth_opener_witness :
    (∀ x ∈ List.replicate 29 108 ++ List.replicate 30 100, x = 108 ∨ x = 100)
    ∧ (List.replicate 29 108 ++ List.replicate 30 100).length = 59
    ∧ ∃ t, (bc_chunk BC_ISTREAM_INIT ((List.replicate 29 108 ++ List.replicate 30 100) ++ [108])).2
        = (List.replicate 29 108 ++ List.replicate 30 100).map openerEvent
            ++ [Event.bad_data BCE_OVERFLOW t 108] :=
  ⟨by decide, by decide,
    (overflow_at_sixtieth_opener (List.replicate 29 108 ++ List.replicate 30 100) 108
      (by decide) (by decide)).2⟩

/-- C9 (as stated, refuted). After 59 openers the stream is at depth 60, and a
closing `'e'`, which pushes nothing, is answered with `BCE_OVERFLOW` instead
of `lst_leave`. -/
theorem overflow_on_closing_byte :
    (bc_chunk BC_ISTREAM_INIT (List.replicate 59 108 ++ [101])).2
      = List.replicate 59 Event.lst_enter
          ++ [Event.bad_data BCE_OVERFLOW (some BCT_LST) 101] := by
  decide

/-- C9 (amended). `bc_1step` reports `BCE_OVERFLOW` exactly when the depth
equals the stack capacity 60, and then for every byte, whether or not it
would push: at depth 60 the only call is `bad_data(BCE_OVERFLOW, top tag,
byte)` and the stream is unchanged; at any other depth no `BCE_OVERFLOW` is
reported. -/
theorem overflow_iff_stack_full (is : bc_istream) (ch : Nat) :
    ((∃ t c, Event.bad_data BCE_OVERFLOW t c ∈ (bc_1step is ch).2) ↔ is.depth = STACK_SIZE)
      ∧ (is.depth = STACK_SIZE →
          bc_1step is ch = (is, [Event.bad_data BCE_OVERFLOW (topTag is) ch])) := by
  refine ⟨⟨?_, ?_⟩, fun h => step_depth60 is ch h⟩
  · rintro ⟨t, c, hm⟩
    rcases step_shape is ch with ⟨e, he, ho, _, _⟩ | ⟨_, _, evs, hev, _, hr | ⟨hr, _⟩⟩
    · rw [he, List.mem_singleton] at hm
      injection hm with h1 h2 h3
      exact ho.1 h1.symm
    · rw [hr] at hm
      have := hev _ hm
      simp [Event.isListener] at this
    · rw [hr] at hm
      rcases List.mem_append.1 hm with hm | hm
      · have := hev _ hm
        simp [Event.isListener] at this
      · simp at hm
  · intro h
    exact ⟨topTag is, ch, by rw [step_depth60 is ch h]; simp⟩

set_option maxRecDepth 8192 in
theorem overflow_iff_stack_full_witness :
    (bc_chunk BC_ISTREAM_INIT (List.replicate 59 108)).1.depth = STACK_SIZE
    ∧ bc_1step (bc_chunk BC_ISTREAM_INIT (List.replicate 59 108)).1 101
      = ((bc_chunk BC_ISTREAM_INIT (List.replicate 59 108)).1,
         [Event.bad_data BCE_OVERFLOW (topTag (bc_chunk BC_ISTREAM_INIT (List.replicate 59 108)).1)
            101]) :=
  ⟨by decide, (overflow_iff_stack_full (bc_chunk BC_ISTREAM_INIT (List.replicate 59 108)).1 101).2
    (by decide)⟩

/-! ## Encoder: auxiliary facts -/

theorem take_set_of_le {α : Type} (B : List α) (i n : Nat) (x : α) (h : n ≤ i) :
    (B.set i x).take n = B.take n := by
  apply List.ext_getElem?
  intro j
  simp only [List.getElem?_take, List.getElem?_set]
  by_cases hj : j < n
  · simp only [hj, if_true]
    rw [if_neg (by omega)]
  · simp [hj]

theorem take_succ_set {α : Type} (B : List α) (i : Nat) (x : α) (h : i < B.length) :
    (B.set i x).take (i + 1) = B.take i ++ [x] := by
  apply List.ext_getElem?
  intro j
  simp only [List.getElem?_take, List.getElem?_set, List.getElem?_append, List.length_take]
  have hm : min i B.length = i := by omega
  rw [hm]
  by_cases hj : j < i
  · have h1 : j < i + 1 := by omega
    have h2 : ¬ i = j := by omega
    simp [hj, h1, h2]
  · by_cases hji : j = i
    · subst hji
      simp [h]
    · have h1 : ¬ j < i + 1 := by omega
      have h2 : j - i ≠ 0 := by omega
      simp [hj, h1]
      omega

theorem rep_top {st : bc_wstate} {top : bc_list_b} {rest : List bc_list_b}
    (hrep : Rep st (top :: rest)) :
    st.B[rest.length]? = some (some top) ∧ st.B.take rest.length = rest.reverse.map some
      ∧ rest.length < 32 ∧ st.N = rest.length + 1 + st.f := by
  obtain ⟨hB, hf1, hf2, hN, htake⟩ := hrep
  simp only [List.length_cons, List.reverse_cons, List.map_append, List.map_cons,
    List.map_nil] at hN htake
  have hlen : rest.length < 32 := by
    have := congrArg List.length htake
    simp only [List.length_take, List.length_append, List.length_map, List.length_reverse,
      List.length_cons, List.length_nil] at this
    omega
  refine ⟨?_, ?_, hlen, by omega⟩
  · have h1 : (st.B.take (rest.length + 1))[rest.length]? = st.B[rest.length]? := by
      rw [List.getElem?_take]
      simp
    rw [← h1, htake, List.getElem?_append_right (by simp)]
    simp
  · have h1 : (st.B.take (rest.length + 1)).take rest.length = st.B.take rest.length := by
      rw [List.take_take]
      congr 1
      omega
    rw [← h1, htake, List.take_left' (by simp)]

theorem kvSlots_length (ps : List (bc_object × bc_object)) :
    (kvSlots ps).length = 2 * ps.length := by
  induction ps with
  | nil => rfl
  | cons p ps ih => simp only [kvSlots, List.length_cons, ih]; omega

theorem kvSlots_isEmpty (ps : List (bc_object × bc_object)) :
    (kvSlots ps).isEmpty = ps.isEmpty := by
  cases ps <;> rfl

theorem wencPairs_eq (ps : List (bc_object × bc_object)) :
    wencPairs ps = wencList (kvSlots ps) := by
  induction ps with
  | nil => rfl
  | cons p ps ih =>
    obtain ⟨k, v⟩ := p
    simp only [wencPairs, kvSlots, wencList, ih, kvSlots_isEmpty, List.isEmpty_cons]

theorem nodesPairs_eq (ps : List (bc_object × bc_object)) :
    nodesPairs ps = nodesList (kvSlots ps) := by
  induction ps with
  | nil => rfl
  | cons p ps ih =>
    obtain ⟨k, v⟩ := p
    simp only [nodesPairs, kvSlots, nodesList, ih]

theorem valuesPairs_eq (ps : List (bc_object × bc_object)) :
    valuesPairs ps = valuesList (kvSlots ps) := by
  induction ps with
  | nil => rfl
  | cons p ps ih =>
    obtain ⟨k, v⟩ := p
    simp [valuesPairs, kvSlots, valuesList, ih]

theorem writablePairs_eq (cap : Nat) (ps : List (bc_object × bc_object)) :
    writablePairs cap ps = writableList cap (kvSlots ps) := by
  induction ps with
  | nil => rfl
  | cons p ps ih =>
    obtain ⟨k, v⟩ := p
    simp only [writablePairs, kvSlots, writableList, ih]

theorem wencItems_true (xs : List bc_object) : wencItems true xs = wencList xs := by
  induction xs with
  | nil => rfl
  | cons x xs ih => simp only [wencItems, wencList, ih, Bool.true_and]

theorem wencItems_false_single (x : bc_object) : wencItems false [x] = wenc false x := by
  simp [wencItems]

theorem nodes_pos (o : bc_object) : 1 ≤ nodes o := by
  cases o <;> simp [nodes]

theorem writableList_iff (cap : Nat) (xs : List bc_object) :
    writableList cap xs = true ↔ ∀ x ∈ xs, writable cap x = true := by
  induction xs with
  | nil => simp [writableList]
  | cons x xs ih => simp [writableList, ih]

theorem writable_mono (c : Nat) : ∀ (o : bc_object) (c' : Nat), c ≤ c' →
    writable c o = true → writable c' o = true := by
  induction c using Nat.strong_induction_on with
  | _ c ih =>
    intro o c' hc h
    cases o with
    | Int n => simp [writable]
    | Str Buf => simpa [writable] using h
    | Lst Arr =>
      simp only [writable, Bool.and_eq_true, decide_eq_true_eq] at h ⊢
      refine ⟨⟨⟨by omega, h.1.1.2⟩, h.1.2⟩, ?_⟩
      have h2 := h.2
      rw [writableList_iff] at h2 ⊢
      exact fun x hx => ih (c - 1) (by omega) x (c' - 1) (by omega) (h2 x hx)
    | Dct Arr =>
      simp only [writable, Bool.and_eq_true, decide_eq_true_eq] at h ⊢
      refine ⟨⟨⟨by omega, h.1.1.2⟩, h.1.2⟩, ?_⟩
      have h2 := h.2
      rw [writablePairs_eq, writableList_iff] at h2 ⊢
      exact fun x hx => ih (c - 1) (by omega) x (c' - 1) (by omega) (h2 x hx)

theorem writableList_mono (xs : List bc_object) (c c' : Nat) (hc : c ≤ c')
    (h : writableList c xs = true) : writableList c' xs = true := by
  rw [writableList_iff] at h ⊢
  exact fun x hx => writable_mono c x c' hc (h x hx)

/-- The children of a writable container, as the array the loop will walk:
there is a free stack entry, the array is non-empty, its `Len` is its length,
and its objects are writable one level further down. -/
theorem writable_children (cap : Nat) (o : bc_object) (h : writable cap o = true) :
    (∀ Arr, o = bc_object.Lst Arr → 1 ≤ cap ∧ Arr ≠ [] ∧ Arr.length % UINT_MOD = Arr.length
        ∧ writableList (cap - 1) Arr = true)
    ∧ (∀ Arr, o = bc_object.Dct Arr → 1 ≤ cap ∧ kvSlots Arr ≠ []
        ∧ ((Arr.length % UINT_MOD) * 2) % UINT_MOD = (kvSlots Arr).length
        ∧ writableList (cap - 1) (kvSlots Arr) = true)
    ∧ (∀ Buf, o = bc_object.Str Buf → Buf.length % UINT_MOD = Buf.length) := by
  refine ⟨?_, ?_, ?_⟩
  · intro Arr ho
    subst ho
    simp only [writable, Bool.and_eq_true, decide_eq_true_eq, Bool.not_eq_true',
      List.isEmpty_eq_false] at h
    exact ⟨h.1.1.1, h.1.1.2, Nat.mod_eq_of_lt h.1.2, h.2⟩
  · intro Arr ho
    subst ho
    simp only [writable, Bool.and_eq_true, decide_eq_true_eq, Bool.not_eq_true',
      List.isEmpty_eq_false] at h
    refine ⟨h.1.1.1, ?_, ?_, ?_⟩
    · intro hk
      have := congrArg List.length hk
      rw [kvSlots_length] at this
      have : Arr.length = 0 := by simpa using this
      exact h.1.1.2 (List.length_eq_zero.1 this)
    · rw [kvSlots_length]
      have := h.1.2
      simp only [UINT_MOD] at this ⊢
      omega
    · rw [← writablePairs_eq]
      exact h.2
  · intro Buf ho
    subst ho
    simp only [writable, decide_eq_true_eq] at h
    exact Nat.mod_eq_of_lt h

/-! ## Encoder: one iteration of the loop -/

/-- Pulling the next object `o` off the top entry: the loop condition holds,
the body runs its `switch` on `o`, and the stack left below `o` is `base`. -/
theorem consume_spec (st : bc_wstate) (top : bc_list_b) (rest : List bc_list_b)
    (hrep : Rep st (top :: rest)) (hgood : GoodStack (top :: rest)) :
    ∃ (o : bc_object) (restArr : List bc_object) (base : List bc_list_b) (ft : Nat),
      top.Arr = o :: restArr
      ∧ bc_write_iter st
          = (match bc_write_switch
              { st with N := rest.length + 1, f := ft,
                        B := st.B.set rest.length (some ⟨restArr.length, restArr, false⟩) } o with
             | some st2 => some (bc_write_close st2 top.atObj, true)
             | none => none)
      ∧ (st.B.set rest.length (some ⟨restArr.length, restArr, false⟩)).take base.length
          = base.reverse.map some
      ∧ base.length + ft = rest.length + 1 ∧ ft ≤ 1
      ∧ GoodStack base
      ∧ wencStack (top :: rest) = wenc (!top.atObj && restArr.isEmpty) o ++ wencStack base
      ∧ nodesStack (top :: rest) = nodes o + nodesStack base
      ∧ writable (if top.atObj then 32 else 31 - rest.length) o = true
      ∧ (top.atObj = true → rest.length = 0 ∧ ft = 1)
      ∧ ((ft = 1 ∧ top.atObj = false) ↔ (!top.atObj && restArr.isEmpty) = true)
      ∧ valuesStack (top :: rest) = values o ++ valuesStack base
      ∧ bc_write_pulled st = some o
      ∧ bc_write_indices st = rest.length :: pushIndex (rest.length + 1) ft o := by
  obtain ⟨hBtop, hBtake, hlen32, hN⟩ := rep_top hrep
  obtain ⟨hB, hf1, hf2, _, _⟩ := hrep
  obtain ⟨⟨hLen, hne, hlt, hat, hw⟩, hgr⟩ := hgood
  obtain ⟨Len, Arr, atObj⟩ := top
  simp only at hLen hne hlt hat hw hBtop ⊢
  cases Arr with
  | nil => exact absurd rfl hne
  | cons o restArr =>
    simp only [List.length_cons] at hLen hlt hat
    simp only [writableList, Bool.and_eq_true] at hw
    have hNmod : (st.N + UINT_MOD - st.f) % UINT_MOD = rest.length + 1 := by
      simp only [UINT_MOD]; omega
    have hl : (Len + UINT_MOD - 1) % UINT_MOD = restArr.length := by
      simp only [UINT_MOD] at hlt ⊢; omega
    have hiter : bc_write_iter st
        = (match bc_write_switch
            { st with N := rest.length + 1, f := if restArr.length = 0 then 1 else 0,
                      B := st.B.set rest.length (some ⟨restArr.length, restArr, false⟩) } o with
           | some st2 => some (bc_write_close st2 atObj, true)
           | none => none) := by
      unfold bc_write_iter
      simp only [hNmod, Nat.add_sub_cancel, hBtop, hl]
      rfl
    have hpull : bc_write_pulled st = some o := by
      unfold bc_write_pulled
      simp only [hNmod, Nat.add_sub_cancel, hBtop]
      rfl
    have hidx : bc_write_indices st = rest.length
        :: pushIndex (rest.length + 1) (if restArr.length = 0 then 1 else 0) o := by
      unfold bc_write_indices
      simp only [hNmod, Nat.add_sub_cancel, hBtop, hl]
      rfl
    by_cases hr : restArr = []
    · subst hr
      refine ⟨o, [], rest, 1, rfl, ?_, ?_, by omega, le_refl _, hgr, ?_, ?_, hw.1, ?_, ?_, ?_,
        hpull, by simpa using hidx⟩
      · simpa using hiter
      · rw [take_set_of_le _ _ _ _ (le_refl _), hBtake]
      · simp [wencStack, wencItems]
      · simp [nodesStack, nodesList]; omega
      · intro ha
        exact ⟨(hat ha).2, rfl⟩
      · simp
      · simp [valuesStack, valuesList]
    · have hat' : atObj = false := by
        cases atObj with
        | false => rfl
        | true =>
          have := (hat rfl).1
          have : restArr.length = 0 := by omega
          exact absurd (List.length_eq_zero.1 this) hr
      subst hat'
      have hl0 : restArr.length ≠ 0 := fun h => hr (List.length_eq_zero.1 h)
      refine ⟨o, restArr, ⟨restArr.length, restArr, false⟩ :: rest, 0, rfl, ?_, ?_, by simp,
        by omega, ⟨⟨rfl, hr, by simp only [UINT_MOD] at hlt ⊢; omega, by simp,
          by simpa using hw.2⟩, hgr⟩, ?_, ?_, hw.1, by simp, ?_, ?_, hpull,
        by simpa [hl0] using hidx⟩
      · simpa [hl0] using hiter
      · simp only [List.length_cons, List.reverse_cons, List.map_append, List.map_cons,
          List.map_nil]
        rw [take_succ_set _ _ _ (by omega), hBtake]
      · simp [wencStack, wencItems, hr]
      · simp [nodesStack, nodesList]; omega
      · simp [hr]
      · simp [valuesStack, valuesList]

theorem close_spec (st : bc_wstate) (isObj flag : Bool)
    (hflag : (st.f = 1 ∧ isObj = false) ↔ flag = true) :
    bc_write_close st isObj
      = { st with s := st.s + (closer flag).length, buf := st.buf ++ closer flag } := by
  unfold bc_write_close closer
  cases flag with
  | true => rw [if_pos (hflag.2 rfl)]; simp
  | false =>
    rw [if_neg (fun h => by simpa using hflag.1 h)]
    simp

/-- One evaluation of the loop condition and body on a non-empty stack of
good entries: the loop goes on, the new locals hold a stack of good entries
with one value less to pull, and the bytes stored are a prefix of what the
stack stands for. -/
theorem iter_spec (st : bc_wstate) (top : bc_list_b) (rest : List bc_list_b)
    (hrep : Rep st (top :: rest)) (hgood : GoodStack (top :: rest)) :
    ∃ (st3 : bc_wstate) (frs' : List bc_list_b) (delta : List Nat),
      bc_write_iter st = some (st3, true) ∧ Rep st3 frs' ∧ GoodStack frs'
      ∧ nodesStack frs' + 1 = nodesStack (top :: rest)
      ∧ wencStack (top :: rest) = delta ++ wencStack frs'
      ∧ st3.buf = st.buf ++ delta ∧ st3.s = st.s + delta.length
      ∧ (∃ o, bc_write_pulled st = some o ∧ valuesStack (top :: rest) = o :: valuesStack frs')
      ∧ st3.N ≤ 32 ∧ (∀ i ∈ bc_write_indices st, i < 32) := by
  obtain ⟨o, restArr, base, ft, _, hiter, htake, hbl, hft, hgb, hwenc, hnodes, hwo, hato, hflag,
    hvals, hpull, hidxs⟩ := consume_spec st top rest hrep hgood
  have hrl : rest.length < 32 := (rep_top hrep).2.2.1
  have hB : st.B.length = 32 := hrep.1
  obtain ⟨hL, hD, hS⟩ := writable_children _ o hwo
  -- a scalar: the stack left is `base`
  have key_scalar : ∀ bytes : List Nat,
      bc_write_switch ⟨st.s, st.buf, rest.length + 1, (st.B.set rest.length (some ⟨restArr.length, restArr, false⟩)), ft⟩ o
        = some ⟨st.s + bytes.length, st.buf ++ bytes, rest.length + 1,
            (st.B.set rest.length (some ⟨restArr.length, restArr, false⟩)), ft⟩ →
      wenc (!top.atObj && restArr.isEmpty) o = bytes ++ closer (!top.atObj && restArr.isEmpty) →
      nodes o = 1 → values o = [o] → pushIndex (rest.length + 1) ft o = [] →
      ∃ (st3 : bc_wstate) (frs' : List bc_list_b) (delta : List Nat),
        bc_write_iter st = some (st3, true) ∧ Rep st3 frs' ∧ GoodStack frs'
        ∧ nodesStack frs' + 1 = nodesStack (top :: rest)
        ∧ wencStack (top :: rest) = delta ++ wencStack frs'
        ∧ st3.buf = st.buf ++ delta ∧ st3.s = st.s + delta.length
        ∧ (∃ o, bc_write_pulled st = some o ∧ valuesStack (top :: rest) = o :: valuesStack frs')
        ∧ st3.N ≤ 32 ∧ (∀ i ∈ bc_write_indices st, i < 32) := by
    intro bytes hsw hw hn hv hpi
    rw [hsw] at hiter
    simp only at hiter
    rw [close_spec _ _ _ hflag] at hiter
    refine ⟨_, base, bytes ++ closer (!top.atObj && restArr.isEmpty), hiter,
      ⟨by simp [hB], hft, by simp only; omega, by simp only; omega, htake⟩, hgb,
      by rw [hnodes, hn]; omega, by rw [hwenc, hw], by simp, by simp; omega,
      ⟨o, hpull, by rw [hvals, hv]; rfl⟩, by simp only; omega, ?_⟩
    rw [hidxs, hpi]
    intro i hi
    rw [List.mem_singleton] at hi
    omega
  -- a container with children `cs`: the stack left is its header on `base`
  have key_container : ∀ (c : Nat) (cs : List bc_object) (len : Nat),
      bc_write_switch ⟨st.s, st.buf, rest.length + 1, (st.B.set rest.length (some ⟨restArr.length, restArr, false⟩)), ft⟩ o
        = bc_write_push ⟨st.s + 1, st.buf ++ [c], rest.length + 1,
            (st.B.set rest.length (some ⟨restArr.length, restArr, false⟩)), ft⟩ ⟨len, cs, false⟩ →
      wenc (!top.atObj && restArr.isEmpty) o
        = c :: (closer (!top.atObj && restArr.isEmpty) ++ wencList cs) →
      nodes o = 1 + nodesList cs →
      1 ≤ (if top.atObj then 32 else 31 - rest.length) → cs ≠ [] → len = cs.length →
      len < UINT_MOD →
      writableList ((if top.atObj then 32 else 31 - rest.length) - 1) cs = true →
      values o = o :: valuesList cs →
      pushIndex (rest.length + 1) ft o = [rest.length + 1 - ft] →
      ∃ (st3 : bc_wstate) (frs' : List bc_list_b) (delta : List Nat),
        bc_write_iter st = some (st3, true) ∧ Rep st3 frs' ∧ GoodStack frs'
        ∧ nodesStack frs' + 1 = nodesStack (top :: rest)
        ∧ wencStack (top :: rest) = delta ++ wencStack frs'
        ∧ st3.buf = st.buf ++ delta ∧ st3.s = st.s + delta.length
        ∧ (∃ o, bc_write_pulled st = some o ∧ valuesStack (top :: rest) = o :: valuesStack frs')
        ∧ st3.N ≤ 32 ∧ (∀ i ∈ bc_write_indices st, i < 32) := by
    intro c cs len hsw hw hn hcap hcs hlen hlenlt hwl hv hpi
    have hbase : base.length < 32 ∧ (if top.atObj then 32 else 31 - rest.length) - 1
        ≤ 31 - base.length := by
      cases hta : top.atObj with
      | true =>
        have := hato hta
        simp only [hta, if_true] at hcap ⊢
        omega
      | false =>
        simp only [hta] at hcap ⊢
        simp only [Bool.false_eq_true, if_false] at hcap ⊢
        omega
    have hidx : rest.length + 1 - ft = base.length := by omega
    rw [hsw] at hiter
    unfold bc_write_push at hiter
    simp only [hidx, WSTACK_SIZE, hbase.1, if_true] at hiter
    rw [close_spec _ _ _ hflag] at hiter
    subst hlen
    refine ⟨_, ⟨cs.length, cs, false⟩ :: base, c :: closer (!top.atObj && restArr.isEmpty), hiter,
      ⟨by simp [hB], hft, by simp only; omega, by simp only [List.length_cons]; omega, ?_⟩,
      ⟨⟨rfl, hcs, hlenlt, by simp, ?_⟩, hgb⟩, ?_, ?_, by simp, by simp; omega,
      ⟨o, hpull, by rw [hvals, hv]; rfl⟩, ?_, ?_⟩
    · simp only [List.length_cons, List.reverse_cons, List.map_append, List.map_cons,
        List.map_nil]
      rw [take_succ_set _ _ _ (by simp [hB]; omega), htake]
    · simpa using writableList_mono cs _ _ hbase.2 hwl
    · rw [hnodes, hn]
      simp only [nodesStack]
      omega
    · rw [hwenc, hw]
      simp [wencStack, wencItems_true]
    · have hcap' : rest.length + 1 < 32 := by
        cases hta : top.atObj with
        | true =>
          have := hato hta
          omega
        | false =>
          simp only [hta, Bool.false_eq_true, if_false] at hcap
          omega
      simp only
      omega
    · rw [hidxs, hpi]
      intro i hi
      simp only [List.mem_cons, List.mem_singleton, List.not_mem_nil, or_false] at hi
      rcases hi with hi | hi <;> omega
  cases o with
  | Int n =>
    apply key_scalar ([105] ++ itoa n ++ [101])
    · simp [bc_write_switch]; omega
    · simp [wenc]
    · rfl
    · rfl
    · rfl
  | Str Buf =>
    have hb := hS Buf rfl
    apply key_scalar (itoa Buf.length ++ [58] ++ Buf)
    · simp [bc_write_switch, hb]; omega
    · simp [wenc]
    · rfl
    · rfl
    · rfl
  | Lst Arr =>
    obtain ⟨h1, h2, h3, h4⟩ := hL Arr rfl
    apply key_container 108 Arr (Arr.length % UINT_MOD)
    · simp [bc_write_switch]
    · simp [wenc]
    · rfl
    · exact h1
    · exact h2
    · exact h3
    · exact Nat.mod_lt _ (by decide : UINT_MOD > 0)
    · exact h4
    · rfl
    · rfl
  | Dct Arr =>
    obtain ⟨h1, h2, h3, h4⟩ := hD Arr rfl
    apply key_container 100 (kvSlots Arr) (((Arr.length % UINT_MOD) * 2) % UINT_MOD)
    · simp [bc_write_switch]
    · simp [wenc, wencPairs_eq]
    · simp [nodes, nodesPairs_eq]
    · exact h1
    · exact h2
    · exact h3
    · exact Nat.mod_lt _ (by decide : UINT_MOD > 0)
    · exact h4
    · simp [values, valuesPairs_eq]
    · rfl

/-! ## Encoder: the whole loop -/

theorem iter_nil (st : bc_wstate) (hrep : Rep st []) :
    bc_write_iter st = some ({ st with N := 0 }, false) := by
  obtain ⟨_, hf1, hf2, hN, _⟩ := hrep
  simp only [List.length_nil] at hN
  have hNmod : (st.N + UINT_MOD - st.f) % UINT_MOD = 0 := by
    simp only [UINT_MOD]; omega
  unfold bc_write_iter
  simp only [hNmod, if_true]

theorem loop_spec (fuel : Nat) : ∀ (frs : List bc_list_b) (st : bc_wstate),
    Rep st frs → GoodStack frs → nodesStack frs < fuel →
    ∃ st', bc_write_loop fuel st = some st' ∧ st'.buf = st.buf ++ wencStack frs
      ∧ st'.s = st.s + (wencStack frs).length := by
  induction fuel with
  | zero => intro frs st _ _ h; omega
  | succ fuel ih =>
    intro frs st hrep hgood hn
    cases frs with
    | nil =>
      refine ⟨{ st with N := 0 }, ?_, by simp [wencStack], by simp [wencStack]⟩
      rw [bc_write_loop, iter_nil st hrep]
    | cons top rest =>
      obtain ⟨st3, frs', delta, hiter, hrep', hgood', hnodes, hwenc, hbuf, hs, _⟩ :=
        iter_spec st top rest hrep hgood
      obtain ⟨st', hloop, hbuf', hs'⟩ := ih frs' st3 hrep' hgood' (by omega)
      refine ⟨st', ?_, ?_, ?_⟩
      · rw [bc_write_loop, hiter]
        exact hloop
      · rw [hbuf', hbuf, hwenc, List.append_assoc]
      · rw [hs', hs, hwenc, List.length_append]
        omega

/-- What `bc_write` stores and returns for a tree it can traverse: with fuel
for one evaluation of the loop condition per value and a last one, it stores
`wenc false obj` and returns the number of bytes stored. -/
theorem bc_write_spec (obj : bc_object) (fuel : Nat) (hw : writable 32 obj = true)
    (hfuel : nodes obj < fuel) :
    bc_write fuel obj = some (wenc false obj, (wenc false obj).length) := by
  have hrep : Rep (bc_write_init obj) [⟨1, [obj], true⟩] := by
    refine ⟨by simp [bc_write_init], by simp [bc_write_init], by simp [bc_write_init],
      by simp [bc_write_init], ?_⟩
    simp [bc_write_init]
  have hgood : GoodStack [⟨1, [obj], true⟩] := by
    refine ⟨⟨rfl, by simp, by simp [UINT_MOD], by simp, ?_⟩, trivial⟩
    simp [writableList, hw]
  obtain ⟨st', hloop, hbuf, hs⟩ := loop_spec fuel _ _ hrep hgood
    (by simpa [nodesStack, nodesList] using hfuel)
  unfold bc_write
  rw [hloop]
  simp only [hbuf, hs]
  simp [bc_write_init, wencStack, wencItems]

mutual
theorem writable_of : ∀ (o : bc_object) (cap : Nat), nonEmpty o = true → lensFit o = true →
    nesting o ≤ cap → writable cap o = true
  | bc_object.Int _, _, _, _, _ => by rw [writable]
  | bc_object.Str Buf, _, _, hf, _ => by
    rw [lensFit] at hf
    rw [writable]
    exact hf
  | bc_object.Lst Arr, cap, hn, hf, hd => by
    rw [nonEmpty, Bool.and_eq_true] at hn
    rw [lensFit, Bool.and_eq_true] at hf
    rw [nesting] at hd
    rw [writable]
    simp only [Bool.and_eq_true, decide_eq_true_eq]
    exact ⟨⟨⟨by omega, hn.1⟩, by simpa using hf.1⟩,
      writableList_of Arr (cap - 1) hn.2 hf.2 (by omega)⟩
  | bc_object.Dct Arr, cap, hn, hf, hd => by
    rw [nonEmpty, Bool.and_eq_true] at hn
    rw [lensFit, Bool.and_eq_true] at hf
    rw [nesting] at hd
    rw [writable]
    simp only [Bool.and_eq_true, decide_eq_true_eq]
    exact ⟨⟨⟨by omega, hn.1⟩, by simpa using hf.1⟩,
      writablePairs_of Arr (cap - 1) hn.2 hf.2 (by omega)⟩
theorem writableList_of : ∀ (xs : List bc_object) (cap : Nat), nonEmptyList xs = true →
    lensFitList xs = true → nestingList xs ≤ cap → writableList cap xs = true
  | [], _, _, _, _ => by rw [writableList]
  | x :: xs, cap, hn, hf, hd => by
    rw [nonEmptyList, Bool.and_eq_true] at hn
    rw [lensFitList, Bool.and_eq_true] at hf
    rw [nestingList] at hd
    rw [writableList, Bool.and_eq_true]
    exact ⟨writable_of x cap hn.1 hf.1 (by omega), writableList_of xs cap hn.2 hf.2 (by omega)⟩
theorem writablePairs_of : ∀ (ps : List (bc_object × bc_object)) (cap : Nat),
    nonEmptyPairs ps = true → lensFitPairs ps = true → nestingPairs ps ≤ cap →
    writablePairs cap ps = true
  | [], _, _, _, _ => by rw [writablePairs]
  | (k, v) :: ps, cap, hn, hf, hd => by
    rw [nonEmptyPairs, Bool.and_eq_true, Bool.and_eq_true] at hn
    rw [lensFitPairs, Bool.and_eq_true, Bool.and_eq_true] at hf
    rw [nestingPairs] at hd
    rw [writablePairs, Bool.and_eq_true, Bool.and_eq_true]
    exact ⟨writable_of k cap hn.1 hf.1 (by omega), writable_of v cap hn.2.1 hf.2.1 (by omega),
      writablePairs_of ps cap hn.2.2 hf.2.2 (by omega)⟩
end

theorem closer_length (b : Bool) : (closer b).length = if b then 1 else 0 := by
  cases b <;> rfl

mutual
theorem wenc_length : ∀ (o : bc_object) (last : Bool), nonEmpty o = true →
    (wenc last o).length = encLen o + (closer last).length
  | bc_object.Int n, last, _ => by
    rw [wenc, encLen]
    simp only [List.length_cons, List.length_append]
    omega
  | bc_object.Str Buf, last, _ => by
    rw [wenc, encLen]
    simp only [List.length_cons, List.length_append]
    omega
  | bc_object.Lst Arr, last, hn => by
    rw [nonEmpty, Bool.and_eq_true] at hn
    rw [wenc, encLen]
    simp only [List.length_cons, List.length_append]
    rw [wencList_length Arr hn.2]
    have : Arr.isEmpty = false := by simpa using hn.1
    rw [this]
    simp only [Bool.false_eq_true, if_false]
    omega
  | bc_object.Dct Arr, last, hn => by
    rw [nonEmpty, Bool.and_eq_true] at hn
    rw [wenc, encLen]
    simp only [List.length_cons, List.length_append]
    rw [wencPairs_length Arr hn.2]
    have : Arr.isEmpty = false := by simpa using hn.1
    rw [this]
    simp only [Bool.false_eq_true, if_false]
    omega
theorem wencList_length : ∀ (xs : List bc_object), nonEmptyList xs = true →
    (wencList xs).length = encLenList xs + if xs.isEmpty then 0 else 1
  | [], _ => by rw [wencList, encLenList]; rfl
  | x :: xs, hn => by
    rw [nonEmptyList, Bool.and_eq_true] at hn
    rw [wencList, encLenList, List.length_append, wenc_length x _ hn.1,
      wencList_length xs hn.2, closer_length]
    simp only [List.isEmpty_cons, Bool.false_eq_true, if_false]
    split_ifs <;> omega
theorem wencPairs_length : ∀ (ps : List (bc_object × bc_object)), nonEmptyPairs ps = true →
    (wencPairs ps).length = encLenPairs ps + if ps.isEmpty then 0 else 1
  | [], _ => by rw [wencPairs, encLenPairs]; rfl
  | (k, v) :: ps, hn => by
    rw [nonEmptyPairs, Bool.and_eq_true, Bool.and_eq_true] at hn
    rw [wencPairs, encLenPairs, List.length_append, List.length_append,
      wenc_length k _ hn.1, wenc_length v _ hn.2.1, wencPairs_length ps hn.2.2,
      closer_length, closer_length]
    simp only [List.isEmpty_cons, Bool.false_eq_true, if_false]
    split_ifs <;> omega
end

theorem close_count (st : bc_wstate) (b : Bool) (hs : st.s = st.buf.length) :
    (bc_write_close st b).s = (bc_write_close st b).buf.length := by
  unfold bc_write_close
  split_ifs <;> simp [hs]

theorem push_count (st st' : bc_wstate) (fr : bc_list_b) (h : bc_write_push st fr = some st')
    (hs : st.s = st.buf.length) : st'.s = st'.buf.length := by
  unfold bc_write_push at h
  split_ifs at h
  injection h with h
  subst h
  exact hs

theorem switch_count (st st' : bc_wstate) (o : bc_object) (h : bc_write_switch st o = some st')
    (hs : st.s = st.buf.length) : st'.s = st'.buf.length := by
  cases o with
  | Int n =>
    simp only [bc_write_switch, Option.some.injEq] at h
    subst h
    simp [hs]; omega
  | Str Buf =>
    simp only [bc_write_switch, Option.some.injEq] at h
    subst h
    have : Buf.length % UINT_MOD ≤ Buf.length := Nat.mod_le _ _
    simp [hs, List.length_take]; omega
  | Lst Arr =>
    simp only [bc_write_switch] at h
    exact push_count _ _ _ h (by simp [hs])
  | Dct Arr =>
    simp only [bc_write_switch] at h
    exact push_count _ _ _ h (by simp [hs])

theorem iter_count (st st' : bc_wstate) (b : Bool) (h : bc_write_iter st = some (st', b))
    (hs : st.s = st.buf.length) : st'.s = st'.buf.length := by
  unfold bc_write_iter at h
  simp only at h
  split_ifs at h with h0
  · simp only [Option.some.injEq, Prod.mk.injEq] at h
    rw [← h.1]
    exact hs
  · split at h
    · split at h
      · cases h
      · split at h
        · rename_i st2 hsw
          simp only [Option.some.injEq, Prod.mk.injEq] at h
          rw [← h.1]
          exact close_count _ _ (switch_count _ _ _ hsw hs)
        · cases h
    · cases h

theorem loop_count (fuel : Nat) : ∀ (st st' : bc_wstate), bc_write_loop fuel st = some st' →
    st.s = st.buf.length → st'.s = st'.buf.length := by
  induction fuel with
  | zero => intro st st' h; simp [bc_write_loop] at h
  | succ fuel ih =>
    intro st st' h hs
    rw [bc_write_loop] at h
    split at h
    · rename_i st1 hit
      exact ih _ _ h (iter_count _ _ _ hit hs)
    · rename_i st1 hit
      simp only [Option.some.injEq] at h
      rw [← h]
      exact iter_count _ _ _ hit hs
    · cases h

theorem bc_write_count (fuel : Nat) (obj : bc_object) (r : List Nat × Nat)
    (h : bc_write fuel obj = some r) : r.2 = r.1.length := by
  unfold bc_write at h
  split at h
  · rename_i st hl
    simp only [Option.some.injEq] at h
    rw [← h]
    exact loop_count fuel _ _ hl rfl
  · cases h

/-! ## Encoder: claims -/

/-- C1 (failing input). For the freshly built tree `bcLst(bcLst(bcInt(1)))`
(non-empty containers, nesting 2) `bc_write` stores `llei1ee`, whatever fuel
beyond four loop tests it is given, while the canonical text is `lli1eee`;
fed to a fresh stream the written bytes give `lst_enter, lst_enter,
lst_leave, int_value(1), lst_leave, finished` (an empty inner list followed
by the integer), the canonical text gives `lst_enter, lst_enter,
int_value(1), lst_leave, lst_leave, finished`. -/
theorem roundtrip_breaks_on_trailing_list :
    (∀ fuel, bc_write (fuel + 4) (bc_object.Lst [bc_object.Lst [bc_object.Int 1]])
        = some ([108, 108, 101, 105, 49, 101, 101], 7))
      ∧ enc (bc_object.Lst [bc_object.Lst [bc_object.Int 1]])
        = [108, 108, 105, 49, 101, 101, 101]
      ∧ (bc_chunk BC_ISTREAM_INIT [108, 108, 101, 105, 49, 101, 101]).2
        = [Event.lst_enter, Event.lst_enter, Event.lst_leave, Event.int_value 1,
           Event.lst_leave, Event.finished]
      ∧ (bc_chunk BC_ISTREAM_INIT (enc (bc_object.Lst [bc_object.Lst [bc_object.Int 1]]))).2
        = [Event.lst_enter, Event.lst_enter, Event.int_value 1, Event.lst_leave,
           Event.lst_leave, Event.finished] := by
  refine ⟨?_, by decide, by decide, by decide⟩
  intro fuel
  rw [bc_write_spec _ (fuel + 4) (by decide) (by simp [nodes, nodesList])]
  decide

/-- C2 (failing inputs). When a list or dictionary is the last child of
another container, `bc_write` stores the parent's closing `'e'` right after
the child's opening byte: `bcLst(bcLst(bcInt(1)))` is stored as `llei1ee`
instead of `lli1eee`, and `bcLst(bcInt(1), bcDct({bcStr("a"), bcInt(2)}))` as
`li1ede1:ai2ee` instead of `li1ed1:ai2eee`. -/
theorem bc_write_misplaces_closing_byte :
    (∀ fuel, bc_write (fuel + 4) (bc_object.Lst [bc_object.Lst [bc_object.Int 1]])
        = some ([108, 108, 101, 105, 49, 101, 101], 7))
      ∧ enc (bc_object.Lst [bc_object.Lst [bc_object.Int 1]])
        = [108, 108, 105, 49, 101, 101, 101]
      ∧ (∀ fuel, bc_write (fuel + 6)
          (bc_object.Lst [bc_object.Int 1,
            bc_object.Dct [(bc_object.Str [97], bc_object.Int 2)]])
        = some ([108, 105, 49, 101, 100, 101, 49, 58, 97, 105, 50, 101, 101], 13))
      ∧ enc (bc_object.Lst [bc_object.Int 1,
            bc_object.Dct [(bc_object.Str [97], bc_object.Int 2)]])
        = [108, 105, 49, 101, 100, 49, 58, 97, 105, 50, 101, 101, 101] := by
  refine ⟨?_, by decide, ?_, by decide⟩
  · intro fuel
    rw [bc_write_spec _ (fuel + 4) (by decide) (by simp [nodes, nodesList])]
    decide
  · intro fuel
    rw [bc_write_spec _ (fuel + 6) (by decide) (by simp [nodes, nodesList, nodesPairs])]
    decide

/-! ## Encoder: a dictionary whose doubled count wraps -/

theorem iter_unfold (st : bc_wstate) (n : Nat) (fr : bc_list_b) (o : bc_object)
    (rest : List bc_object) (l ft : Nat) (hN : (st.N + UINT_MOD - st.f) % UINT_MOD = n + 1)
    (hB : st.B[n]? = some (some fr)) (hArr : fr.Arr = o :: rest)
    (hl : (fr.Len + UINT_MOD - 1) % UINT_MOD = l) (hf : (if l = 0 then 1 else 0) = ft) :
    bc_write_iter st
      = (match bc_write_switch ⟨st.s, st.buf, n + 1, st.B.set n (some ⟨l, rest, false⟩), ft⟩ o with
         | some st2 => some (bc_write_close st2 fr.atObj, true)
         | none => none) := by
  unfold bc_write_iter
  simp only [hN, Nat.add_sub_cancel, hB, hArr, hl, hf]
  rfl

theorem iter_exit (st : bc_wstate) (hN : (st.N + UINT_MOD - st.f) % UINT_MOD = 0) :
    bc_write_iter st = some (⟨st.s, st.buf, 0, st.B, st.f⟩, false) := by
  unfold bc_write_iter
  simp only [hN, if_true]

theorem close_obj (st : bc_wstate) : bc_write_close st true = st := by
  unfold bc_write_close
  simp

theorem push_eq (st : bc_wstate) (fr : bc_list_b) (h : st.N - st.f < WSTACK_SIZE) :
    bc_write_push st fr
      = some ⟨st.s, st.buf, st.N + 1, st.B.set (st.N - st.f) (some fr), st.f⟩ := by
  unfold bc_write_push
  rw [if_pos h]

theorem switch_dct (st : bc_wstate) (Arr : List (bc_object × bc_object)) :
    bc_write_switch st (bc_object.Dct Arr)
      = bc_write_push ⟨st.s + 1, st.buf ++ [100], st.N, st.B, st.f⟩
          ⟨((Arr.length % UINT_MOD) * 2) % UINT_MOD, kvSlots Arr, false⟩ := rfl

theorem iter_first_dct (ps : List (bc_object × bc_object)) (R : List (Option bc_list_b))
    (L : Nat) (hL : ((ps.length % UINT_MOD) * 2) % UINT_MOD = L) :
    bc_write_iter ⟨0, [], 1, some ⟨1, [bc_object.Dct ps], true⟩ :: R, 0⟩
      = some (⟨1, [100], 2, some ⟨L, kvSlots ps, false⟩ :: R, 1⟩, true) := by
  rw [iter_unfold ⟨0, [], 1, some ⟨1, [bc_object.Dct ps], true⟩ :: R, 0⟩
    0 ⟨1, [bc_object.Dct ps], true⟩ (bc_object.Dct ps) [] 0 1
    (show (1 + UINT_MOD - 0) % UINT_MOD = 0 + 1 by decide)
    (List.getElem?_cons_zero ..) rfl (show (1 + UINT_MOD - 1) % UINT_MOD = 0 by decide)
    (show (if (0 : Nat) = 0 then 1 else 0) = 1 by decide)]
  rw [switch_dct, hL, push_eq _ _ (show (0 + 1) - 1 < WSTACK_SIZE by decide)]
  simp only [close_obj]
  rfl

theorem iter_two_slots_a (tail : List bc_object) (R : List (Option bc_list_b)) :
    bc_write_iter ⟨1, [100], 2,
        some ⟨2, bc_object.Int 0 :: bc_object.Int 0 :: tail, false⟩ :: R, 1⟩
      = some (⟨4, [100, 105, 48, 101], 1, some ⟨1, bc_object.Int 0 :: tail, false⟩ :: R, 0⟩,
          true) := by
  rw [iter_unfold ⟨1, [100], 2,
        some ⟨2, bc_object.Int 0 :: bc_object.Int 0 :: tail, false⟩ :: R, 1⟩ 0
    ⟨2, bc_object.Int 0 :: bc_object.Int 0 :: tail, false⟩ (bc_object.Int 0)
    (bc_object.Int 0 :: tail) 1 0 (show (2 + UINT_MOD - 1) % UINT_MOD = 0 + 1 by decide)
    (List.getElem?_cons_zero ..) rfl (show (2 + UINT_MOD - 1) % UINT_MOD = 1 by decide)
    (show (if (1 : Nat) = 0 then 1 else 0) = 0 by decide)]
  rfl

theorem iter_two_slots_b (tail : List bc_object) (R : List (Option bc_list_b)) :
    bc_write_iter ⟨4, [100, 105, 48, 101], 1,
        some ⟨1, bc_object.Int 0 :: tail, false⟩ :: R, 0⟩
      = some (⟨8, [100, 105, 48, 101, 105, 48, 101, 101], 1, some ⟨0, tail, false⟩ :: R, 1⟩,
          true) := by
  rw [iter_unfold ⟨4, [100, 105, 48, 101], 1,
        some ⟨1, bc_object.Int 0 :: tail, false⟩ :: R, 0⟩ 0
    ⟨1, bc_object.Int 0 :: tail, false⟩ (bc_object.Int 0) tail 0 1
    (show (1 + UINT_MOD - 0) % UINT_MOD = 0 + 1 by decide)
    (List.getElem?_cons_zero ..) rfl (show (1 + UINT_MOD - 1) % UINT_MOD = 0 by decide)
    (show (if (0 : Nat) = 0 then 1 else 0) = 1 by decide)]
  rfl

theorem iter_two_slots_c (tail : List bc_object) (R : List (Option bc_list_b)) :
    bc_write_iter ⟨8, [100, 105, 48, 101, 105, 48, 101, 101], 1,
        some ⟨0, tail, false⟩ :: R, 1⟩
      = some (⟨8, [100, 105, 48, 101, 105, 48, 101, 101], 0, some ⟨0, tail, false⟩ :: R, 1⟩,
          false) :=
  iter_exit _ (show (1 + UINT_MOD - 1) % UINT_MOD = 0 by decide)
theorem loop_continue (fuel : Nat) (st st1 : bc_wstate)
    (h : bc_write_iter st = some (st1, true)) :
    bc_write_loop (fuel + 1) st = bc_write_loop fuel st1 := by
  rw [bc_write_loop, h]

theorem loop_exit (fuel : Nat) (st st1 : bc_wstate)
    (h : bc_write_iter st = some (st1, false)) :
    bc_write_loop (fuel + 1) st = some st1 := by
  rw [bc_write_loop, h]

theorem bc_write_of_loop (fuel : Nat) (obj : bc_object) (st : bc_wstate)
    (h : bc_write_loop fuel (bc_write_init obj) = some st) :
    bc_write fuel obj = some (st.buf, st.s) := by
  unfold bc_write
  rw [h]

theorem bc_write_wrapped_dict (ps : List (bc_object × bc_object))
    (hlen : ps.length = 2147483647) :
    bc_write 4 (bc_object.Dct ((bc_object.Int 0, bc_object.Int 0)
        :: (bc_object.Int 0, bc_object.Int 0) :: ps))
      = some ([100, 105, 48, 101, 105, 48, 101, 101], 8) := by
  have hL : ((((bc_object.Int 0, bc_object.Int 0)
      :: (bc_object.Int 0, bc_object.Int 0) :: ps).length % UINT_MOD) * 2) % UINT_MOD = 2 := by
    simp only [List.length_cons, hlen]
    decide
  have h1 := iter_first_dct _ (List.replicate 31 none) 2 hL
  simp only [kvSlots] at h1
  apply bc_write_of_loop 4 _ ⟨8, [100, 105, 48, 101, 105, 48, 101, 101], 0,
    some ⟨0, bc_object.Int 0 :: bc_object.Int 0 :: kvSlots ps, false⟩
      :: List.replicate 31 none, 1⟩
  show bc_write_loop 4 ⟨0, [], 1, some ⟨1, [bc_object.Dct ((bc_object.Int 0, bc_object.Int 0)
        :: (bc_object.Int 0, bc_object.Int 0) :: ps)], true⟩ :: List.replicate 31 none, 0⟩ = _
  rw [loop_continue 3 _ _ h1, loop_continue 2 _ _ (iter_two_slots_a _ _),
    loop_continue 1 _ _ (iter_two_slots_b _ _), loop_exit 0 _ _ (iter_two_slots_c _ _)]

theorem nonEmptyPairs_replicate (n : Nat) :
    nonEmptyPairs (List.replicate n (bc_object.Int 0, bc_object.Int 0)) = true := by
  induction n with
  | zero => rfl
  | succ n ih => rw [List.replicate_succ, nonEmptyPairs, ih]; rfl

theorem nestingPairs_replicate (n : Nat) :
    nestingPairs (List.replicate n (bc_object.Int 0, bc_object.Int 0)) = 0 := by
  induction n with
  | zero => rfl
  | succ n ih => rw [List.replicate_succ, nestingPairs, ih]; rfl

/-- C10 (as stated, refuted). A dictionary of `2^31 + 1` pairs `{0, 0}` has
non-empty containers and nesting 1, but `Len *= 2` wraps its count to 2:
`bc_write` stores `di0ei0ee` and returns 8, while the exact encoded length is
at least 14. -/
theorem bc_write_count_wraps_for_huge_dict :
    nonEmpty (bc_object.Dct (List.replicate 2147483649 (bc_object.Int 0, bc_object.Int 0))) = true
      ∧ nesting (bc_object.Dct
          (List.replicate 2147483649 (bc_object.Int 0, bc_object.Int 0))) ≤ 32
      ∧ bc_write 4 (bc_object.Dct
          (List.replicate 2147483649 (bc_object.Int 0, bc_object.Int 0)))
        = some ([100, 105, 48, 101, 105, 48, 101, 101], 8)
      ∧ 14 ≤ encLen (bc_object.Dct
          (List.replicate 2147483649 (bc_object.Int 0, bc_object.Int 0))) := by
  have e : List.replicate 2147483649 (bc_object.Int 0, bc_object.Int 0)
      = (bc_object.Int 0, bc_object.Int 0) :: (bc_object.Int 0, bc_object.Int 0)
        :: List.replicate 2147483647 (bc_object.Int 0, bc_object.Int 0) := by
    rw [show (2147483649 : Nat) = 2147483647 + 1 + 1 from rfl, List.replicate_succ,
      List.replicate_succ]
  refine ⟨?_, ?_, ?_, ?_⟩
  · rw [nonEmpty, nonEmptyPairs_replicate, e]; rfl
  · rw [nesting, nestingPairs_replicate]; decide
  · rw [e]
    exact bc_write_wrapped_dict _ (List.length_replicate _ _)
  · rw [e, encLen, encLenPairs, encLenPairs]
    have h : encLen (bc_object.Int 0) = 3 := by decide
    rw [h]
    omega

/-- C10 (amended). The value returned by `bc_write` is the number of bytes it
stored; for every tree whose containers are all non-empty, whose nesting is at
most 32 and whose counts fit their `unsigned` fields also when a dictionary's
count is doubled (strings and lists shorter than `2^32`, dictionaries of fewer
than `2^31` pairs), `bc_write` returns (given fuel for one loop test per value
and a last one) and the value returned is the exact encoded length
`encLen obj`. -/
theorem bc_write_returns_encoded_length (obj : bc_object) (fuel : Nat)
    (hne : nonEmpty obj = true) (hnest : nesting obj ≤ 32) (hfit : lensFit obj = true)
    (hfuel : nodes obj < fuel) :
    (∃ buf, bc_write fuel obj = some (buf, encLen obj) ∧ buf.length = encLen obj)
      ∧ (∀ (fuel' : Nat) (o : bc_object) (r : List Nat × Nat),
          bc_write fuel' o = some r → r.2 = r.1.length) := by
  refine ⟨⟨wenc false obj, ?_, ?_⟩, bc_write_count⟩
  · rw [bc_write_spec obj fuel (writable_of obj 32 hne hfit hnest) hfuel,
      wenc_length obj false hne]
    rfl
  · rw [wenc_length obj false hne]
    rfl

theorem bc_write_returns_encoded_length_witness :
    nonEmpty (bc_object.Lst [bc_object.Str [72, 105], bc_object.Int 100,
        bc_object.Dct [(bc_object.Str [104], bc_object.Lst [bc_object.Int 10])]]) = true
    ∧ nesting (bc_object.Lst [bc_object.Str [72, 105], bc_object.Int 100,
        bc_object.Dct [(bc_object.Str [104], bc_object.Lst [bc_object.Int 10])]]) ≤ 32
    ∧ lensFit (bc_object.Lst [bc_object.Str [72, 105], bc_object.Int 100,
        bc_object.Dct [(bc_object.Str [104], bc_object.Lst [bc_object.Int 10])]]) = true
    ∧ nodes (bc_object.Lst [bc_object.Str [72, 105], bc_object.Int 100,
        bc_object.Dct [(bc_object.Str [104], bc_object.Lst [bc_object.Int 10])]]) < 8
    ∧ ∃ buf, bc_write 8 (bc_object.Lst [bc_object.Str [72, 105], bc_object.Int 100,
        bc_object.Dct [(bc_object.Str [104], bc_object.Lst [bc_object.Int 10])]])
        = some (buf, encLen (bc_object.Lst [bc_object.Str [72, 105], bc_object.Int 100,
            bc_object.Dct [(bc_object.Str [104], bc_object.Lst [bc_object.Int 10])]]))
      ∧ buf.length = encLen (bc_object.Lst [bc_object.Str [72, 105], bc_object.Int 100,
            bc_object.Dct [(bc_object.Str [104], bc_object.Lst [bc_object.Int 10])]]) :=
  ⟨by decide, by decide, by decide, by decide,
    (bc_write_returns_encoded_length _ 8 (by decide) (by decide) (by decide) (by decide)).1⟩

/-! ## Decoder: lax integer literals -/

theorem accDigits_lt (ds : List Nat) (a : Nat) (ha : a < ACC_MOD) : accDigits a ds < ACC_MOD := by
  induction ds generalizing a with
  | nil => exact ha
  | cons c ds ih =>
    exact ih _ (Nat.mod_lt _ (by decide))

theorem accDigits_modEq (ds : List Nat) (a b : Nat) (h : a % ACC_MOD = b % ACC_MOD) :
    accDigits a ds % ACC_MOD = digitsValue b ds % ACC_MOD := by
  induction ds generalizing a b with
  | nil => exact h
  | cons c ds ih =>
    have e : (((a * 10) % ACC_MOD + (c - 48)) % ACC_MOD) % ACC_MOD
        = (b * 10 + (c - 48)) % ACC_MOD := by
      rw [Nat.mod_mod, Nat.add_mod, Nat.mod_mod, ← Nat.add_mod, Nat.add_mod (a * 10),
        Nat.add_mod (b * 10), Nat.mul_mod a, Nat.mul_mod b, h]
    exact ih _ _ e

theorem accDigits_eq_mod (ds : List Nat) : accDigits 0 ds = digitsValue 0 ds % ACC_MOD := by
  rw [← accDigits_modEq ds 0 0 rfl, Nat.mod_eq_of_lt (accDigits_lt ds 0 (by decide))]

theorem chunk_int_body (body : List Nat)
    (hb : ∀ c ∈ body, (48 ≤ c ∧ c ≤ 57) ∨ c = 43 ∨ c = 45)
    (stk : List bc_tag) (d : Nat) (hd0 : d ≠ 0) (hd : d ≠ 60)
    (hT : stk[d - 1]? = some BCT_INT) (b : Bool) (a : Nat) :
    bc_chunk ⟨stk, d, 256, if b then 1 else 0, a⟩ body
      = (⟨stk, d, 256, if lastSignIsMinus b body then 1 else 0,
          accDigits a (bodyDigits body)⟩, []) := by
  induction body generalizing b a with
  | nil => rfl
  | cons c body ih =>
    have ih' := ih (fun x hx => hb x (List.mem_cons_of_mem _ hx))
    rcases hb c (List.mem_cons_self _ _) with hc | hc | hc
    · rw [bc_chunk_eq_of_step (step_digit_in stk d _ a c hd0 hd hc.1 hc.2)]
      simp only [bc_accum]
      rw [ih' b]
      have e1 : bodyDigits (c :: body) = c :: bodyDigits body := by
        simp [bodyDigits, List.filter_cons, hc.1, hc.2]
      have e2 : lastSignIsMinus b (c :: body) = lastSignIsMinus b body := by
        have h45 : c ≠ 45 := by omega
        have h43 : c ≠ 43 := by omega
        simp [lastSignIsMinus, List.foldl_cons, h45, h43]
      rw [e1, e2]
      rfl
    · subst hc
      rw [bc_chunk_eq_of_step (step_plus stk d _ a hd0 hd hT)]
      have h := ih' false a
      simp only [Bool.false_eq_true, if_false] at h
      rw [h]
      rfl
    · subst hc
      rw [bc_chunk_eq_of_step (step_minus stk d _ a hd0 hd hT)]
      have h := ih' true a
      simp only [if_true] at h
      rw [h]
      rfl

theorem chunk_int_literal (body : List Nat)
    (hb : ∀ c ∈ body, (48 ≤ c ∧ c ≤ 57) ∨ c = 43 ∨ c = 45) :
    (bc_chunk BC_ISTREAM_INIT (105 :: (body ++ [101]))).2
      = [Event.int_value (if lastSignIsMinus false body
            then -((digitsValue 0 (bodyDigits body) % ACC_MOD : Nat) : Int)
            else ((digitsValue 0 (bodyDigits body) % ACC_MOD : Nat) : Int)),
         Event.finished] := by
  have hT : (BC_ISTREAM_INIT.stack.set 1 BCT_INT)[1]? = some BCT_INT := by decide
  have h1 : bc_1step BC_ISTREAM_INIT 105
      = (⟨BC_ISTREAM_INIT.stack.set 1 BCT_INT, 2, 256, 0, 0⟩, []) :=
    step_i BC_ISTREAM_INIT.stack 1 1 0 (by decide) (by decide)
  have h2 := chunk_int_body body hb (BC_ISTREAM_INIT.stack.set 1 BCT_INT) 2 (by decide)
    (by decide) hT false 0
  simp only [Bool.false_eq_true, if_false] at h2
  rw [bc_chunk_eq_of_step h1, bc_chunk_eq_of_append h2,
    bc_chunk_eq_of_step (step_e_int_pop _ 1 _ _ (by decide) hT), bc_chunk_nil,
    accDigits_eq_mod]
  cases lastSignIsMinus false body <;> simp

theorem step_sign_str (stk : List bc_tag) (d ng a c : Nat) (hd0 : d ≠ 0) (hd : d ≠ 60)
    (hc : c = 43 ∨ c = 45) (hT : stk[d - 1]? = some BCT_STR) :
    bc_1step ⟨stk, d, 256, ng, a⟩ c
      = (⟨stk, d, 256, ng, a⟩, [Event.bad_data BCE_UNEXPECTED (some BCT_STR) c]) := by
  unfold bc_1step
  simp only [hd0, hd, STACK_SIZE, if_false, topTag_eq _ _ _ _ _ hd0, hT]
  rcases hc with hc | hc <;> subst hc <;> rfl

theorem bodyDigits_self (D : List Nat) (hD : ∀ c ∈ D, 48 ≤ c ∧ c ≤ 57) : bodyDigits D = D := by
  unfold bodyDigits
  rw [List.filter_eq_self]
  intro c hc
  simpa using hD c hc

/-- C19. For every string `D` of decimal digits, of any length, feeding
`'i' ++ D ++ 'e'` to a fresh stream reports no error and produces exactly
`int_value(value(D) mod 2^63)` followed by `finished`; in particular
`i9223372036854775808e` is reported as 0, the same events as for `i0e`, so
two different literals decode alike. -/
theorem int_literal_wraps (D : List Nat) (hD : ∀ c ∈ D, 48 ≤ c ∧ c ≤ 57) :
    (bc_chunk BC_ISTREAM_INIT (105 :: (D ++ [101]))).2
        = [Event.int_value ((digitsValue 0 D % 2 ^ 63 : Nat) : Int), Event.finished]
      ∧ (bc_chunk BC_ISTREAM_INIT (105 :: (decimalNat 9223372036854775808 ++ [101]))).2
        = [Event.int_value 0, Event.finished]
      ∧ (105 :: (decimalNat 9223372036854775808 ++ [101]) ≠ [105, 48, 101]
        ∧ (bc_chunk BC_ISTREAM_INIT (105 :: (decimalNat 9223372036854775808 ++ [101]))).2
          = (bc_chunk BC_ISTREAM_INIT [105, 48, 101]).2) := by
  refine ⟨?_, by decide, by decide, by decide⟩
  have h := chunk_int_literal D (fun c hc => Or.inl (hD c hc))
  have hs : lastSignIsMinus false D = false := by
    clear h
    induction D with
    | nil => rfl
    | cons c D ih =>
      have hc := hD c (List.mem_cons_self _ _)
      have h45 : c ≠ 45 := by omega
      have h43 : c ≠ 43 := by omega
      have ih' := ih (fun x hx => hD x (List.mem_cons_of_mem _ hx))
      simpa [lastSignIsMinus, List.foldl_cons, h45, h43] using ih'
  rw [hs, bodyDigits_self D hD] at h
  simpa [ACC_MOD] using h

theorem int_literal_wraps_witness :
    (∀ c ∈ [49, 50], 48 ≤ c ∧ c ≤ 57)
    ∧ (bc_chunk BC_ISTREAM_INIT (105 :: ([49, 50] ++ [101]))).2
        = [Event.int_value 12, Event.finished] :=
  ⟨by decide, (int_literal_wraps [49, 50] (by decide)).1⟩

/-- C18 (as stated, refuted). The literal `i-e` has no digit and its last sign
character is `'-'`; the stream reports `int_value(0)`, which is not negative
(also for `i-0e`). -/
theorem int_literal_minus_zero :
    (bc_chunk BC_ISTREAM_INIT [105, 45, 101]).2 = [Event.int_value 0, Event.finished]
      ∧ (bc_chunk BC_ISTREAM_INIT [105, 45, 48, 101]).2 = [Event.int_value 0, Event.finished]
      ∧ lastSignIsMinus false [45] = true
      ∧ ¬ ((0 : Int) < 0) := by
  decide

/-- C18 (amended). For every body made of decimal digits and `'+'`/`'-'`
characters in any number and order, whose digits read in order have a value
`m < 2^63`, feeding `'i' ++ body ++ 'e'` to a fresh stream reports no error and
produces `int_value(v)` then `finished`, where `v = -m` when the last sign
character of the body is `'-'` and `v = m` otherwise (so `v` is negative exactly
when the last sign is `'-'` and `m` is not 0); `i-+5e` gives 5 and `i+-5e`
gives -5.  A sign character right after the digits of a string length is
answered with `bad_data(Unexpected, String, sign)`. -/
theorem int_literal_last_sign_wins (body : List Nat)
    (hb : ∀ c ∈ body, (48 ≤ c ∧ c ≤ 57) ∨ c = 43 ∨ c = 45)
    (hv : digitsValue 0 (bodyDigits body) < 2 ^ 63) :
    (bc_chunk BC_ISTREAM_INIT (105 :: (body ++ [101]))).2
        = [Event.int_value (if lastSignIsMinus false body
              then -((digitsValue 0 (bodyDigits body) : Nat) : Int)
              else ((digitsValue 0 (bodyDigits body) : Nat) : Int)),
           Event.finished]
      ∧ ((if lastSignIsMinus false body
              then -((digitsValue 0 (bodyDigits body) : Nat) : Int)
              else ((digitsValue 0 (bodyDigits body) : Nat) : Int)) < 0
          ↔ (lastSignIsMinus false body = true ∧ digitsValue 0 (bodyDigits body) ≠ 0))
      ∧ (bc_chunk BC_ISTREAM_INIT [105, 45, 43, 53, 101]).2
          = [Event.int_value 5, Event.finished]
      ∧ (bc_chunk BC_ISTREAM_INIT [105, 43, 45, 53, 101]).2
          = [Event.int_value (-5), Event.finished]
      ∧ (∀ (ds : List Nat) (c : Nat), (∀ x ∈ ds, 48 ≤ x ∧ x ≤ 57) → ds ≠ [] →
          (c = 43 ∨ c = 45) →
          (bc_chunk BC_ISTREAM_INIT (ds ++ [c])).2
            = [Event.bad_data BCE_UNEXPECTED (some BCT_STR) c]) := by
  refine ⟨?_, ?_, by decide, by decide, ?_⟩
  · have h := chunk_int_literal body hb
    have hm : digitsValue 0 (bodyDigits body) % ACC_MOD = digitsValue 0 (bodyDigits body) :=
      Nat.mod_eq_of_lt (by simpa [ACC_MOD] using hv)
    rw [hm] at h
    exact h
  · cases lastSignIsMinus false body
    · simp
    · simp only [if_true, true_and]
      omega
  · intro ds c hds hne hc
    have h1 := chunk_digits_out ds hds hne BC_ISTREAM_INIT.stack 1 1 0 (by decide) (by decide)
    have hT : (BC_ISTREAM_INIT.stack.set 1 BCT_STR)[1 + 1 - 1]? = some BCT_STR := by decide
    have h1' : bc_chunk BC_ISTREAM_INIT ds
        = (⟨BC_ISTREAM_INIT.stack.set 1 BCT_STR, 1 + 1, 256, 1, accDigits 0 ds⟩, []) := h1
    rw [bc_chunk_eq_of_append h1',
      bc_chunk_eq_of_step (step_sign_str _ (1 + 1) 1 _ c (by decide) (by decide) hc hT),
      bc_chunk_nil]
    rfl

theorem int_literal_last_sign_wins_witness :
    (∀ c ∈ [45, 49, 43, 45, 50], (48 ≤ c ∧ c ≤ 57) ∨ c = 43 ∨ c = 45)
    ∧ digitsValue 0 (bodyDigits [45, 49, 43, 45, 50]) < 2 ^ 63
    ∧ (bc_chunk BC_ISTREAM_INIT (105 :: ([45, 49, 43, 45, 50] ++ [101]))).2
        = [Event.int_value (-12), Event.finished] :=
  ⟨by decide, by decide, (int_literal_last_sign_wins [45, 49, 43, 45, 50] (by decide)
    (by decide)).1⟩

/-! ## Decoder: the colon of a string and the error payload -/

theorem chunk_len_colon (L : Nat) :
    bc_chunk BC_ISTREAM_INIT (decimalNat L ++ [58])
      = bc_str ⟨BC_ISTREAM_INIT.stack.set 1 BCT_STR, 2, 512, 1, accDigits 0 (decimalNat L)⟩
          (some BCT_STR) 58 0 := by
  have h1 : bc_chunk BC_ISTREAM_INIT (decimalNat L)
      = (⟨BC_ISTREAM_INIT.stack.set 1 BCT_STR, 2, 256, 1, accDigits 0 (decimalNat L)⟩, []) :=
    chunk_digits_out (decimalNat L) (decimalNat_digit _)
      (natDigits_ne_nil _ _ (by omega)) BC_ISTREAM_INIT.stack 1 1 0 (by decide) (by decide)
  have hT : (BC_ISTREAM_INIT.stack.set 1 BCT_STR)[2 - 1]? = some BCT_STR := by decide
  rw [bc_chunk_eq_of_append h1, bc_chunk_cons, step_colon _ 2 1 _ (by omega) (by omega),
    topTag_eq _ _ _ _ _ (by omega), hT, bc_chunk_nil]
  generalize bc_str ⟨BC_ISTREAM_INIT.stack.set 1 BCT_STR, 2, 512, 1,
    accDigits 0 (decimalNat L)⟩ (some BCT_STR) 58 0 = x
  obtain ⟨i, e⟩ := x
  simp only [List.nil_append, List.append_nil]

theorem str_real_keep (stk : List bc_tag) (a ch real : Nat)
    (ha : (a + ACC_MOD - real) % ACC_MOD ≠ 0) :
    bc_str ⟨stk, 2, 512, 1, a⟩ (some BCT_STR) ch real
      = (⟨stk, 2, 512, 1, (a + ACC_MOD - real) % ACC_MOD⟩, [Event.str_chunk ([ch].take real)]) := by
  unfold bc_str
  rw [if_pos ⟨rfl, rfl⟩]
  exact if_neg ha

theorem str_real_pop (stk : List bc_tag) (a ch real : Nat)
    (ha : (a + ACC_MOD - real) % ACC_MOD = 0) :
    bc_str ⟨stk, 2, 512, 1, a⟩ (some BCT_STR) ch real
      = (⟨stk, 0, 0, 1, 0⟩, [Event.str_chunk ([ch].take real), Event.finished]) := by
  unfold bc_str
  rw [if_pos ⟨rfl, rfl⟩]
  show (if (a + ACC_MOD - real) % ACC_MOD = 0 then _ else _) = _
  rw [if_pos ha, ha]
  rfl

/-- C14 (as stated, refuted). After `1:` on a fresh stream the listener has
received one callback, a `str_chunk` of length 0. -/
theorem colon_calls_str_chunk :
    (bc_chunk BC_ISTREAM_INIT (decimalNat 1 ++ [58])).2 = [Event.str_chunk []]
      ∧ ((bc_chunk BC_ISTREAM_INIT (decimalNat 1 ++ [58])).2.filter Event.isListener).length
          = 1 := by
  decide

/-- C14 (amended). For every `L ≥ 1`, after `decimal(L) ++ ':'` on a fresh
stream the listener has received exactly one callback, a `str_chunk` of length
0 carrying no content byte; when moreover `L < 2^63` nothing else was called,
and the next byte `b`, the first content byte, is delivered as a `str_chunk`
of length 1 holding `b` (followed by `finished` when `L = 1`). -/
theorem colon_emits_empty_chunk (L : Nat) (hL : 1 ≤ L) :
    (bc_chunk BC_ISTREAM_INIT (decimalNat L ++ [58])).2.filter Event.isListener
        = [Event.str_chunk []]
      ∧ (L < 2 ^ 63 →
          (bc_chunk BC_ISTREAM_INIT (decimalNat L ++ [58])).2 = [Event.str_chunk []]
          ∧ ∀ b : Nat, (bc_chunk BC_ISTREAM_INIT ((decimalNat L ++ [58]) ++ [b])).2
              = Event.str_chunk [] :: Event.str_chunk [b]
                  :: (if L = 1 then [Event.finished] else [])) := by
  constructor
  · rw [chunk_len_colon]
    by_cases h0 : (accDigits 0 (decimalNat L) + ACC_MOD - 0) % ACC_MOD = 0
    · rw [str_real_pop _ _ _ _ h0]; rfl
    · rw [str_real_keep _ _ _ _ h0]; rfl
  · intro hlt
    have hm : L < ACC_MOD := by simpa [ACC_MOD] using hlt
    have hacc : accDigits 0 (decimalNat L) = L := accDigits_natDigits _ _ (by omega) hm
    have e0 : (L + ACC_MOD - 0) % ACC_MOD = L := by
      simp only [ACC_MOD] at hm ⊢; omega
    have h0 : (L + ACC_MOD - 0) % ACC_MOD ≠ 0 := by rw [e0]; omega
    have hc : bc_chunk BC_ISTREAM_INIT (decimalNat L ++ [58])
        = (⟨BC_ISTREAM_INIT.stack.set 1 BCT_STR, 2, 512, 1, L⟩, [Event.str_chunk []]) := by
      rw [chunk_len_colon, hacc, str_real_keep _ _ _ _ h0, e0]
      rfl
    refine ⟨by rw [hc], fun b => ?_⟩
    rw [bc_chunk_eq_of_append hc, bc_chunk_cons,
      step_col _ 2 1 _ b (by decide) (by decide), topTag_eq _ _ _ _ _ (by decide),
      (by decide : (BC_ISTREAM_INIT.stack.set 1 BCT_STR)[2 - 1]? = some BCT_STR),
      bc_chunk_nil]
    by_cases h1 : L = 1
    · have e1 : (L + ACC_MOD - 1) % ACC_MOD = 0 := by
        simp only [ACC_MOD] at hm ⊢; omega
      rw [str_real_pop _ _ _ _ e1, if_pos h1]
      rfl
    · have e1 : (L + ACC_MOD - 1) % ACC_MOD ≠ 0 := by
        simp only [ACC_MOD] at hm ⊢; omega
      rw [str_real_keep _ _ _ _ e1, if_neg h1]
      rfl

theorem colon_emits_empty_chunk_witness :
    1 ≤ 12
    ∧ (bc_chunk BC_ISTREAM_INIT (decimalNat 12 ++ [58])).2.filter Event.isListener
        = [Event.str_chunk []] :=
  ⟨by decide, (colon_emits_empty_chunk 12 (by decide)).1⟩

/-- C15 (failing input). After `i1e` the stream is at depth 0; the next byte
`'i'` is answered with `bad_data(ExtraValue, tag, 'i')` whose tag was read at
index `depth - 1 = -1`, outside the 60-entry stack (shown as `none`); the same
holds for every byte fed in that state. -/
theorem error_tag_read_outside_stack :
    (bc_chunk BC_ISTREAM_INIT [105, 49, 101]).1.depth = 0
      ∧ topTag (bc_chunk BC_ISTREAM_INIT [105, 49, 101]).1 = none
      ∧ (bc_chunk BC_ISTREAM_INIT [105, 49, 101, 105]).2
          = [Event.int_value 1, Event.finished,
             Event.bad_data BCE_EXTRAVAL none 105]
      ∧ ∀ ch : Nat, (bc_1step (bc_chunk BC_ISTREAM_INIT [105, 49, 101]).1 ch).2
          = [Event.bad_data BCE_EXTRAVAL none ch] := by
  refine ⟨by decide, by decide, by decide, fun ch => ?_⟩
  rw [step_depth0 _ ch (by decide)]

/-! ## Decoder: writes to the tag stack -/

theorem bc_pop_stack (is : bc_istream) (evs : List Event) :
    (bc_pop is evs).1.stack = is.stack ∧ (bc_pop is evs).1.depth ≤ is.depth
      ∧ ((bc_pop is evs).1.depth = 1 → is.depth = 1) := by
  unfold bc_pop
  by_cases h : is.depth - 1 = 1
  · simp [h]
  · simp [h]

theorem bc_str_stack (is : bc_istream) (T : Option bc_tag) (ch real : Nat) :
    (bc_str is T ch real).1.stack = is.stack ∧ (bc_str is T ch real).1.depth ≤ is.depth
      ∧ ((bc_str is T ch real).1.depth = 1 → is.depth = 1) := by
  unfold bc_str
  by_cases h : T = some BCT_STR ∧ is.state = st_col
  · rw [if_pos h]
    by_cases h2 : (is.acc + ACC_MOD - real) % ACC_MOD = 0
    · simp only [h2, if_true]
      exact bc_pop_stack _ _
    · simp only [h2, if_false]
      simp
  · rw [if_neg h]
    simp [bc_error]

/-- One step either leaves the tag stack as it is and does not raise the
depth (nor bring it to 1), or the depth is neither 0 nor 60 and the step
stores one tag at index `depth` and raises the depth by one. -/
theorem step_stack (is : bc_istream) (ch : Nat) :
    ((bc_1step is ch).1.stack = is.stack ∧ (bc_1step is ch).1.depth ≤ is.depth
        ∧ ((bc_1step is ch).1.depth = 1 → is.depth = 1))
    ∨ (is.depth ≠ 0 ∧ is.depth ≠ 60 ∧ ∃ tag, (bc_1step is ch).1.stack = is.stack.set is.depth tag
        ∧ (bc_1step is ch).1.depth = is.depth + 1) := by
  by_cases h0 : is.depth = 0
  · rw [step_depth0 is ch h0]; exact Or.inl ⟨rfl, le_refl _, id⟩
  by_cases h60 : is.depth = 60
  · rw [step_depth60 is ch h60]; exact Or.inl ⟨rfl, le_refl _, id⟩
  unfold bc_1step
  simp only [h0, h60, STACK_SIZE, if_false]
  by_cases c1 : 48 ≤ ch ||| is.state ∧ ch ||| is.state ≤ 57
  · rw [if_pos c1]; exact Or.inr ⟨h0, h60, BCT_STR, rfl, rfl⟩
  rw [if_neg c1]
  by_cases c2 : 48 + st_in ≤ ch ||| is.state ∧ ch ||| is.state ≤ 57 + st_in
  · rw [if_pos c2]; exact Or.inl ⟨rfl, le_refl _, id⟩
  rw [if_neg c2]
  by_cases c3 : ch ||| is.state = 105
  · rw [if_pos c3]; exact Or.inr ⟨h0, h60, BCT_INT, rfl, rfl⟩
  rw [if_neg c3]
  by_cases c4 : ch ||| is.state = 100
  · rw [if_pos c4]; exact Or.inr ⟨h0, h60, BCT_DCT, rfl, rfl⟩
  rw [if_neg c4]
  by_cases c5 : ch ||| is.state = 108
  · rw [if_pos c5]; exact Or.inr ⟨h0, h60, BCT_LST, rfl, rfl⟩
  rw [if_neg c5]
  by_cases c6 : ch ||| is.state = 58 + st_in
  · rw [if_pos c6]; exact Or.inl (bc_str_stack _ _ _ _)
  rw [if_neg c6]
  by_cases c7 : ch ||| is.state = 45 + st_in
  · rw [if_pos c7]
    by_cases hT : topTag is = some BCT_INT
    · rw [if_pos hT]; exact Or.inl ⟨rfl, le_refl _, id⟩
    · rw [if_neg hT]; exact Or.inl ⟨rfl, le_refl _, id⟩
  rw [if_neg c7]
  by_cases c8 : ch ||| is.state = 43 + st_in
  · rw [if_pos c8]
    by_cases hT : topTag is = some BCT_INT
    · rw [if_pos hT]; exact Or.inl ⟨rfl, le_refl _, id⟩
    · rw [if_neg hT]; exact Or.inl ⟨rfl, le_refl _, id⟩
  rw [if_neg c8]
  by_cases c9 : ch ||| is.state = 101 + st_in
  · rw [if_pos c9]
    by_cases hT : topTag is = some BCT_INT
    · rw [if_pos hT]; exact Or.inl (bc_pop_stack _ _)
    · rw [if_neg hT]; exact Or.inl ⟨rfl, le_refl _, id⟩
  rw [if_neg c9]
  by_cases c10 : ch ||| is.state = 101
  · rw [if_pos c10]
    by_cases hT : topTag is = some BCT_LST
    · rw [if_pos hT]; exact Or.inl (bc_pop_stack _ _)
    · rw [if_neg hT]
      by_cases hT2 : topTag is = some BCT_DCT
      · rw [if_pos hT2]; exact Or.inl (bc_pop_stack _ _)
      · rw [if_neg hT2]; exact Or.inl ⟨rfl, le_refl _, id⟩
  rw [if_neg c10]
  exact Or.inl (bc_str_stack _ _ _ _)

theorem chunk_stack_inv (input : List Nat) (is : bc_istream)
    (h1 : is.depth ≤ 60) (h2 : is.stack.length = 60) (h3 : is.stack[0]? = some BCT_NONE) :
    (bc_chunk is input).1.depth ≤ 60 ∧ (bc_chunk is input).1.stack.length = 60
      ∧ (bc_chunk is input).1.stack[0]? = some BCT_NONE := by
  induction input generalizing is with
  | nil => exact ⟨h1, h2, h3⟩
  | cons ch s ih =>
    rw [bc_chunk_cons]
    rcases step_stack is ch with ⟨hs, hd, _⟩ | ⟨hd0, hd60, tag, hs, hd⟩
    · exact ih _ (by omega) (by rw [hs]; exact h2) (by rw [hs]; exact h3)
    · refine ih _ (by omega) (by rw [hs, List.length_set]; exact h2) ?_
      rw [hs, List.getElem?_set_ne (by omega)]
      exact h3

/-- C13. From `BC_ISTREAM_INIT`, after any bytes `input`: the depth is at most
60, the tag stack still has its 60 entries with the sentinel `BCT_NONE` at
index 0, and the next call of `bc_1step`, on any byte, either leaves the tag
stack untouched or stores exactly one tag, at index `depth` with
`1 ≤ depth ≤ 59`. -/
theorem stack_writes_in_bounds (input : List Nat) :
    (bc_chunk BC_ISTREAM_INIT input).1.depth ≤ 60
      ∧ (bc_chunk BC_ISTREAM_INIT input).1.stack.length = 60
      ∧ (bc_chunk BC_ISTREAM_INIT input).1.stack[0]? = some BCT_NONE
      ∧ ∀ ch : Nat,
          (bc_1step (bc_chunk BC_ISTREAM_INIT input).1 ch).1.stack
              = (bc_chunk BC_ISTREAM_INIT input).1.stack
          ∨ (1 ≤ (bc_chunk BC_ISTREAM_INIT input).1.depth
              ∧ (bc_chunk BC_ISTREAM_INIT input).1.depth ≤ 59
              ∧ ∃ tag, (bc_1step (bc_chunk BC_ISTREAM_INIT input).1 ch).1.stack
                  = (bc_chunk BC_ISTREAM_INIT input).1.stack.set
                      (bc_chunk BC_ISTREAM_INIT input).1.depth tag) := by
  obtain ⟨h1, h2, h3⟩ := chunk_stack_inv input BC_ISTREAM_INIT (by decide) (by decide)
    (by decide)
  refine ⟨h1, h2, h3, fun ch => ?_⟩
  rcases step_stack (bc_chunk BC_ISTREAM_INIT input).1 ch with ⟨hs, _, _⟩ | ⟨hd0, hd60, tag, hs, _⟩
  · exact Or.inl hs
  · exact Or.inr ⟨by omega, by omega, tag, hs⟩

/-! ## Decoder: the open containers -/

theorem lor_in (ch : Nat) (h : ch < 256) : ch ||| 256 = ch + 256 := by
  interval_cases ch <;> rfl

theorem getElem?_of_take {α : Type} (l xs : List α) (m i : Nat) (h : l.take m = xs)
    (hi : i < m) : l[i]? = xs[i]? := by
  rw [← h, List.getElem?_take]
  simp [hi]

theorem take_pred_of_take {α : Type} (l xs : List α) (t : α) (m : Nat)
    (h : l.take (m + 1) = xs ++ [t]) (hm : xs.length = m) : l.take m = xs := by
  have h2 : (l.take (m + 1)).take m = l.take m := by
    rw [List.take_take]; congr 1; omega
  rw [← h2, h, List.take_append_of_le_length (by omega), List.take_of_length_le (by omega)]

theorem nestRun_append (a b : List Event) (opn o : List bc_tag)
    (h : nestRun opn a = some o) : nestRun opn (a ++ b) = nestRun o b := by
  induction a generalizing opn with
  | nil => simp [nestRun] at h; subst h; rfl
  | cons e a ih =>
    simp only [List.cons_append, nestRun] at h ⊢
    cases he : nestStep opn e with
    | none => rw [he] at h; simp at h
    | some o1 => rw [he] at h; exact ih _ h

theorem step_out_other (stk : List bc_tag) (d ng a ch : Nat) (hd0 : d ≠ 0) (hd : d ≠ 60)
    (hch : ch < 256) (c1 : ¬ (48 ≤ ch ∧ ch ≤ 57)) (c2 : ch ≠ 105) (c3 : ch ≠ 100)
    (c4 : ch ≠ 108) (c5 : ch ≠ 101) :
    bc_1step ⟨stk, d, 0, ng, a⟩ ch
      = (⟨stk, d, 0, ng, a⟩, [Event.bad_data BCE_UNEXPECTED stk[d - 1]? ch]) := by
  unfold bc_1step
  simp only [hd0, hd, STACK_SIZE, if_false, topTag_eq _ _ _ _ _ hd0, Nat.or_zero, st_in]
  rw [if_neg c1]
  repeat rw [if_neg (by omega)]
  unfold bc_str
  rw [if_neg (by simp [st_col])]
  rfl

theorem step_e_out_other (stk : List bc_tag) (d ng a : Nat) (hd0 : d ≠ 0) (hd : d ≠ 60)
    (h1 : stk[d - 1]? ≠ some BCT_LST) (h2 : stk[d - 1]? ≠ some BCT_DCT) :
    bc_1step ⟨stk, d, 0, ng, a⟩ 101
      = (⟨stk, d, 0, ng, a⟩, [Event.bad_data BCE_UNEXPECTED stk[d - 1]? 101]) := by
  unfold bc_1step
  simp only [hd0, hd, STACK_SIZE, if_false, topTag_eq _ _ _ _ _ hd0, Nat.or_zero, st_in]
  repeat rw [if_neg (by omega)]
  rw [if_pos trivial, if_neg h1, if_neg h2]
  rfl

theorem step_in_other (stk : List bc_tag) (d ng a ch : Nat) (hd0 : d ≠ 0) (hd : d ≠ 60)
    (hch : ch < 256) (c1 : ¬ (48 ≤ ch ∧ ch ≤ 57)) (c2 : ch ≠ 58) (c3 : ch ≠ 45)
    (c4 : ch ≠ 43) (c5 : ch ≠ 101) :
    bc_1step ⟨stk, d, 256, ng, a⟩ ch
      = (⟨stk, d, 256, ng, a⟩, [Event.bad_data BCE_UNEXPECTED stk[d - 1]? ch]) := by
  unfold bc_1step
  simp only [hd0, hd, STACK_SIZE, if_false, topTag_eq _ _ _ _ _ hd0, lor_in ch hch, st_in]
  repeat rw [if_neg (by omega)]
  unfold bc_str
  rw [if_neg (by simp [st_col])]
  rfl

theorem step_e_in_other (stk : List bc_tag) (d ng a : Nat) (hd0 : d ≠ 0) (hd : d ≠ 60)
    (h1 : stk[d - 1]? ≠ some BCT_INT) :
    bc_1step ⟨stk, d, 256, ng, a⟩ 101
      = (⟨stk, d, 256, ng, a⟩, [Event.bad_data BCE_UNEXPECTED stk[d - 1]? 101]) := by
  unfold bc_1step
  simp only [hd0, hd, STACK_SIZE, if_false, topTag_eq _ _ _ _ _ hd0, h1]
  rfl

theorem str_other (is : bc_istream) (T : Option bc_tag) (ch real : Nat)
    (hT : T ≠ some BCT_STR) :
    bc_str is T ch real = (is, [Event.bad_data BCE_UNEXPECTED T ch]) := by
  unfold bc_str
  rw [if_neg (fun h => hT h.1)]
  rfl

theorem str_col (stk : List bc_tag) (d ng a ch real : Nat) :
    bc_str ⟨stk, d + 1, 512, ng, a⟩ (some BCT_STR) ch real
      = if (a + ACC_MOD - real) % ACC_MOD = 0 then
          (⟨stk, if d = 1 then 0 else d, 0, ng, 0⟩,
            [Event.str_chunk ([ch].take real)] ++ if d = 1 then [Event.finished] else [])
        else (⟨stk, d + 1, 512, ng, (a + ACC_MOD - real) % ACC_MOD⟩,
            [Event.str_chunk ([ch].take real)]) := by
  unfold bc_str
  rw [if_pos ⟨rfl, rfl⟩]
  show (if (a + ACC_MOD - real) % ACC_MOD = 0 then _ else _) = _
  by_cases h : (a + ACC_MOD - real) % ACC_MOD = 0
  · rw [if_pos h, if_pos h, h, bc_pop_eq]
  · rw [if_neg h, if_neg h]

theorem top_of_out (stk opn : List bc_tag)
    (htk : stk.take (opn.length + 1) = BCT_NONE :: opn.reverse) :
    stk[opn.length + 1 - 1]? = some (opn.headD BCT_NONE) := by
  rw [getElem?_of_take stk _ (opn.length + 1) _ htk (by omega)]
  cases opn with
  | nil => rfl
  | cons c r => simp

theorem top_of_scalar (stk opn : List bc_tag) (t : bc_tag)
    (htk : stk.take (opn.length + 2) = BCT_NONE :: (opn.reverse ++ [t])) :
    stk[opn.length + 2 - 1]? = some t := by
  rw [getElem?_of_take stk _ (opn.length + 2) _ htk (by omega)]
  simp

theorem track_error (is : bc_istream) (opn : List bc_tag) (e : bc_err) (T : Option bc_tag)
    (ch : Nat) (h : Track is opn) :
    ∃ opn', nestRun opn [Event.bad_data e T ch] = some opn' ∧ Track is opn' :=
  ⟨opn, rfl, h⟩

theorem track_pop_scalar (stk : List bc_tag) (ng a : Nat) (opn : List bc_tag) (t : bc_tag)
    (e : Event) (he : ∀ o, nestStep o e = some o)
    (hlen : stk.length = 60) (hc : ∀ t ∈ opn, t = BCT_LST ∨ t = BCT_DCT)
    (hle : opn.length + 2 ≤ 60)
    (htk : stk.take (opn.length + 2) = BCT_NONE :: (opn.reverse ++ [t])) :
    ∃ opn', nestRun opn ([e] ++ if opn.length + 1 = 1 then [Event.finished] else [])
        = some opn'
      ∧ Track ⟨stk, if opn.length + 1 = 1 then 0 else opn.length + 1, 0, ng, a⟩ opn' := by
  have htk' : stk.take (opn.length + 1) = BCT_NONE :: opn.reverse :=
    take_pred_of_take stk _ t _ htk (by simp)
  cases opn with
  | nil =>
    refine ⟨[], ?_, Track.done stk ng a hlen⟩
    simp [nestRun, he]
    rfl
  | cons c r =>
    refine ⟨c :: r, ?_, ?_⟩
    · simp [nestRun, he]
    · have h1 : ¬ ((c :: r).length + 1 = 1) := by simp
      rw [if_neg h1]
      exact Track.out stk ng a (c :: r) hlen hc (by omega) htk'

theorem track_pop_container (stk : List bc_tag) (ng a : Nat) (c : bc_tag) (r : List bc_tag)
    (e : Event) (he : nestStep (c :: r) e = some r)
    (hlen : stk.length = 60) (hc : ∀ t ∈ c :: r, t = BCT_LST ∨ t = BCT_DCT)
    (hle : (c :: r).length + 1 ≤ 60)
    (htk : stk.take ((c :: r).length + 1) = BCT_NONE :: (c :: r).reverse) :
    ∃ opn', nestRun (c :: r) ([e] ++ if r.length + 1 = 1 then [Event.finished] else [])
        = some opn'
      ∧ Track ⟨stk, if r.length + 1 = 1 then 0 else r.length + 1, 0, ng, a⟩ opn' := by
  have htk' : stk.take (r.length + 1) = BCT_NONE :: r.reverse := by
    apply take_pred_of_take stk _ c _ _ (by simp)
    simpa using htk
  have hc' : ∀ t ∈ r, t = BCT_LST ∨ t = BCT_DCT := fun t ht => hc t (List.mem_cons_of_mem _ ht)
  cases r with
  | nil =>
    refine ⟨[], ?_, Track.done stk ng a hlen⟩
    simp only [List.length_nil, if_true, List.singleton_append, nestRun, he]
    rfl
  | cons c2 r2 =>
    refine ⟨c2 :: r2, ?_, ?_⟩
    · have h1 : ¬ ((c2 :: r2).length + 1 = 1) := by simp
      rw [if_neg h1]
      simp only [List.append_nil, nestRun, he]
    · have h1 : ¬ ((c2 :: r2).length + 1 = 1) := by simp
      rw [if_neg h1]
      exact Track.out stk ng a (c2 :: r2) hlen hc' (by simp at hle ⊢; omega) htk'

theorem track_out_step (stk : List bc_tag) (ng a : Nat) (opn : List bc_tag) (ch : Nat)
    (hch : ch < 256)
    (hlen : stk.length = 60) (hc : ∀ t ∈ opn, t = BCT_LST ∨ t = BCT_DCT)
    (hle : opn.length + 1 ≤ 60)
    (htk : stk.take (opn.length + 1) = BCT_NONE :: opn.reverse) :
    ∃ opn', nestRun opn (bc_1step ⟨stk, opn.length + 1, 0, ng, a⟩ ch).2 = some opn'
      ∧ Track (bc_1step ⟨stk, opn.length + 1, 0, ng, a⟩ ch).1 opn' := by
  have hT := top_of_out stk opn htk
  have htr : Track ⟨stk, opn.length + 1, 0, ng, a⟩ opn := Track.out stk ng a opn hlen hc hle htk
  by_cases h60 : opn.length + 1 = 60
  · rw [step_depth60 _ _ h60]; exact track_error _ _ _ _ _ htr
  have hpush : ∀ t : bc_tag, (stk.set (opn.length + 1) t).take (opn.length + 1 + 1)
      = BCT_NONE :: (opn.reverse ++ [t]) := by
    intro t
    rw [take_succ_set _ _ _ (by omega), htk]
    rfl
  by_cases c1 : 48 ≤ ch ∧ ch ≤ 57
  · rw [step_digit_out stk _ ng a ch (by omega) h60 c1.1 c1.2]
    exact ⟨opn, rfl, Track.scalar _ 256 ng _ opn BCT_STR (by simpa using hlen) hc (by omega)
      (Or.inl rfl) (Or.inr rfl) (hpush _)⟩
  by_cases c2 : ch = 105
  · subst c2
    rw [step_i stk _ ng a (by omega) h60]
    exact ⟨opn, rfl, Track.scalar _ 256 0 _ opn BCT_INT (by simpa using hlen) hc (by omega)
      (Or.inl rfl) (Or.inl rfl) (hpush _)⟩
  by_cases c3 : ch = 100
  · subst c3
    rw [step_d stk _ ng a (by omega) h60]
    refine ⟨BCT_DCT :: opn, rfl, Track.out _ ng a (BCT_DCT :: opn) (by simpa using hlen) ?_
      (by simp; omega) ?_⟩
    · intro t ht
      rcases List.mem_cons.1 ht with ht | ht
      · exact Or.inr ht
      · exact hc t ht
    · rw [List.reverse_cons]; exact hpush _
  by_cases c4 : ch = 108
  · subst c4
    rw [step_l stk _ ng a (by omega) h60]
    refine ⟨BCT_LST :: opn, rfl, Track.out _ ng a (BCT_LST :: opn) (by simpa using hlen) ?_
      (by simp; omega) ?_⟩
    · intro t ht
      rcases List.mem_cons.1 ht with ht | ht
      · exact Or.inl ht
      · exact hc t ht
    · rw [List.reverse_cons]; exact hpush _
  by_cases c5 : ch = 101
  · subst c5
    cases opn with
    | nil =>
      rw [step_e_out_other stk _ ng a (by omega) h60 (by rw [hT]; simp) (by rw [hT]; simp)]
      exact track_error _ _ _ _ _ htr
    | cons c r =>
      rcases hc c (List.mem_cons_self _ _) with hcl | hcd
      · subst hcl
        rw [List.length_cons, step_e_lst_pop stk _ ng a (by simpa using h60)
          (by simpa using hT)]
        exact track_pop_container stk ng a BCT_LST r Event.lst_leave rfl hlen hc hle htk
      · subst hcd
        rw [List.length_cons, step_e_dct_pop stk _ ng a (by simpa using h60)
          (by simpa using hT)]
        exact track_pop_container stk ng a BCT_DCT r Event.dct_leave rfl hlen hc hle htk
  · rw [step_out_other stk _ ng a ch (by omega) h60 hch c1 c2 c3 c4 c5]
    exact track_error _ _ _ _ _ htr

theorem track_str (stk : List bc_tag) (ng a : Nat) (opn : List bc_tag) (t : bc_tag)
    (ch real : Nat)
    (hlen : stk.length = 60) (hc : ∀ t ∈ opn, t = BCT_LST ∨ t = BCT_DCT)
    (hle : opn.length + 2 ≤ 60) (ht : t = BCT_INT ∨ t = BCT_STR)
    (htk : stk.take (opn.length + 2) = BCT_NONE :: (opn.reverse ++ [t])) :
    ∃ opn', nestRun opn (bc_str ⟨stk, opn.length + 2, 512, ng, a⟩ (some t) ch real).2
        = some opn'
      ∧ Track (bc_str ⟨stk, opn.length + 2, 512, ng, a⟩ (some t) ch real).1 opn' := by
  have htr : ∀ a', Track ⟨stk, opn.length + 2, 512, ng, a'⟩ opn :=
    fun a' => Track.scalar stk 512 ng a' opn t hlen hc hle (Or.inr rfl) ht htk
  rcases ht with ht | ht
  · subst ht
    rw [str_other _ _ _ _ (by simp)]
    exact track_error _ _ _ _ _ (htr a)
  · subst ht
    rw [str_col stk (opn.length + 1) ng a ch real]
    by_cases h : (a + ACC_MOD - real) % ACC_MOD = 0
    · rw [if_pos h]
      exact track_pop_scalar stk ng 0 opn BCT_STR _ (fun _ => rfl) hlen hc hle htk
    · rw [if_neg h]
      exact ⟨opn, rfl, htr _⟩

theorem track_scalar_step (stk : List bc_tag) (st ng a : Nat) (opn : List bc_tag) (t : bc_tag)
    (ch : Nat) (hch : ch < 256)
    (hlen : stk.length = 60) (hc : ∀ t ∈ opn, t = BCT_LST ∨ t = BCT_DCT)
    (hle : opn.length + 2 ≤ 60) (hst : st = 256 ∨ st = 512)
    (ht : t = BCT_INT ∨ t = BCT_STR)
    (htk : stk.take (opn.length + 2) = BCT_NONE :: (opn.reverse ++ [t])) :
    ∃ opn', nestRun opn (bc_1step ⟨stk, opn.length + 2, st, ng, a⟩ ch).2 = some opn'
      ∧ Track (bc_1step ⟨stk, opn.length + 2, st, ng, a⟩ ch).1 opn' := by
  have hT := top_of_scalar stk opn t htk
  have htr : ∀ st' ng' a', (st' = 256 ∨ st' = 512) →
      Track ⟨stk, opn.length + 2, st', ng', a'⟩ opn :=
    fun st' ng' a' h => Track.scalar stk st' ng' a' opn t hlen hc hle h ht htk
  by_cases h60 : opn.length + 2 = 60
  · rw [step_depth60 _ _ h60]; exact track_error _ _ _ _ _ (htr _ _ _ hst)
  rcases hst with hst | hst
  · subst hst
    by_cases c1 : 48 ≤ ch ∧ ch ≤ 57
    · rw [step_digit_in stk _ ng a ch (by omega) h60 c1.1 c1.2]
      exact ⟨opn, rfl, htr _ _ _ (Or.inl rfl)⟩
    by_cases c2 : ch = 58
    · subst c2
      rw [step_colon stk _ ng a (by omega) h60, topTag_eq _ _ _ _ _ (by omega), hT]
      exact track_str stk ng a opn t 58 0 hlen hc hle ht htk
    by_cases c3 : ch = 45
    · subst c3
      rcases ht with ht | ht
      · subst ht
        rw [step_minus stk _ ng a (by omega) h60 hT]
        exact ⟨opn, rfl, htr _ _ _ (Or.inl rfl)⟩
      · subst ht
        rw [step_sign_str stk _ ng a 45 (by omega) h60 (Or.inr rfl) hT]
        exact track_error _ _ _ _ _ (htr _ _ _ (Or.inl rfl))
    by_cases c4 : ch = 43
    · subst c4
      rcases ht with ht | ht
      · subst ht
        rw [step_plus stk _ ng a (by omega) h60 hT]
        exact ⟨opn, rfl, htr _ _ _ (Or.inl rfl)⟩
      · subst ht
        rw [step_sign_str stk _ ng a 43 (by omega) h60 (Or.inl rfl) hT]
        exact track_error _ _ _ _ _ (htr _ _ _ (Or.inl rfl))
    by_cases c5 : ch = 101
    · subst c5
      rcases ht with ht | ht
      · subst ht
        rw [step_e_int_pop stk (opn.length + 1) ng a h60 (by simpa using hT)]
        exact track_pop_scalar stk ng 0 opn BCT_INT _ (fun _ => rfl) hlen hc hle htk
      · subst ht
        rw [step_e_in_other stk _ ng a (by omega) h60 (by rw [hT]; simp)]
        exact track_error _ _ _ _ _ (htr _ _ _ (Or.inl rfl))
    · rw [step_in_other stk _ ng a ch (by omega) h60 hch c1 c2 c3 c4 c5]
      exact track_error _ _ _ _ _ (htr _ _ _ (Or.inl rfl))
  · subst hst
    rw [step_col stk _ ng a ch (by omega) h60, topTag_eq _ _ _ _ _ (by omega), hT]
    exact track_str stk ng a opn t ch 1 hlen hc hle ht htk

/-- One step keeps the calls well nested: from a stream with the containers
`opn` open, the calls of the step are accepted by `nestRun` and lead to a
stream that tracks the containers then open. -/
theorem step_track (is : bc_istream) (opn : List bc_tag) (ch : Nat) (hch : ch < 256)
    (h : Track is opn) :
    ∃ opn', nestRun opn (bc_1step is ch).2 = some opn' ∧ Track (bc_1step is ch).1 opn' := by
  cases h with
  | done stk ng a hlen =>
    rw [step_depth0 _ _ rfl]
    exact track_error _ _ _ _ _ (Track.done stk ng a hlen)
  | out stk ng a opn hlen hc hle htk => exact track_out_step stk ng a opn ch hch hlen hc hle htk
  | scalar stk st ng a opn t hlen hc hle hst ht htk =>
    exact track_scalar_step stk st ng a opn t ch hch hlen hc hle hst ht htk

theorem chunk_track (input : List Nat) (hin : ∀ c ∈ input, c < 256) (is : bc_istream)
    (opn : List bc_tag) (h : Track is opn) :
    ∃ opn', nestRun opn (bc_chunk is input).2 = some opn'
      ∧ Track (bc_chunk is input).1 opn' := by
  induction input generalizing is opn with
  | nil => exact ⟨opn, rfl, h⟩
  | cons ch s ih =>
    obtain ⟨o1, hn1, ht1⟩ := step_track is opn ch (hin ch (List.mem_cons_self _ _)) h
    obtain ⟨o2, hn2, ht2⟩ := ih (fun c hc => hin c (List.mem_cons_of_mem _ hc)) _ o1 ht1
    rw [bc_chunk_cons]
    exact ⟨o2, by rw [nestRun_append _ _ _ _ hn1]; exact hn2, ht2⟩

theorem track_init : Track BC_ISTREAM_INIT [] :=
  Track.out BC_ISTREAM_INIT.stack 1 0 [] (by decide) (fun t ht => by simp at ht) (by decide)
    (by decide)

/-- C17. For every sequence of bytes fed to a fresh stream, valid or not, the
calls made are accepted by `nestRun` from no open container: every
`lst_leave` or `dct_leave` closes the innermost container still open, which is
of that kind, none comes while no container is open, and `finished` comes
only when every container entered has been left.  The stream then tracks the
containers left open. -/
theorem events_well_nested (input : List Nat) (hin : ∀ c ∈ input, c < 256) :
    ∃ opn, nestRun [] (bc_chunk BC_ISTREAM_INIT input).2 = some opn
      ∧ Track (bc_chunk BC_ISTREAM_INIT input).1 opn :=
  chunk_track input hin BC_ISTREAM_INIT [] track_init

theorem events_well_nested_witness :
    (∀ c ∈ [108, 100, 101, 105, 45, 101, 101, 101, 120], c < 256)
    ∧ ∃ opn, nestRun [] (bc_chunk BC_ISTREAM_INIT
          [108, 100, 101, 105, 45, 101, 101, 101, 120]).2 = some opn
        ∧ Track (bc_chunk BC_ISTREAM_INIT [108, 100, 101, 105, 45, 101, 101, 101, 120]).1 opn :=
  ⟨by decide, events_well_nested [108, 100, 101, 105, 45, 101, 101, 101, 120] (by decide)⟩

/-! ## Decoder: a dictionary is read like a list -/

theorem outerSwap_append (a b : List Event) (opn o : List bc_tag)
    (h : nestRun opn a = some o) :
    outerSwap opn.length (a ++ b) = outerSwap opn.length a ++ outerSwap o.length b := by
  induction a generalizing opn with
  | nil => simp [nestRun] at h; subst h; simp [outerSwap]
  | cons e a ih =>
    simp only [nestRun] at h
    cases he : nestStep opn e with
    | none => rw [he] at h; simp at h
    | some o1 =>
      rw [he] at h
      have ih' := ih o1 h
      cases e with
      | lst_enter =>
        simp only [nestStep, Option.some.injEq] at he
        subst he
        simpa [outerSwap] using ih'
      | dct_enter =>
        simp only [nestStep, Option.some.injEq] at he
        subst he
        simpa [outerSwap] using ih'
      | lst_leave =>
        cases opn with
        | nil => simp [nestStep] at he
        | cons c r =>
          cases c <;> simp [nestStep] at he
          subst he
          simpa [outerSwap] using ih'
      | dct_leave =>
        cases opn with
        | nil => simp [nestStep] at he
        | cons c r =>
          cases c <;> simp [nestStep] at he
          subst he
          simpa [outerSwap] using ih'
      | int_value v =>
        simp only [nestStep, Option.some.injEq] at he
        subst he
        simpa [outerSwap] using ih'
      | str_chunk bs =>
        simp only [nestStep, Option.some.injEq] at he
        subst he
        simpa [outerSwap] using ih'
      | finished =>
        cases opn with
        | nil =>
          simp only [nestStep, Option.some.injEq] at he
          subst he
          simpa [outerSwap] using ih'
        | cons c r => simp [nestStep] at he
      | bad_data k t c =>
        simp only [nestStep, Option.some.injEq] at he
        subst he
        simpa [outerSwap] using ih'

theorem outerSwap_scalars (n : Nat) (evs : List Event)
    (h : ∀ e ∈ evs, e = Event.finished ∨ (∃ v, e = Event.int_value v)
      ∨ ∃ b, e = Event.str_chunk b) : outerSwap n evs = evs := by
  induction evs with
  | nil => rfl
  | cons e es ih =>
    have ih' := ih (fun x hx => h x (List.mem_cons_of_mem _ hx))
    rcases h e (List.mem_cons_self _ _) with he | ⟨v, he⟩ | ⟨b, he⟩ <;> subst he <;>
      simp [outerSwap, ih']

theorem outerSwap_deep (n : Nat) (hn : 2 ≤ n) (is : bc_istream) (ch : Nat)
    (r : bc_istream × List Event) (h : StepShape is ch r) : outerSwap n r.2 = r.2 := by
  have h0 : n ≠ 0 := by omega
  have h1 : n ≠ 1 := by omega
  have hone : ∀ e : Event, outerSwap n [e] = [e] := by
    intro e
    cases e <;> simp [outerSwap, h0, h1]
  rcases h with ⟨e, he, _⟩ | ⟨_, _, evs, hev, hlen, hr | ⟨hr, _⟩⟩
  · rw [he]; simp [outerSwap, h1]
  · rw [hr]
    cases evs with
    | nil => rfl
    | cons e es =>
      cases es with
      | nil => exact hone e
      | cons _ _ => simp at hlen
  · rw [hr]
    cases evs with
    | nil => rfl
    | cons e es =>
      cases es with
      | nil => cases e <;> simp [outerSwap, h0, h1]
      | cons _ _ => simp at hlen

theorem pop_scalars (is : bc_istream) (e : Event)
    (he : e = Event.finished ∨ (∃ v, e = Event.int_value v) ∨ ∃ b, e = Event.str_chunk b) :
    ∀ x ∈ (bc_pop is [e]).2, x = Event.finished ∨ (∃ v, x = Event.int_value v)
      ∨ ∃ b, x = Event.str_chunk b := by
  intro x hx
  rcases bc_pop_events is [e] with h | h
  · rw [h.1, List.mem_singleton] at hx
    subst hx; exact he
  · rw [h.1] at hx
    simp only [List.mem_append, List.mem_singleton] at hx
    rcases hx with hx | hx
    · subst hx; exact he
    · exact Or.inl hx

theorem str_scalars (is : bc_istream) (T : Option bc_tag) (ch real : Nat) :
    (bc_str is T ch real).2 = [Event.bad_data BCE_UNEXPECTED T ch]
    ∨ ∀ x ∈ (bc_str is T ch real).2, x = Event.finished ∨ (∃ v, x = Event.int_value v)
      ∨ ∃ b, x = Event.str_chunk b := by
  rcases bc_str_events is T ch real with h | h | h | h
  · exact Or.inl h.1
  · right; intro x hx
    rw [h.1, List.mem_singleton] at hx
    exact Or.inr (Or.inr ⟨_, hx⟩)
  · right; intro x hx
    rw [h.1, List.mem_singleton] at hx
    exact Or.inr (Or.inr ⟨_, hx⟩)
  · right; intro x hx
    rw [h.1] at hx
    simp only [List.mem_cons, List.mem_singleton, List.not_mem_nil, or_false] at hx
    rcases hx with hx | hx
    · exact Or.inr (Or.inr ⟨_, hx⟩)
    · exact Or.inl hx

/-- The calls of one step: one error carrying the top tag and the byte, or
the step took a branch of a byte met in state `_out` (`ch | state ≤ 108`), or
every call is `int_value`, `str_chunk` or `finished`. -/
theorem step_events_kind (is : bc_istream) (ch : Nat) :
    (∃ e, (bc_1step is ch).2 = [Event.bad_data e (topTag is) ch])
    ∨ ch ||| is.state ≤ 108
    ∨ ∀ x ∈ (bc_1step is ch).2, x = Event.finished ∨ (∃ v, x = Event.int_value v)
        ∨ ∃ b, x = Event.str_chunk b := by
  by_cases h0 : is.depth = 0
  · rw [step_depth0 is ch h0]
    exact Or.inl ⟨BCE_EXTRAVAL, by simp [topTag, h0]⟩
  by_cases h60 : is.depth = 60
  · rw [step_depth60 is ch h60]
    exact Or.inl ⟨BCE_OVERFLOW, rfl⟩
  have hnil : ∀ x ∈ ([] : List Event), x = Event.finished ∨ (∃ v, x = Event.int_value v)
      ∨ ∃ b, x = Event.str_chunk b := fun x hx => by simp at hx
  unfold bc_1step
  simp only [h0, h60, STACK_SIZE, if_false]
  by_cases c1 : 48 ≤ ch ||| is.state ∧ ch ||| is.state ≤ 57
  · exact Or.inr (Or.inl (by omega))
  rw [if_neg c1]
  by_cases c2 : 48 + st_in ≤ ch ||| is.state ∧ ch ||| is.state ≤ 57 + st_in
  · rw [if_pos c2]; exact Or.inr (Or.inr hnil)
  rw [if_neg c2]
  by_cases c3 : ch ||| is.state = 105
  · exact Or.inr (Or.inl (by omega))
  rw [if_neg c3]
  by_cases c4 : ch ||| is.state = 100
  · exact Or.inr (Or.inl (by omega))
  rw [if_neg c4]
  by_cases c5 : ch ||| is.state = 108
  · exact Or.inr (Or.inl (by omega))
  rw [if_neg c5]
  by_cases c6 : ch ||| is.state = 58 + st_in
  · rw [if_pos c6]
    rcases str_scalars { is with state := st_col } (topTag is) ch 0 with h | h
    · exact Or.inl ⟨_, h⟩
    · exact Or.inr (Or.inr h)
  rw [if_neg c6]
  by_cases c7 : ch ||| is.state = 45 + st_in
  · rw [if_pos c7]
    by_cases hT : topTag is = some BCT_INT
    · rw [if_pos hT]; exact Or.inr (Or.inr hnil)
    · rw [if_neg hT]; exact Or.inl ⟨_, rfl⟩
  rw [if_neg c7]
  by_cases c8 : ch ||| is.state = 43 + st_in
  · rw [if_pos c8]
    by_cases hT : topTag is = some BCT_INT
    · rw [if_pos hT]; exact Or.inr (Or.inr hnil)
    · rw [if_neg hT]; exact Or.inl ⟨_, rfl⟩
  rw [if_neg c8]
  by_cases c9 : ch ||| is.state = 101 + st_in
  · rw [if_pos c9]
    by_cases hT : topTag is = some BCT_INT
    · rw [if_pos hT]; exact Or.inr (Or.inr (pop_scalars _ _ (Or.inr (Or.inl ⟨_, rfl⟩))))
    · rw [if_neg hT]; exact Or.inl ⟨_, rfl⟩
  rw [if_neg c9]
  by_cases c10 : ch ||| is.state = 101
  · exact Or.inr (Or.inl (by omega))
  rw [if_neg c10]
  rcases str_scalars is (topTag is) ch 1 with h | h
  · exact Or.inl ⟨_, h⟩
  · exact Or.inr (Or.inr h)

theorem pop_withStack (is : bc_istream) (s2 : List bc_tag) (evs : List Event) :
    bc_pop (withStack is s2) evs = (withStack (bc_pop is evs).1 s2, (bc_pop is evs).2) := by
  unfold bc_pop withStack
  by_cases h : is.depth - 1 = 1
  · simp [h]
  · simp [h]

theorem str_withStack (is : bc_istream) (s2 : List bc_tag) (T : Option bc_tag)
    (ch real : Nat) :
    bc_str (withStack is s2) T ch real
      = (withStack (bc_str is T ch real).1 s2, (bc_str is T ch real).2) := by
  unfold bc_str
  by_cases h : T = some BCT_STR ∧ is.state = st_col
  · have h' : T = some BCT_STR ∧ (withStack is s2).state = st_col := h
    rw [if_pos h, if_pos h']
    by_cases h2 : (is.acc + ACC_MOD - real) % ACC_MOD = 0
    · have h2' : ((withStack is s2).acc + ACC_MOD - real) % ACC_MOD = 0 := h2
      simp only [h2, h2', if_true]
      exact pop_withStack { is with acc := 0 } s2 _
    · have h2' : ¬ ((withStack is s2).acc + ACC_MOD - real) % ACC_MOD = 0 := h2
      simp only [h2, h2', if_false]
      rfl
  · have h' : ¬ (T = some BCT_STR ∧ (withStack is s2).state = st_col) := h
    rw [if_neg h, if_neg h']
    rfl

/-- A step taken at a depth other than 1 and 2 does not look at the tag at
index 1: replacing that tag before the step or after it is the same. -/
theorem step_retag (stk : List bc_tag) (d st ng a : Nat) (t : bc_tag) (ch : Nat)
    (hd1 : d ≠ 1) (hd2 : d ≠ 2) :
    bc_1step ⟨stk.set 1 t, d, st, ng, a⟩ ch
      = (withStack (bc_1step ⟨stk, d, st, ng, a⟩ ch).1
            ((bc_1step ⟨stk, d, st, ng, a⟩ ch).1.stack.set 1 t),
          (bc_1step ⟨stk, d, st, ng, a⟩ ch).2) := by
  have hT : topTag ⟨stk.set 1 t, d, st, ng, a⟩ = topTag ⟨stk, d, st, ng, a⟩ := by
    unfold topTag
    by_cases h0 : d = 0
    · simp [h0]
    · simp only [h0, if_false]
      rw [List.getElem?_set_ne (by omega)]
  have hpush : ∀ (tag : bc_tag), (stk.set 1 t).set d tag = (stk.set d tag).set 1 t :=
    fun tag => List.set_comm _ _ _ (by omega)
  by_cases h0 : d = 0
  · subst h0
    rw [step_depth0 _ _ rfl, step_depth0 _ _ rfl]
    rfl
  by_cases h60 : d = 60
  · subst h60
    rw [step_depth60 _ _ rfl, step_depth60 _ _ rfl, hT]
    rfl
  unfold bc_1step
  rw [hT]
  generalize topTag ⟨stk, d, st, ng, a⟩ = T
  simp only [h0, h60, STACK_SIZE, if_false]
  by_cases c1 : 48 ≤ ch ||| st ∧ ch ||| st ≤ 57
  · simp only [c1, and_self, if_true, bc_push, bc_accum, withStack, hpush]
  simp only [c1, if_false]
  by_cases c2 : 48 + st_in ≤ ch ||| st ∧ ch ||| st ≤ 57 + st_in
  · simp only [c2, and_self, if_true, bc_accum, withStack]
  simp only [c2, if_false]
  by_cases c3 : ch ||| st = 105
  · simp only [c3, if_true, bc_push, withStack, hpush]
  simp only [c3, if_false]
  by_cases c4 : ch ||| st = 100
  · simp only [c4, if_true, bc_push, withStack, hpush]
  simp only [c4, if_false]
  by_cases c5 : ch ||| st = 108
  · simp only [c5, if_true, bc_push, withStack, hpush]
  simp only [c5, if_false]
  have hstr : ∀ (st' real : Nat),
      bc_str ⟨stk.set 1 t, d, st', ng, a⟩ T ch real
        = (withStack (bc_str ⟨stk, d, st', ng, a⟩ T ch real).1
            ((bc_str ⟨stk, d, st', ng, a⟩ T ch real).1.stack.set 1 t),
          (bc_str ⟨stk, d, st', ng, a⟩ T ch real).2) := by
    intro st' real
    rw [(bc_str_stack ⟨stk, d, st', ng, a⟩ T ch real).1]
    exact str_withStack ⟨stk, d, st', ng, a⟩ (stk.set 1 t) T ch real
  have hpop : ∀ (a' : Nat) (evs : List Event),
      bc_pop ⟨stk.set 1 t, d, st, ng, a'⟩ evs
        = (withStack (bc_pop ⟨stk, d, st, ng, a'⟩ evs).1
            ((bc_pop ⟨stk, d, st, ng, a'⟩ evs).1.stack.set 1 t),
          (bc_pop ⟨stk, d, st, ng, a'⟩ evs).2) := by
    intro a' evs
    rw [(bc_pop_stack ⟨stk, d, st, ng, a'⟩ evs).1]
    exact pop_withStack ⟨stk, d, st, ng, a'⟩ (stk.set 1 t) evs
  by_cases c6 : ch ||| st = 58 + st_in
  · simp only [c6, if_true]
    exact hstr _ _
  simp only [c6, if_false]
  by_cases c7 : ch ||| st = 45 + st_in
  · simp only [c7, if_true]
    by_cases hT' : T = some BCT_INT
    · simp only [hT', if_true, withStack]
    · simp only [hT', if_false, bc_error, withStack]
  simp only [c7, if_false]
  by_cases c8 : ch ||| st = 43 + st_in
  · simp only [c8, if_true]
    by_cases hT' : T = some BCT_INT
    · simp only [hT', if_true, withStack]
    · simp only [hT', if_false, bc_error, withStack]
  simp only [c8, if_false]
  by_cases c9 : ch ||| st = 101 + st_in
  · simp only [c9, if_true]
    by_cases hT' : T = some BCT_INT
    · simp only [hT', if_true]
      exact hpop _ _
    · simp only [hT', if_false, bc_error, withStack]
  simp only [c9, if_false]
  by_cases c10 : ch ||| st = 101
  · simp only [c10, if_true]
    by_cases hT' : T = some BCT_LST
    · simp only [hT', if_true]
      exact hpop _ _
    · simp only [hT', if_false]
      by_cases hT2 : T = some BCT_DCT
      · simp only [hT2, if_true]
        exact hpop _ _
      · simp only [hT2, if_false, bc_error, withStack]
  simp only [c10, if_false]
  exact hstr _ _

theorem track_inv (is : bc_istream) (opn : List bc_tag) (h : Track is opn) :
    is.stack.length = 60 ∧
    ((is.depth = 0 ∧ opn = [])
    ∨ (is.depth = opn.length + 1 ∧ is.state = 0
        ∧ is.stack[is.depth - 1]? = some (opn.headD BCT_NONE))
    ∨ (is.depth = opn.length + 2 ∧ (is.state = 256 ∨ is.state = 512)
        ∧ ∃ t, (t = BCT_INT ∨ t = BCT_STR) ∧ is.stack[is.depth - 1]? = some t)) := by
  cases h with
  | done stk ng a hlen => exact ⟨hlen, Or.inl ⟨rfl, rfl⟩⟩
  | out stk ng a opn hlen hc hle htk =>
    exact ⟨hlen, Or.inr (Or.inl ⟨rfl, rfl, top_of_out stk opn htk⟩)⟩
  | scalar stk st ng a opn t hlen hc hle hst ht htk =>
    exact ⟨hlen, Or.inr (Or.inr ⟨rfl, hst, t, ht, top_of_scalar stk opn t htk⟩)⟩

theorem sim_step_two (stk : List bc_tag) (ng a ch : Nat) (hch : ch < 256)
    (hlen : stk.length = 60) (h1 : stk[1]? = some BCT_LST) :
    bc_1step ⟨stk.set 1 BCT_DCT, 2, 0, ng, a⟩ ch
      = (withStack (bc_1step ⟨stk, 2, 0, ng, a⟩ ch).1
            ((bc_1step ⟨stk, 2, 0, ng, a⟩ ch).1.stack.set 1 BCT_DCT),
          outerSwap 1 (bc_1step ⟨stk, 2, 0, ng, a⟩ ch).2) := by
  have hD : (stk.set 1 BCT_DCT)[1]? = some BCT_DCT := by
    simp [List.getElem?_set]; omega
  have hpush : ∀ (tag : bc_tag), (stk.set 1 BCT_DCT).set 2 tag
      = (stk.set 2 tag).set 1 BCT_DCT := fun tag => List.set_comm _ _ _ (by omega)
  by_cases c1 : 48 ≤ ch ∧ ch ≤ 57
  · rw [step_digit_out stk 2 ng a ch (by omega) (by omega) c1.1 c1.2,
      step_digit_out _ 2 ng a ch (by omega) (by omega) c1.1 c1.2]
    simp only [bc_accum, withStack, hpush, outerSwap]
  by_cases c2 : ch = 105
  · subst c2
    rw [step_i stk 2 ng a (by omega) (by omega), step_i _ 2 ng a (by omega) (by omega)]
    simp only [withStack, hpush, outerSwap]
  by_cases c3 : ch = 100
  · subst c3
    rw [step_d stk 2 ng a (by omega) (by omega), step_d _ 2 ng a (by omega) (by omega)]
    simp only [withStack, hpush, outerSwap]
  by_cases c4 : ch = 108
  · subst c4
    rw [step_l stk 2 ng a (by omega) (by omega), step_l _ 2 ng a (by omega) (by omega)]
    simp [withStack, hpush, outerSwap]
  by_cases c5 : ch = 101
  · subst c5
    rw [step_e_lst_pop stk 1 ng a (by omega) h1, step_e_dct_pop _ 1 ng a (by omega) hD]
    simp [withStack, outerSwap]
  · rw [step_out_other stk 2 ng a ch (by omega) (by omega) hch c1 c2 c3 c4 c5,
      step_out_other _ 2 ng a ch (by omega) (by omega) hch c1 c2 c3 c4 c5]
    simp [withStack, outerSwap, h1, hD]

theorem sim_step (stk : List bc_tag) (d st ng a : Nat) (opn : List bc_tag) (ch : Nat)
    (hch : ch < 256) (htr : Track ⟨stk, d, st, ng, a⟩ opn) (hd1 : d ≠ 1)
    (h1 : d ≠ 0 → stk[1]? = some BCT_LST) :
    bc_1step ⟨stk.set 1 BCT_DCT, d, st, ng, a⟩ ch
      = (withStack (bc_1step ⟨stk, d, st, ng, a⟩ ch).1
            ((bc_1step ⟨stk, d, st, ng, a⟩ ch).1.stack.set 1 BCT_DCT),
          outerSwap opn.length (bc_1step ⟨stk, d, st, ng, a⟩ ch).2) := by
  obtain ⟨hlen, hcase⟩ := track_inv _ _ htr
  simp only at hlen hcase
  by_cases hd2 : d = 2
  · subst hd2
    have h1' := h1 (by omega)
    rcases hcase with ⟨h, _⟩ | ⟨hd, hst, _⟩ | ⟨hd, _, t, ht, hT⟩
    · omega
    · subst hst
      have e : opn.length = 1 := by omega
      rw [e]
      exact sim_step_two stk ng a ch hch hlen h1'
    · exfalso
      rw [show (2 : Nat) - 1 = 1 from rfl, h1'] at hT
      rcases ht with ht | ht <;> subst ht <;> simp at hT
  · rw [step_retag stk d st ng a BCT_DCT ch hd1 hd2]
    have hsame : outerSwap opn.length (bc_1step ⟨stk, d, st, ng, a⟩ ch).2
        = (bc_1step ⟨stk, d, st, ng, a⟩ ch).2 := by
      rcases hcase with ⟨h, ho⟩ | ⟨hd, _, _⟩ | ⟨hd, hst, t, ht, hT⟩
      · subst h; subst ho
        rw [step_depth0 _ _ rfl]
        simp [outerSwap]
      · exact outerSwap_deep _ (by omega) _ ch _ (step_shape _ ch)
      · have hTT : topTag ⟨stk, d, st, ng, a⟩ = some t := by
          rw [topTag_eq _ _ _ _ _ (by omega)]; exact hT
        have hne : some t ≠ some BCT_LST := by
          rcases ht with ht | ht <;> subst ht <;> simp
        rcases step_events_kind ⟨stk, d, st, ng, a⟩ ch with ⟨e, he⟩ | hk | hsc
        · rw [he, hTT]
          simp [outerSwap, hne]
        · exfalso
          simp only at hk
          rcases hst with hst | hst
          · subst hst
            rw [lor_in ch hch] at hk
            omega
          · subst hst
            have := lor_col_ge ch
            omega
        · exact outerSwap_scalars _ _ hsc
    rw [hsame]

theorem sim_chunk (input : List Nat) (hin : ∀ c ∈ input, c < 256) :
    ∀ (stk : List bc_tag) (d st ng a : Nat) (opn : List bc_tag),
      Track ⟨stk, d, st, ng, a⟩ opn → d ≠ 1 → (d ≠ 0 → stk[1]? = some BCT_LST) →
      (bc_chunk ⟨stk.set 1 BCT_DCT, d, st, ng, a⟩ input).2
        = outerSwap opn.length (bc_chunk ⟨stk, d, st, ng, a⟩ input).2 := by
  induction input with
  | nil => intro stk d st ng a opn _ _ _; rfl
  | cons ch s ih =>
    intro stk d st ng a opn htr hd1 h1
    have hch := hin ch (List.mem_cons_self _ _)
    obtain ⟨o1, hn1, ht1⟩ := step_track _ opn ch hch htr
    have hs := sim_step stk d st ng a opn ch hch htr hd1 h1
    have hst := step_stack ⟨stk, d, st, ng, a⟩ ch
    rw [bc_chunk_cons, bc_chunk_cons, hs]
    generalize bc_1step ⟨stk, d, st, ng, a⟩ ch = rl at hn1 ht1 hst
    obtain ⟨⟨stk1, d1, st1, ng1, a1⟩, e1⟩ := rl
    simp only at hn1 ht1 hst
    have hd1' : d1 ≠ 1 := by
      rcases hst with ⟨_, _, h⟩ | ⟨h0, _, _, _, h⟩
      · intro hh; exact hd1 (h hh)
      · omega
    have h1' : d1 ≠ 0 → stk1[1]? = some BCT_LST := by
      intro hd10
      rcases hst with ⟨hs1, hle, _⟩ | ⟨h0, _, tag, hs1, _⟩
      · rw [hs1]; exact h1 (by omega)
      · rw [hs1, List.getElem?_set_ne (by omega)]; exact h1 h0
    have ih' := ih (fun c hc => hin c (List.mem_cons_of_mem _ hc)) stk1 d1 st1 ng1 a1 o1
      ht1 hd1' h1'
    show outerSwap opn.length e1 ++ (bc_chunk ⟨stk1.set 1 BCT_DCT, d1, st1, ng1, a1⟩ s).2 = _
    rw [ih', outerSwap_append _ _ _ _ hn1]

/-- C20. For every sequence `X` of bytes, feeding `'d' ++ X ++ 'e'` to a fresh
stream makes the calls that feeding `'l' ++ X ++ 'e'` makes, rewritten by
`outerSwap`: the outermost `lst_enter` and `lst_leave` are replaced by
`dct_enter` and `dct_leave`, an error reported with tag List directly inside
the outermost container carries tag Dictionary, and nothing else differs.  In
particular `di1ee` and `di1ei2ee` are accepted and finish without `bad_data`. -/
theorem dict_decodes_like_list (X : List Nat) (hX : ∀ c ∈ X, c < 256) :
    (bc_chunk BC_ISTREAM_INIT (100 :: (X ++ [101]))).2
        = outerSwap 0 (bc_chunk BC_ISTREAM_INIT (108 :: (X ++ [101]))).2
      ∧ (bc_chunk BC_ISTREAM_INIT [100, 105, 49, 101, 101]).2
          = [Event.dct_enter, Event.int_value 1, Event.dct_leave, Event.finished]
      ∧ (bc_chunk BC_ISTREAM_INIT [100, 105, 49, 101, 105, 50, 101, 101]).2
          = [Event.dct_enter, Event.int_value 1, Event.int_value 2, Event.dct_leave,
             Event.finished] := by
  refine ⟨?_, by decide, by decide⟩
  have hin : ∀ c ∈ X ++ [101], c < 256 := by
    intro c hc
    rcases List.mem_append.1 hc with h | h
    · exact hX c h
    · rw [List.mem_singleton] at h; omega
  have hl : bc_1step BC_ISTREAM_INIT 108
      = (⟨BC_ISTREAM_INIT.stack.set 1 BCT_LST, 2, 0, 1, 0⟩, [Event.lst_enter]) :=
    step_l BC_ISTREAM_INIT.stack 1 1 0 (by decide) (by decide)
  have hd : bc_1step BC_ISTREAM_INIT 100
      = (⟨(BC_ISTREAM_INIT.stack.set 1 BCT_LST).set 1 BCT_DCT, 2, 0, 1, 0⟩,
          [Event.dct_enter]) := by
    rw [show (BC_ISTREAM_INIT.stack.set 1 BCT_LST).set 1 BCT_DCT
      = BC_ISTREAM_INIT.stack.set 1 BCT_DCT from by decide]
    exact step_d BC_ISTREAM_INIT.stack 1 1 0 (by decide) (by decide)
  have htr : Track ⟨BC_ISTREAM_INIT.stack.set 1 BCT_LST, 2, 0, 1, 0⟩ [BCT_LST] :=
    Track.out _ 1 0 [BCT_LST] (by decide) (by decide) (by decide) (by decide)
  have h := sim_chunk (X ++ [101]) hin (BC_ISTREAM_INIT.stack.set 1 BCT_LST) 2 0 1 0
    [BCT_LST] htr (by decide) (fun _ => by decide)
  rw [bc_chunk_eq_of_step hl, bc_chunk_eq_of_step hd]
  show Event.dct_enter :: _ = _
  rw [h]
  rfl

theorem dict_decodes_like_list_witness :
    (∀ c ∈ [108, 101, 120, 49], c < 256)
    ∧ (bc_chunk BC_ISTREAM_INIT (100 :: ([108, 101, 120, 49] ++ [101]))).2
        = outerSwap 0 (bc_chunk BC_ISTREAM_INIT (108 :: ([108, 101, 120, 49] ++ [101]))).2 :=
  ⟨by decide, (dict_decodes_like_list [108, 101, 120, 49] (by decide)).1⟩

/-! ## Encoder: empty containers -/

theorem iter_empty_frame (st : bc_wstate) (n : Nat) (fr : bc_list_b)
    (hN : (st.N + UINT_MOD - st.f) % UINT_MOD = n + 1)
    (hB : st.B[n]? = some (some fr)) (hArr : fr.Arr = []) :
    bc_write_iter st = none := by
  unfold bc_write_iter
  simp only [hN, Nat.add_sub_cancel, hB, hArr]
  rfl

theorem loop_undefined (st : bc_wstate) (h : bc_write_iter st = none) (fuel : Nat) :
    bc_write_loop fuel st = none := by
  cases fuel with
  | zero => rfl
  | succ fuel => rw [bc_write_loop, h]

theorem bc_write_undefined (obj : bc_object) (fuel : Nat)
    (h : bc_write_loop fuel (bc_write_init obj) = none) : bc_write fuel obj = none := by
  unfold bc_write
  rw [h]

theorem switch_lst (st : bc_wstate) (Arr : List bc_object) :
    bc_write_switch st (bc_object.Lst Arr)
      = bc_write_push ⟨st.s + 1, st.buf ++ [108], st.N, st.B, st.f⟩
          ⟨Arr.length % UINT_MOD, Arr, false⟩ := rfl

theorem iter_first_lst (xs : List bc_object) (R : List (Option bc_list_b))
    (L : Nat) (hL : xs.length % UINT_MOD = L) :
    bc_write_iter ⟨0, [], 1, some ⟨1, [bc_object.Lst xs], true⟩ :: R, 0⟩
      = some (⟨1, [108], 2, some ⟨L, xs, false⟩ :: R, 1⟩, true) := by
  rw [iter_unfold ⟨0, [], 1, some ⟨1, [bc_object.Lst xs], true⟩ :: R, 0⟩
    0 ⟨1, [bc_object.Lst xs], true⟩ (bc_object.Lst xs) [] 0 1
    (show (1 + UINT_MOD - 0) % UINT_MOD = 0 + 1 by decide)
    (List.getElem?_cons_zero ..) rfl (show (1 + UINT_MOD - 1) % UINT_MOD = 0 by decide)
    (show (if (0 : Nat) = 0 then 1 else 0) = 1 by decide)]
  rw [switch_lst, hL, push_eq _ _ (show (0 + 1) - 1 < WSTACK_SIZE by decide)]
  simp only [close_obj]
  rfl

theorem iter_after_empty (s : Nat) (buf : List Nat)
    (R : List (Option bc_list_b)) :
    bc_write_iter ⟨s, buf, 2, some ⟨0, [], false⟩ :: R, 1⟩ = none :=
  iter_empty_frame _ 0 ⟨0, [], false⟩ (show (2 + UINT_MOD - 1) % UINT_MOD = 0 + 1 by decide)
    (List.getElem?_cons_zero ..) rfl

theorem bc_write_empty_lst (fuel : Nat) : bc_write fuel (bc_object.Lst []) = none := by
  apply bc_write_undefined
  cases fuel with
  | zero => rfl
  | succ fuel =>
    show bc_write_loop (fuel + 1) ⟨0, [], 1, some ⟨1, [bc_object.Lst []], true⟩
      :: List.replicate 31 none, 0⟩ = _
    rw [loop_continue fuel _ _ (iter_first_lst [] _ 0 (by decide))]
    exact loop_undefined _ (iter_after_empty _ _ _) fuel

theorem bc_write_empty_dct (fuel : Nat) : bc_write fuel (bc_object.Dct []) = none := by
  apply bc_write_undefined
  cases fuel with
  | zero => rfl
  | succ fuel =>
    show bc_write_loop (fuel + 1) ⟨0, [], 1, some ⟨1, [bc_object.Dct []], true⟩
      :: List.replicate 31 none, 0⟩ = _
    rw [loop_continue fuel _ _ (iter_first_dct [] _ 0 (by decide))]
    exact loop_undefined _ (iter_after_empty _ _ _) fuel

theorem close_last (st : bc_wstate) (h : st.f = 1) :
    bc_write_close st false = ⟨st.s + 1, st.buf ++ [101], st.N, st.B, st.f⟩ := by
  unfold bc_write_close
  rw [if_pos ⟨h, rfl⟩]

theorem iter_last_empty_lst (s : Nat) (buf : List Nat) (R : List (Option bc_list_b)) :
    bc_write_iter ⟨s, buf, 2, some ⟨1, [bc_object.Lst []], false⟩ :: R, 1⟩
      = some (⟨s + 1 + 1, buf ++ [108] ++ [101], 2, some ⟨0, [], false⟩ :: R, 1⟩, true) := by
  rw [iter_unfold ⟨s, buf, 2, some ⟨1, [bc_object.Lst []], false⟩ :: R, 1⟩
    0 ⟨1, [bc_object.Lst []], false⟩ (bc_object.Lst []) [] 0 1
    (show (2 + UINT_MOD - 1) % UINT_MOD = 0 + 1 by decide)
    (List.getElem?_cons_zero ..) rfl (show (1 + UINT_MOD - 1) % UINT_MOD = 0 by decide)
    (show (if (0 : Nat) = 0 then 1 else 0) = 1 by decide)]
  rw [switch_lst, push_eq _ _ (show (0 + 1) - 1 < WSTACK_SIZE by decide)]
  simp only [close_last]
  rfl

theorem bc_write_empty_child (fuel : Nat) :
    bc_write fuel (bc_object.Lst [bc_object.Lst []]) = none := by
  apply bc_write_undefined
  cases fuel with
  | zero => rfl
  | succ fuel =>
    show bc_write_loop (fuel + 1) ⟨0, [], 1, some ⟨1, [bc_object.Lst [bc_object.Lst []]], true⟩
      :: List.replicate 31 none, 0⟩ = _
    rw [loop_continue fuel _ _ (iter_first_lst [bc_object.Lst []] _ 1 (by decide))]
    cases fuel with
    | zero => rfl
    | succ fuel =>
      rw [loop_continue fuel _ _ (iter_last_empty_lst _ _ _)]
      exact loop_undefined _ (iter_after_empty _ _ _) fuel

/-- C11 (failing inputs). For an empty List, an empty Dictionary, and a List
whose only item is an empty List, `bc_write` does not return `le`, `de`,
`llee`: having stored the opening byte it decrements the count 0 of the empty
container to `2^32 - 1` and reads an object at the start of the empty array,
a child slot that does not exist (modelled as no result, whatever the fuel).
For the empty List the first iteration stores `l` and the second one is the
undefined read. -/
theorem bc_write_empty_container_undefined :
    (∀ fuel, bc_write fuel (bc_object.Lst []) = none)
      ∧ (∀ fuel, bc_write fuel (bc_object.Dct []) = none)
      ∧ (∀ fuel, bc_write fuel (bc_object.Lst [bc_object.Lst []]) = none)
      ∧ (∃ st1, bc_write_iter (bc_write_init (bc_object.Lst [])) = some (st1, true)
          ∧ st1.buf = [108] ∧ bc_write_iter st1 = none) :=
  ⟨bc_write_empty_lst, bc_write_empty_dct, bc_write_empty_child,
    ⟨_, iter_first_lst [] _ 0 (by decide), rfl, iter_after_empty _ _ _⟩⟩

/-! ## Encoder: dictionaries of scalars -/

theorem wenc_scalar (o : bc_object) (last : Bool) (h : isScalar o = true) :
    wenc last o = enc o ++ closer last := by
  cases o with
  | Int n => simp [wenc, enc]
  | Str Buf => simp [wenc, enc]
  | Lst Arr => simp [isScalar] at h
  | Dct Arr => simp [isScalar] at h

theorem scalar_facts (o : bc_object) (h : isScalar o = true) :
    nonEmpty o = true ∧ nesting o = 0 ∧ nodes o = 1 := by
  cases o with
  | Int n => exact ⟨rfl, rfl, rfl⟩
  | Str Buf => exact ⟨rfl, rfl, rfl⟩
  | Lst Arr => simp [isScalar] at h
  | Dct Arr => simp [isScalar] at h

theorem scalar_pairs_facts (ps : List (bc_object × bc_object))
    (hsc : ∀ p ∈ ps, isScalar p.1 = true ∧ isScalar p.2 = true) :
    nonEmptyPairs ps = true ∧ nestingPairs ps = 0 ∧ nodesPairs ps = 2 * ps.length
      ∧ encPairs ps = (ps.map (fun p => enc p.1 ++ enc p.2)).flatten
      ∧ wencPairs ps = encPairs ps ++ closer (!ps.isEmpty) := by
  induction ps with
  | nil => exact ⟨rfl, rfl, rfl, rfl, rfl⟩
  | cons p ps ih =>
    obtain ⟨k, v⟩ := p
    obtain ⟨h1, h2, h3, h4, h5⟩ := ih (fun q hq => hsc q (List.mem_cons_of_mem _ hq))
    obtain ⟨hk, hv⟩ := hsc (k, v) (List.mem_cons_self _ _)
    simp only at hk hv
    obtain ⟨k1, k2, k3⟩ := scalar_facts k hk
    obtain ⟨v1, v2, v3⟩ := scalar_facts v hv
    refine ⟨?_, ?_, ?_, ?_, ?_⟩
    · simp [nonEmptyPairs, k1, v1, h1]
    · simp [nestingPairs, k2, v2, h2]
    · simp only [nodesPairs, k3, v3, h3, List.length_cons]; omega
    · simp [encPairs, h4]
    · rw [wencPairs, wenc_scalar k false hk, wenc_scalar v _ hv, h5, encPairs]
      cases ps with
      | nil => simp [closer, encPairs]
      | cons q qs => simp [closer]

/-- C12 (as stated, refuted). A dictionary of `2^31 + 1` pairs of scalars
`{0, 0}`: the doubled count wraps to 2, `bc_write` stores `di0ei0ee`, one pair
and the closing byte, and every later pair is dropped. -/
theorem bc_write_drops_pairs_of_huge_dict :
    (∀ p ∈ List.replicate 2147483649 (bc_object.Int 0, bc_object.Int 0),
        isScalar p.1 = true ∧ isScalar p.2 = true)
      ∧ 1 ≤ (List.replicate 2147483649 (bc_object.Int 0, bc_object.Int 0)).length
      ∧ bc_write 4 (bc_object.Dct
          (List.replicate 2147483649 (bc_object.Int 0, bc_object.Int 0)))
        = some ([100, 105, 48, 101, 105, 48, 101, 101], 8)
      ∧ 100 :: (((List.replicate 2147483649 (bc_object.Int 0, bc_object.Int 0)).map
            (fun p => enc p.1 ++ enc p.2)).flatten ++ [101])
          ≠ [100, 105, 48, 101, 105, 48, 101, 101] := by
  have e : List.replicate 2147483649 (bc_object.Int 0, bc_object.Int 0)
      = (bc_object.Int 0, bc_object.Int 0) :: (bc_object.Int 0, bc_object.Int 0)
        :: List.replicate 2147483647 (bc_object.Int 0, bc_object.Int 0) := by
    rw [show (2147483649 : Nat) = 2147483647 + 1 + 1 from rfl, List.replicate_succ,
      List.replicate_succ]
  have h0 : enc (bc_object.Int 0) = [105, 48, 101] := by decide
  refine ⟨?_, ?_, ?_, ?_⟩
  · intro p hp
    rw [List.eq_of_mem_replicate hp]
    exact ⟨rfl, rfl⟩
  · rw [List.length_replicate]; decide
  · rw [e]
    exact bc_write_wrapped_dict _ (List.length_replicate _ _)
  · rw [e]
    generalize List.replicate 2147483647 (bc_object.Int 0, bc_object.Int 0) = tl
    simp [h0]

/-- C12 (amended). For every dictionary of `n ≥ 1` pairs whose keys and values
are all scalars and whose counts fit their `unsigned` fields also when the
pair count is doubled (`n < 2^31`, strings shorter than `2^32`), `bc_write`
returns and has stored `'d'`, then `enc(key_i) ++ enc(value_i)` for
`i = 1..n` in the given order, then `'e'`. -/
theorem bc_write_dict_pairs_in_order (ps : List (bc_object × bc_object)) (fuel : Nat)
    (hne : ps ≠ [])
    (hsc : ∀ p ∈ ps, isScalar p.1 = true ∧ isScalar p.2 = true)
    (hfit : lensFit (bc_object.Dct ps) = true)
    (hfuel : 2 * ps.length + 1 < fuel) :
    bc_write fuel (bc_object.Dct ps)
      = some (100 :: ((ps.map (fun p => enc p.1 ++ enc p.2)).flatten ++ [101]),
          (100 :: ((ps.map (fun p => enc p.1 ++ enc p.2)).flatten ++ [101])).length) := by
  obtain ⟨h1, h2, h3, h4, h5⟩ := scalar_pairs_facts ps hsc
  have hemp : ps.isEmpty = false := by
    cases ps with
    | nil => exact absurd rfl hne
    | cons _ _ => rfl
  have hw : writable 32 (bc_object.Dct ps) = true := by
    apply writable_of _ 32 _ hfit
    · rw [nesting, h2]; decide
    · rw [nonEmpty, h1, hemp]; rfl
  have hn : nodes (bc_object.Dct ps) < fuel := by
    rw [nodes, h3]; omega
  have hwe : wenc false (bc_object.Dct ps)
      = 100 :: ((ps.map (fun p => enc p.1 ++ enc p.2)).flatten ++ [101]) := by
    rw [wenc, h5, h4, hemp]
    rfl
  rw [bc_write_spec _ fuel hw hn, hwe]

theorem bc_write_dict_pairs_in_order_witness :
    [(bc_object.Str [122], bc_object.Int 1), (bc_object.Str [97], bc_object.Str [])] ≠ []
    ∧ (∀ p ∈ [(bc_object.Str [122], bc_object.Int 1), (bc_object.Str [97], bc_object.Str [])],
        isScalar p.1 = true ∧ isScalar p.2 = true)
    ∧ lensFit (bc_object.Dct
        [(bc_object.Str [122], bc_object.Int 1), (bc_object.Str [97], bc_object.Str [])]) = true
    ∧ 2 * [(bc_object.Str [122], bc_object.Int 1),
        (bc_object.Str [97], bc_object.Str [])].length + 1 < 6
    ∧ bc_write 6 (bc_object.Dct
        [(bc_object.Str [122], bc_object.Int 1), (bc_object.Str [97], bc_object.Str [])])
      = some (100 :: (([(bc_object.Str [122], bc_object.Int 1),
            (bc_object.Str [97], bc_object.Str [])].map
              (fun p => enc p.1 ++ enc p.2)).flatten ++ [101]),
          (100 :: (([(bc_object.Str [122], bc_object.Int 1),
            (bc_object.Str [97], bc_object.Str [])].map
              (fun p => enc p.1 ++ enc p.2)).flatten ++ [101])).length) :=
  ⟨by simp, by simp [isScalar], by decide, by decide,
    bc_write_dict_pairs_in_order _ 6 (by simp) (by simp [isScalar]) (by decide) (by decide)⟩

/-! ## Encoder: stack use and order of the traversal -/

theorem trace_continue (fuel : Nat) (st st1 : bc_wstate)
    (h : bc_write_iter st = some (st1, true)) :
    bc_write_trace (fuel + 1) st = st :: bc_write_trace fuel st1 := by
  rw [bc_write_trace, h]

theorem trace_exit (fuel : Nat) (st st1 : bc_wstate)
    (h : bc_write_iter st = some (st1, false)) :
    bc_write_trace (fuel + 1) st = [st] := by
  rw [bc_write_trace, h]

theorem pulled_exit (st : bc_wstate) (hN : (st.N + UINT_MOD - st.f) % UINT_MOD = 0) :
    bc_write_pulled st = none ∧ bc_write_indices st = [] := by
  unfold bc_write_pulled bc_write_indices
  simp only [hN, if_true, and_self]

theorem trace_spec (fuel : Nat) : ∀ (frs : List bc_list_b) (st : bc_wstate),
    Rep st frs → GoodStack frs → st.N ≤ 32 → nodesStack frs < fuel →
    (∀ x ∈ bc_write_trace fuel st,
        x.N ≤ 32 ∧ x.f ≤ x.N ∧ ∀ i ∈ bc_write_indices x, i < 32)
    ∧ (bc_write_trace fuel st).filterMap bc_write_pulled = valuesStack frs
    ∧ (bc_write_trace fuel st).length = nodesStack frs + 1 := by
  induction fuel with
  | zero => intro frs st _ _ _ h; omega
  | succ fuel ih =>
    intro frs st hrep hgood hN32 hn
    cases frs with
    | nil =>
      have hNmod : (st.N + UINT_MOD - st.f) % UINT_MOD = 0 := by
        obtain ⟨_, hf1, hf2, hN, _⟩ := hrep
        simp only [List.length_nil] at hN
        simp only [UINT_MOD]; omega
      obtain ⟨hp, hi⟩ := pulled_exit st hNmod
      rw [trace_exit fuel st _ (iter_nil st hrep)]
      refine ⟨?_, ?_, rfl⟩
      · intro x hx
        rw [List.mem_singleton] at hx
        subst hx
        exact ⟨hN32, hrep.2.2.1, by rw [hi]; intro i h; simp at h⟩
      · simp [List.filterMap, hp, valuesStack]
    | cons top rest =>
      obtain ⟨st3, frs', delta, hiter, hrep', hgood', hnodes, _, _, _, ⟨o, hpull, hvals⟩,
        hN3, hidx⟩ := iter_spec st top rest hrep hgood
      obtain ⟨h1, h2, h3⟩ := ih frs' st3 hrep' hgood' hN3 (by omega)
      rw [trace_continue fuel st st3 hiter]
      refine ⟨?_, ?_, ?_⟩
      · intro x hx
        rcases List.mem_cons.1 hx with hx | hx
        · subst hx
          exact ⟨hN32, hrep.2.2.1, hidx⟩
        · exact h1 x hx
      · rw [List.filterMap_cons, hpull, h2, hvals]
      · rw [List.length_cons, h3]; omega

/-- C16 (amended). For every tree whose containers are all non-empty, whose
nesting is at most 32 and whose counts fit their `unsigned` fields also when a
dictionary's count is doubled, `bc_write` returns (given fuel for one loop
test per value and a last one); at every evaluation of the loop condition
`S.N` is at most 32 and at least `f`, so that `S.N -= f` stays within 0..32;
every entry of `S.B` read or written has an index below 32; the objects
pulled, in order, are the values of the tree in depth-first order, each
pulled once; and the loop condition is evaluated once per value and once
more. -/
theorem bc_write_stack_safe (obj : bc_object) (fuel : Nat)
    (hne : nonEmpty obj = true) (hnest : nesting obj ≤ 32) (hfit : lensFit obj = true)
    (hfuel : nodes obj < fuel) :
    (∃ r, bc_write fuel obj = some r)
      ∧ (∀ st ∈ bc_write_trace fuel (bc_write_init obj),
          st.N ≤ 32 ∧ st.f ≤ st.N ∧ ∀ i ∈ bc_write_indices st, i < 32)
      ∧ (bc_write_trace fuel (bc_write_init obj)).filterMap bc_write_pulled = values obj
      ∧ (bc_write_trace fuel (bc_write_init obj)).length = nodes obj + 1 := by
  have hw := writable_of obj 32 hne hfit hnest
  have hrep : Rep (bc_write_init obj) [⟨1, [obj], true⟩] := by
    refine ⟨by simp [bc_write_init], by simp [bc_write_init], by simp [bc_write_init],
      by simp [bc_write_init], ?_⟩
    simp [bc_write_init]
  have hgood : GoodStack [⟨1, [obj], true⟩] := by
    refine ⟨⟨rfl, by simp, by simp [UINT_MOD], by simp, ?_⟩, trivial⟩
    simp [writableList, hw]
  obtain ⟨h1, h2, h3⟩ := trace_spec fuel _ _ hrep hgood (by simp [bc_write_init])
    (by simpa [nodesStack, nodesList] using hfuel)
  refine ⟨⟨_, bc_write_spec obj fuel hw hfuel⟩, h1, ?_, ?_⟩
  · rw [h2]; simp [valuesStack, valuesList]
  · rw [h3]; simp [nodesStack, nodesList]

theorem bc_write_stack_safe_witness :
    nonEmpty (bc_object.Lst [bc_object.Str [72, 105], bc_object.Int 100,
        bc_object.Dct [(bc_object.Str [104], bc_object.Lst [bc_object.Int 10])]]) = true
    ∧ nesting (bc_object.Lst [bc_object.Str [72, 105], bc_object.Int 100,
        bc_object.Dct [(bc_object.Str [104], bc_object.Lst [bc_object.Int 10])]]) ≤ 32
    ∧ lensFit (bc_object.Lst [bc_object.Str [72, 105], bc_object.Int 100,
        bc_object.Dct [(bc_object.Str [104], bc_object.Lst [bc_object.Int 10])]]) = true
    ∧ nodes (bc_object.Lst [bc_object.Str [72, 105], bc_object.Int 100,
        bc_object.Dct [(bc_object.Str [104], bc_object.Lst [bc_object.Int 10])]]) < 8
    ∧ (bc_write_trace 8 (bc_write_init (bc_object.Lst [bc_object.Str [72, 105],
        bc_object.Int 100,
        bc_object.Dct [(bc_object.Str [104], bc_object.Lst [bc_object.Int 10])]]))).filterMap
          bc_write_pulled
        = values (bc_object.Lst [bc_object.Str [72, 105], bc_object.Int 100,
            bc_object.Dct [(bc_object.Str [104], bc_object.Lst [bc_object.Int 10])]]) :=
  ⟨by decide, by decide, by decide, by decide,
    (bc_write_stack_safe _ 8 (by decide) (by decide) (by decide) (by decide)).2.2.1⟩

theorem pulled_unfold (st : bc_wstate) (n : Nat) (fr : bc_list_b) (o : bc_object)
    (rest : List bc_object) (hN : (st.N + UINT_MOD - st.f) % UINT_MOD = n + 1)
    (hB : st.B[n]? = some (some fr)) (hArr : fr.Arr = o :: rest) :
    bc_write_pulled st = some o := by
  unfold bc_write_pulled
  simp only [hN, Nat.add_sub_cancel, hB, hArr]
  rfl

theorem trace_wrapped_dict (ps : List (bc_object × bc_object))
    (hlen : ps.length = 2147483647) :
    (bc_write_trace 4 (bc_write_init (bc_object.Dct ((bc_object.Int 0, bc_object.Int 0)
        :: (bc_object.Int 0, bc_object.Int 0) :: ps)))).filterMap bc_write_pulled
      = [bc_object.Dct ((bc_object.Int 0, bc_object.Int 0)
          :: (bc_object.Int 0, bc_object.Int 0) :: ps), bc_object.Int 0, bc_object.Int 0] := by
  have hL : ((((bc_object.Int 0, bc_object.Int 0)
      :: (bc_object.Int 0, bc_object.Int 0) :: ps).length % UINT_MOD) * 2) % UINT_MOD = 2 := by
    simp only [List.length_cons, hlen]
    decide
  have h1 := iter_first_dct _ (List.replicate 31 none) 2 hL
  simp only [kvSlots] at h1
  have p0 : bc_write_pulled ⟨0, [], 1, some ⟨1, [bc_object.Dct ((bc_object.Int 0, bc_object.Int 0)
        :: (bc_object.Int 0, bc_object.Int 0) :: ps)], true⟩ :: List.replicate 31 none, 0⟩
      = some (bc_object.Dct ((bc_object.Int 0, bc_object.Int 0)
        :: (bc_object.Int 0, bc_object.Int 0) :: ps)) :=
    pulled_unfold _ 0 _ _ [] (show (1 + UINT_MOD - 0) % UINT_MOD = 0 + 1 by decide)
      (List.getElem?_cons_zero ..) rfl
  have p1 : ∀ tail : List bc_object, bc_write_pulled ⟨1, [100], 2,
        some ⟨2, bc_object.Int 0 :: bc_object.Int 0 :: tail, false⟩
          :: List.replicate 31 none, 1⟩ = some (bc_object.Int 0) :=
    fun tail => pulled_unfold _ 0 _ _ _ (show (2 + UINT_MOD - 1) % UINT_MOD = 0 + 1 by decide)
      (List.getElem?_cons_zero ..) rfl
  have p2 : ∀ tail : List bc_object, bc_write_pulled ⟨4, [100, 105, 48, 101], 1,
        some ⟨1, bc_object.Int 0 :: tail, false⟩ :: List.replicate 31 none, 0⟩
      = some (bc_object.Int 0) :=
    fun tail => pulled_unfold _ 0 _ _ _ (show (1 + UINT_MOD - 0) % UINT_MOD = 0 + 1 by decide)
      (List.getElem?_cons_zero ..) rfl
  have p3 : ∀ tail : List bc_object,
      bc_write_pulled ⟨8, [100, 105, 48, 101, 105, 48, 101, 101], 1,
        some ⟨0, tail, false⟩ :: List.replicate 31 none, 1⟩ = none :=
    fun tail => (pulled_exit _ (show (1 + UINT_MOD - 1) % UINT_MOD = 0 by decide)).1
  show (bc_write_trace 4 ⟨0, [], 1, some ⟨1, [bc_object.Dct ((bc_object.Int 0, bc_object.Int 0)
        :: (bc_object.Int 0, bc_object.Int 0) :: ps)], true⟩ :: List.replicate 31 none,
        0⟩).filterMap bc_write_pulled = _
  rw [trace_continue 3 _ _ h1, trace_continue 2 _ _ (iter_two_slots_a _ _),
    trace_continue 1 _ _ (iter_two_slots_b _ _), trace_exit 0 _ _ (iter_two_slots_c _ _),
    List.filterMap_cons, p0, List.filterMap_cons, p1, List.filterMap_cons, p2,
    List.filterMap_cons, p3]
  rfl

theorem values_two_pairs (tl : List (bc_object × bc_object)) :
    5 ≤ (values (bc_object.Dct ((bc_object.Int 0, bc_object.Int 0)
      :: (bc_object.Int 0, bc_object.Int 0) :: tl))).length := by
  simp only [values, valuesPairs, List.length_cons, List.length_append]
  omega

/-- C16 (as stated, refuted). A dictionary of `2^31 + 1` pairs `{0, 0}` has
non-empty containers and nesting 1; the doubled count wraps to 2, so the loop
of `bc_write` ends at its fourth test having pulled three objects, the
dictionary and its first key and value, while the tree has more values. -/
theorem bc_write_skips_values_of_huge_dict :
    nonEmpty (bc_object.Dct (List.replicate 2147483649 (bc_object.Int 0, bc_object.Int 0))) = true
      ∧ nesting (bc_object.Dct
          (List.replicate 2147483649 (bc_object.Int 0, bc_object.Int 0))) ≤ 32
      ∧ (∃ r, bc_write 4 (bc_object.Dct
          (List.replicate 2147483649 (bc_object.Int 0, bc_object.Int 0))) = some r)
      ∧ ((bc_write_trace 4 (bc_write_init (bc_object.Dct
          (List.replicate 2147483649 (bc_object.Int 0, bc_object.Int 0))))).filterMap
            bc_write_pulled).length = 3
      ∧ 5 ≤ (values (bc_object.Dct
          (List.replicate 2147483649 (bc_object.Int 0, bc_object.Int 0)))).length := by
  have e : List.replicate 2147483649 (bc_object.Int 0, bc_object.Int 0)
      = (bc_object.Int 0, bc_object.Int 0) :: (bc_object.Int 0, bc_object.Int 0)
        :: List.replicate 2147483647 (bc_object.Int 0, bc_object.Int 0) := by
    rw [show (2147483649 : Nat) = 2147483647 + 1 + 1 from rfl, List.replicate_succ,
      List.replicate_succ]
  refine ⟨?_, ?_, ?_, ?_, ?_⟩
  · rw [nonEmpty, nonEmptyPairs_replicate, e]; rfl
  · rw [nesting, nestingPairs_replicate]; decide
  · rw [e]
    exact ⟨_, bc_write_wrapped_dict _ (List.length_replicate _ _)⟩
  · rw [e, trace_wrapped_dict _ (List.length_replicate _ _)]
    rfl
  · rw [e]
    exact values_two_pairs _

end Bencode
